import Mathlib

/-!
Verification model of the armillary-mcp incremental build engine
(`src/cache.ts`, `src/indexer.ts`, `src/plugins.ts`, `src/watcher.ts`).

Modelling conventions:
* Absolute filesystem paths are represented as their list of path segments
  (`AbsPath`).  Node's `path` module is an external collaborator; on every
  platform `path.relative` produces the relative segments joined by
  `path.sep`, and `toRelativePosixPath` then replaces `path.sep` by `/`
  (a no-op on POSIX), so the composite is modelled directly as the relative
  segments joined by `/`.
* Asynchronous file I/O that the engine performs during a build (stat,
  read + sha256 hash) is modelled by a read-only snapshot `FsView` of the
  filesystem: the claims under study concern builds during which the
  filesystem does not change and every listed file exists (a rejected
  `fs.stat`/`fs.readFile` promise would abort the TypeScript functions with
  an exception, which is outside the scope of the claims).
* JS objects used as string-keyed records (`CacheManifest.files`,
  `newFileEntries`) are modelled as association lists in insertion order,
  with JS property-update semantics (`recordSet` keeps the position of an
  existing key).
* Bounded-concurrency batches (`BATCH_CONCURRENCY = 32`) only limit how
  many stats/hashes are in flight; the per-file results are merged in batch
  order and element order, so the sequential recursion `processChecks`
  computes the same `DiffResult` fields.
-/

namespace Armillary

/-- One documentation record produced by symbol extraction
(`SymbolDoc` from `src/schema.ts`; only the fields the build engine
itself reads or writes are modelled). -/
structure SymbolDoc where
  id : String
  name : String
  filePath : String
deriving DecidableEq, Repr

/-- Absolute platform path, as its list of path segments. -/
abbrev AbsPath := List String

/-- Cache entry for one source file (`FileEntry` in `src/cache.ts`). -/
structure FileEntry where
  contentHash : String
  symbols : List SymbolDoc
  mtimeMs : Option Nat
deriving DecidableEq, Repr

/-- The persisted cache manifest (`CacheManifest` in `src/cache.ts`).
`files` is a JS object keyed by relative POSIX path, modelled as an
association list in insertion order. -/
structure CacheManifest where
  cacheVersion : String
  indexVersion : String
  tsConfigHash : String
  pluginNames : List String
  files : List (String × FileEntry)
deriving DecidableEq, Repr

/-- Result of `computeDiff` (`DiffResult` in `src/cache.ts`).  `hashes`
and `mtimes` are `Map`s keyed by absolute path. -/
structure DiffResult where
  changed : List AbsPath
  deleted : List String
  unchanged : List AbsPath
  hashes : List (AbsPath × String)
  mtimes : List (AbsPath × Nat)
deriving DecidableEq, Repr

/-- Read-only snapshot of the filesystem during one diff: `mtimeOf p`
models `(await fs.stat(p)).mtimeMs` and `hashOf p` models
`hashFileContents(p)` (sha256 hex of the current file bytes). -/
structure FsView where
  mtimeOf : AbsPath → Nat
  hashOf : AbsPath → String

/-- Length of the longest common prefix of two segment lists. -/
def commonLen : List String → List String → Nat
  | a :: as, b :: bs => if a = b then commonLen as bs + 1 else 0
  | _, _ => 0

/-- Node `path.relative` at segment level, for normalized absolute
inputs: drop the common segment prefix, go up with `..` for the
remaining `fromP` segments, then down the remaining `toP` segments. -/
def pathRelativeSegs (fromP toP : AbsPath) : List String :=
  let n := commonLen fromP toP
  List.replicate (fromP.length - n) ".." ++ toP.drop n

/-- Model of `toRelativePosixPath` (`src/cache.ts` lines 32-39):
`path.relative(projectRoot, filePath)` produces the relative segments
joined by `path.sep`; the `replaceAll(path.sep, "/")` branch (taken when
`path.sep` is not `/`) turns that into the same segments joined by `/`,
which is what the model computes on every platform. -/
def toRelativePosixPath (filePath : AbsPath) (projectRoot : AbsPath) : String :=
  String.intercalate "/" (pathRelativeSegs projectRoot filePath)

/-- First pass of `computeDiff` over `currentFiles` (lines 142-152):
files with no cache entry go to `changed` immediately (fst), files with
an entry go to `needsCheck` (snd), both in input order. -/
def splitNewAndCheck (cache : CacheManifest) (projectRoot : AbsPath) :
    List AbsPath → List AbsPath × List (AbsPath × FileEntry)
  | [] => ([], [])
  | p :: ps =>
    let rest := splitNewAndCheck cache projectRoot ps
    match cache.files.lookup (toRelativePosixPath p projectRoot) with
    | none => (p :: rest.1, rest.2)
    | some e => (rest.1, (p, e) :: rest.2)

/-- Outcome of checking one cached file (the callback body at
`src/cache.ts` lines 159-169): whether it matched, the hash if one was
computed (slow path only), and the fresh stat mtime. -/
structure CheckOutcome where
  isMatch : Bool
  hashed : Option String
  mtime : Nat
deriving DecidableEq, Repr

/-- The per-file check: mtime fast path if the cached entry has a stored
mtime bit-for-bit equal to the live stat; otherwise hash the contents and
compare with the cached fingerprint. -/
def checkFile (fsv : FsView) (absPath : AbsPath) (cached : FileEntry) : CheckOutcome :=
  let currentMtime := fsv.mtimeOf absPath
  match cached.mtimeMs with
  | some m =>
    if currentMtime = m then
      { isMatch := true, hashed := none, mtime := currentMtime }
    else
      let currentHash := fsv.hashOf absPath
      { isMatch := currentHash == cached.contentHash, hashed := some currentHash,
        mtime := currentMtime }
  | none =>
    let currentHash := fsv.hashOf absPath
    { isMatch := currentHash == cached.contentHash, hashed := some currentHash,
      mtime := currentMtime }

/-- Accumulated classification of the `needsCheck` files (the batched
loop at `src/cache.ts` lines 156-176, results merged in order). -/
structure DiffParts where
  changed : List AbsPath
  unchanged : List AbsPath
  hashes : List (AbsPath × String)
  mtimes : List (AbsPath × Nat)
deriving DecidableEq, Repr

/-- Sequential form of the batched check loop: for each `needsCheck`
entry record the stat mtime, the hash when one was computed, and push the
path onto `unchanged` or `changed` according to the match outcome. -/
def processChecks (fsv : FsView) : List (AbsPath × FileEntry) → DiffParts
  | [] => { changed := [], unchanged := [], hashes := [], mtimes := [] }
  | (p, e) :: rest =>
    let r := checkFile fsv p e
    let tail := processChecks fsv rest
    { changed := (if r.isMatch then [] else [p]) ++ tail.changed
      unchanged := (if r.isMatch then [p] else []) ++ tail.unchanged
      hashes := (match r.hashed with | some h => [(p, h)] | none => []) ++ tail.hashes
      mtimes := (p, r.mtime) :: tail.mtimes }

/-- Model of `computeDiff` (`src/cache.ts` lines 118-186). -/
def computeDiff (currentFiles : List AbsPath) (projectRoot : AbsPath)
    (cache : Option CacheManifest) (fsv : FsView) : DiffResult :=
  match cache with
  | none =>
    { changed := currentFiles, deleted := [], unchanged := [], hashes := [], mtimes := [] }
  | some c =>
    let seenRelPaths := currentFiles.map (fun p => toRelativePosixPath p projectRoot)
    let split := splitNewAndCheck c projectRoot currentFiles
    let parts := processChecks fsv split.2
    { changed := split.1 ++ parts.changed
      deleted := (c.files.map Prod.fst).filter (fun k => !(seenRelPaths.contains k))
      unchanged := parts.unchanged
      hashes := parts.hashes
      mtimes := parts.mtimes }

/-! ### String ordering and stable sorting

JS `Array.prototype.sort()` without a comparator compares strings by
UTF-16 code units; the indexer's symbol sort uses the comparator
`a.id < b.id ? -1 : a.id > b.id ? 1 : 0`.  Both are modelled by a
lexicographic character comparison, and JS sort's stability by a stable
insertion sort. -/

/-- Lexicographic strict order on character lists (by code point). -/
def charsLt : List Char → List Char → Bool
  | [], [] => false
  | [], _ :: _ => true
  | _ :: _, [] => false
  | c :: cs, d :: ds =>
    if c.toNat < d.toNat then true
    else if d.toNat < c.toNat then false
    else charsLt cs ds

/-- Lexicographic strict order on strings (JS string `<`). -/
def strLt (a b : String) : Bool := charsLt a.data b.data

/-- Insert `a` after every element not strictly greater than it
(keeps equal elements in arrival order — a stable insertion). -/
def insertStable (lt : α → α → Bool) (a : α) : List α → List α
  | [] => [a]
  | b :: bs => if lt a b then a :: b :: bs else b :: insertStable lt a bs

/-- Stable sort by a strict order `lt` (models JS `Array.prototype.sort`,
which is stable per the ECMAScript spec). -/
def stableSort (lt : α → α → Bool) (l : List α) : List α :=
  l.foldl (fun acc a => insertStable lt a acc) []

/-- JS `[...names].sort()` on an array of strings. -/
def sortStrings (l : List String) : List String := stableSort strLt l

/-! ### Cache Store: `loadCache` (`src/cache.ts` lines 69-116)

The cache file content is modelled by the outcome of reading and parsing
it: `fs.readFile` rejecting (`missing`), `JSON.parse` throwing
(`unparsable`), the parsed value failing the `isValidCacheEnvelope`
type-level check (`badEnvelope`), or an envelope-valid manifest.  Entry
data below the envelope is trusted as engine-authored and carried in the
manifest. -/

/-- Outcome of reading and parsing the cache file. -/
inductive CacheFile where
  | missing
  | unparsable
  | badEnvelope
  | envelope (m : CacheManifest)
deriving DecidableEq, Repr

/-- The constant `CACHE_VERSION` from `src/cache.ts`. -/
def CACHE_VERSION : String := "1"

/-- Result of a successful `loadCache`. -/
structure LoadCacheResult where
  manifest : CacheManifest
  tsConfigHash : String
deriving DecidableEq, Repr

/-- Model of `loadCache`.  `tsConfigRead` is the outcome of
`hashFileContents(opts.tsConfigFilePath)`: `none` when reading the
tsconfig throws (caught, returning null), otherwise the recomputed
config fingerprint.  Every failed check returns `none` (the TypeScript
function returns `null` and never lets an exception escape: each I/O
step is wrapped in try/catch). -/
def loadCache (file : CacheFile) (tsConfigRead : Option String)
    (pluginNames : List String) (indexVersion : String) : Option LoadCacheResult :=
  match file with
  | .envelope m =>
    if m.cacheVersion ≠ CACHE_VERSION then none
    else if m.indexVersion ≠ indexVersion then none
    else
      let sortedPlugins := sortStrings pluginNames
      if sortedPlugins ≠ m.pluginNames then none
      else
        match tsConfigRead with
        | none => none
        | some h => if m.tsConfigHash ≠ h then none else some ⟨m, h⟩
  | _ => none

/-! ### Build Controller (`src/watcher.ts` lines 23-95)

`createBuildController` is a debounced single-flight scheduler.  Its
asynchronous behaviour is modelled as a state machine driven by the
three events that can occur: a `scheduleRebuild()` call, the debounce
timer firing, and the in-flight `buildFn()` promise settling.  The
controller state is the `state` variable plus whether a debounce timer
is pending (`clearTimeout` + `setTimeout` on re-schedule keeps exactly
one timer pending, so a `Bool` suffices); `builds` counts entries into
`runBuild`'s `buildFn` invocation, i.e. builds that execute. -/

/-- The `state` variable of `createBuildController`. -/
inductive BState where
  | idle
  | building
  | buildQueued
deriving DecidableEq, Repr

/-- Controller configuration: machine state, pending debounce timer,
and the number of builds started so far. -/
structure CtrlState where
  st : BState
  timerPending : Bool
  builds : Nat
deriving DecidableEq, Repr

/-- Events driving the controller: `scheduleRebuild()`, the debounce
timer firing (which calls `runBuild`), and the awaited `buildFn()`
settling (after which `runBuild` checks for a queued request). -/
inductive CtrlEvent where
  | schedule
  | timerFire
  | complete
deriving DecidableEq, Repr

/-- One controller transition.  `schedule` while `building` moves to
`build_queued`; while `build_queued` it is a no-op; while `idle` it
(re)starts the debounce timer.  `timerFire` starts a build.  `complete`
starts another build immediately when one is queued, else goes idle. -/
def ctrlStep (s : CtrlState) : CtrlEvent → CtrlState
  | .schedule =>
    match s.st with
    | .building => { s with st := .buildQueued }
    | .buildQueued => s
    | .idle => { s with timerPending := true }
  | .timerFire =>
    if s.timerPending ∧ s.st = .idle then
      { st := .building, timerPending := false, builds := s.builds + 1 }
    else s
  | .complete =>
    match s.st with
    | .buildQueued => { s with st := .building, builds := s.builds + 1 }
    | .building => { s with st := .idle }
    | .idle => s

/-- Run the controller over a sequence of events. -/
def ctrlRun (s : CtrlState) (evs : List CtrlEvent) : CtrlState :=
  evs.foldl ctrlStep s

/-! ### Build Orchestrator (`src/indexer.ts`) and File Router
(`src/plugins.ts`)

`generateDocIndex` is modelled as a pure function of
* its options (file list from the parsed tsconfig, project root,
  plugins, incremental flag, batch size),
* a collaborator bundle (`Collaborators`) standing for the external
  capabilities it consumes: the ts-morph symbol extractor, the
  filesystem snapshot, the recursive directory walk, and the tsconfig
  fingerprint, and
* the current cache-file state and the generation timestamp.
It returns the trace of observable events (plugin lifecycle calls and
artifact writes) together with either an error (a thrown exception) or
the produced index and the cache manifest that is written. -/

/-- A registered plugin (`ArmillaryPlugin` from `src/plugins.ts`).
`init` is the outcome of `plugin.init?.(context)` (plugins without an
`init` hook are modelled with `.ok ()`); `extractSymbolsFn` models the
rich contract, `extractFn` the translate-to-TS contract (returning
`none` for a `null` translation). -/
structure Plugin where
  name : String
  extensions : List String
  init : Except String Unit
  extractSymbolsFn : Option (AbsPath → String → Except String (List SymbolDoc))
  extractFn : Option (AbsPath → String → Option String)

/-- External collaborators consumed by one build, fixed for its whole
duration (the claims concern builds with no concurrent filesystem
change).  `extractFileSymbols p` is the ts-morph extraction of the file
at `p`; `extractFromCode p code` is the same extractor applied to a
virtual source file created at path `p` with contents `code`;
`treeFiles` is the list of files found by the single recursive walk of
the project root (`findAllPluginFiles`); `tsConfigHash` is the sha256 of
the tsconfig file. -/
structure Collaborators where
  fsv : FsView
  readFile : AbsPath → String
  extractFileSymbols : AbsPath → Except String (List SymbolDoc)
  extractFromCode : AbsPath → String → Except String (List SymbolDoc)
  treeFiles : List AbsPath
  tsConfigHash : String

/-- Options of `generateDocIndex` after defaulting (`incremental` defaults
to true, `batchSize` to 50); `allFilePaths` is `parsedConfig.fileNames`
from the tsconfig. -/
structure BuildOptions where
  allFilePaths : List AbsPath
  projectRoot : AbsPath
  plugins : List Plugin
  incremental : Bool
  batchSize : Nat

/-- Observable build events: successful plugin `init`, plugin `dispose`,
and the two artifact writes at the end of a successful build. -/
inductive BuildEvent where
  | pluginInit (name : String)
  | pluginDispose (name : String)
  | writeIndex
  | writeCache
deriving DecidableEq, Repr

/-- The index snapshot (`DocIndex` from `src/schema.ts`; `generatedAt`
is the `new Date().toISOString()` timestamp, modelled opaquely). -/
structure DocIndex where
  version : String
  generatedAt : Nat
  projectRoot : AbsPath
  symbols : List SymbolDoc
deriving DecidableEq, Repr

/-- The `indexVersion` constant of `generateDocIndex`. -/
def INDEX_VERSION : String := "1.0.0"

/-- Lowercase a character (ASCII, as used for file extensions). -/
def lowerChar (c : Char) : Char :=
  if 'A' ≤ c ∧ c ≤ 'Z' then Char.ofNat (c.toNat + 32) else c

/-- Lowercase a string (`String.prototype.toLowerCase` on extensions). -/
def lowerStr (s : String) : String := ⟨s.data.map lowerChar⟩

/-- Node `path.extname` on a basename: the substring from the last dot,
empty when there is no dot or the only dot is the leading one. -/
def extnameOfBase (name : String) : String :=
  match name.data.splitOn '.' with
  | [] => ""
  | [_] => ""
  | first :: rest =>
    if first = [] ∧ rest.length = 1 then ""
    else ⟨'.' :: (rest.getLast?.getD [])⟩

/-- Node `path.extname` of a full path (extension of the last segment). -/
def extnameOf (p : AbsPath) : String := extnameOfBase (p.getLast?.getD "")

/-- Whether `pat` is an initial segment of `l`. -/
def listStarts (pat : List Char) (l : List Char) : Bool :=
  match pat, l with
  | [], _ => true
  | _ :: _, [] => false
  | p :: ps, c :: cs => p == c && listStarts ps cs

/-- Whether `pat` occurs contiguously inside `l`. -/
def listHasSub (pat : List Char) : List Char → Bool
  | [] => pat.isEmpty
  | c :: cs => listStarts pat (c :: cs) || listHasSub pat cs

/-- Substring test used to model the exclusion regexes. -/
def containsSub (s : String) (sub : String) : Bool :=
  listHasSub sub.data s.data

/-- Model of `isExcluded` / `EXCLUDED_PATTERNS` (`src/indexer.ts` lines
39-48): the regexes `/node_modules/`, `/\.next/`, `/dist\//` and
`/\.d\.ts$/` applied to the path string. -/
def isExcluded (p : AbsPath) : Bool :=
  let s := String.intercalate "/" p
  containsSub s "node_modules" || containsSub s ".next" || containsSub s "dist/" ||
    listStarts ".d.ts".data.reverse s.data.reverse

/-- JS `Map`/object assignment on an association list: updating an
existing key keeps its position, a new key is appended. -/
def recordSet (files : List (String × FileEntry)) (k : String) (v : FileEntry) :
    List (String × FileEntry) :=
  if (files.lookup k).isSome then
    files.map (fun kv => if kv.1 == k then (k, v) else kv)
  else files ++ [(k, v)]

/-- Accumulator threaded through the build: the growing `allSymbols`
array and the `newFileEntries` record. -/
structure BuildAcc where
  symbols : List SymbolDoc
  entries : List (String × FileEntry)
deriving DecidableEq, Repr

/-- Refresh of a carried cache entry (`src/indexer.ts` lines 135-141):
when the diff recorded a fresh stat mtime different from the stored one,
the stored `mtimeMs` is replaced; otherwise the entry is kept verbatim. -/
def carryRefresh (mtimes : List (AbsPath × Nat)) (p : AbsPath) (entry : FileEntry) :
    FileEntry :=
  match mtimes.lookup p with
  | some freshMtime =>
    if entry.mtimeMs ≠ some freshMtime then { entry with mtimeMs := some freshMtime }
    else entry
  | none => entry

/-- Carry-forward of unchanged files from the cache (`src/indexer.ts`
lines 129-144 for the TS phase, 188-202 for the plugin phase): append
the cached symbols and store the (possibly mtime-refreshed) cache
entry. -/
def carryUnchanged (cache : CacheManifest) (projectRoot : AbsPath)
    (mtimes : List (AbsPath × Nat)) : List AbsPath → BuildAcc → BuildAcc
  | [], acc => acc
  | p :: ps, acc =>
    let relPath := toRelativePosixPath p projectRoot
    match cache.files.lookup relPath with
    | none => carryUnchanged cache projectRoot mtimes ps acc
    | some entry =>
      carryUnchanged cache projectRoot mtimes ps
        { symbols := acc.symbols ++ entry.symbols
          entries := recordSet acc.entries relPath (carryRefresh mtimes p entry) }

/-- Re-extraction of changed TS files (`src/indexer.ts` lines 147-163).
The periodic `createFreshProject` recreation only flushes ts-morph
caches and does not change extraction results, so it has no counterpart
here.  A hash or mtime recorded during the diff is reused, otherwise
recomputed from the filesystem snapshot. -/
def extractChanged (collab : Collaborators) (projectRoot : AbsPath)
    (hashes : List (AbsPath × String)) (mtimes : List (AbsPath × Nat)) :
    List AbsPath → BuildAcc → Except String BuildAcc
  | [], acc => .ok acc
  | p :: ps, acc =>
    match collab.extractFileSymbols p with
    | .error e => .error e
    | .ok symbols =>
      let relPath := toRelativePosixPath p projectRoot
      let contentHash := (hashes.lookup p).getD (collab.fsv.hashOf p)
      let mtimeMs := (mtimes.lookup p).getD (collab.fsv.mtimeOf p)
      extractChanged collab projectRoot hashes mtimes ps
        { symbols := acc.symbols ++ symbols
          entries := recordSet acc.entries relPath ⟨contentHash, symbols, some mtimeMs⟩ }

/-- The TS phase of the build: diff the TS files against the cache,
carry unchanged entries forward, re-extract changed files. -/
def tsPhase (collab : Collaborators) (projectRoot : AbsPath)
    (cache : Option CacheManifest) (tsFiles : List AbsPath) : Except String BuildAcc :=
  let d := computeDiff tsFiles projectRoot cache collab.fsv
  let acc1 :=
    match cache with
    | some c => carryUnchanged c projectRoot d.mtimes d.unchanged ⟨[], []⟩
    | none => ⟨[], []⟩
  extractChanged collab projectRoot d.hashes d.mtimes d.changed acc1

/-- Node `path.isAbsolute` on POSIX: the path string starts with `/`. -/
def isAbsolutePosix (s : String) : Bool :=
  match s.data with
  | '/' :: _ => true
  | _ => false

/-- Order on absolute paths by their joined path string (JS
`Array.prototype.sort()` on path strings, used to sort each plugin's
bucket for determinism). -/
def pathLt (a b : AbsPath) : Bool :=
  strLt (String.intercalate "/" a) (String.intercalate "/" b)

/-- Model of `findAllPluginFiles` (`src/plugins.ts`): one walk of the
project tree (its visited files are the collaborator input `treeFiles`),
bucketing every non-excluded file whose lowercased extension is claimed
by the plugin, each bucket sorted. -/
def findAllPluginFilesM (plugins : List Plugin) (treeFiles : List AbsPath) :
    List (List AbsPath) :=
  plugins.map (fun pl =>
    stableSort pathLt (treeFiles.filter (fun f =>
      !(isExcluded f) && (pl.extensions.map lowerStr).contains (lowerStr (extnameOf f)))))

/-- The initial plugin-initialization loop (`src/indexer.ts` lines
173-178): initialize plugins in order, stopping at the first failure.
Returns the successfully initialized prefix, the init events, and the
error if one was thrown. -/
def initPluginsLoop : List Plugin → List Plugin × List BuildEvent × Option String
  | [] => ([], [], none)
  | p :: ps =>
    match p.init with
    | .error e => ([], [], some e)
    | .ok _ =>
      let rest := initPluginsLoop ps
      (p :: rest.1, .pluginInit p.name :: rest.2.1, rest.2.2)

/-- Re-initialization of the already-initialized plugins at a batch
boundary: the init events for the prefix that succeeds, and the error of
the first failing re-init. -/
def reinitLoop : List Plugin → List BuildEvent × Option String
  | [] => ([], none)
  | p :: ps =>
    match p.init with
    | .error e => ([], some e)
    | .ok _ =>
      let rest := reinitLoop ps
      (.pluginInit p.name :: rest.1, rest.2)

/-- Rewrite applied to each symbol returned by `plugin.extractSymbols`
(`src/indexer.ts` lines 242-250): a missing or absolute `filePath` is
replaced by the project-relative path, and the `id` is regenerated from
the (possibly rewritten) `filePath` when it was missing or the
`filePath` changed. -/
def rewritePluginSymbol (relativePath : String) (sym : SymbolDoc) : SymbolDoc :=
  let filePathChanged := sym.filePath == "" || isAbsolutePosix sym.filePath
  let fp := if filePathChanged then relativePath else sym.filePath
  let newId :=
    if sym.id == "" || filePathChanged then fp ++ "#" ++ sym.name else sym.id
  { sym with filePath := fp, id := newId }

/-- The virtual path `filePath + ".ts"` used for translated plugin
sources. -/
def virtualTsPath (p : AbsPath) : AbsPath :=
  p.dropLast ++ [(p.getLast?.getD "") ++ ".ts"]

/-- Extraction of one changed plugin-claimed file (`src/indexer.ts`
lines 237-274): the rich `extractSymbols` contract with the id/path
rewrite, or the translate contract whose output is fed through the
extractor under a virtual path and then rewritten to the original
relative path. -/
def processPluginFile (collab : Collaborators) (plugin : Plugin) (fp : AbsPath)
    (relativePath : String) : Except String (List SymbolDoc) :=
  let content := collab.readFile fp
  match plugin.extractSymbolsFn with
  | some f =>
    match f fp content with
    | .error e => .error e
    | .ok symbols => .ok (symbols.map (rewritePluginSymbol relativePath))
  | none =>
    match plugin.extractFn with
    | some g =>
      match g fp content with
      | none => .ok []
      | some tsCode =>
        match collab.extractFromCode (virtualTsPath fp) tsCode with
        | .error e => .error e
        | .ok symbols =>
          .ok (symbols.map (fun s =>
            { s with filePath := relativePath, id := relativePath ++ "#" ++ s.name }))
    | none => .ok []

/-- Context shared by the changed-plugin-file loop: the collaborators,
project root, batch size, the initialized plugins (re-initialized at
batch boundaries), the changed set, the precomputed relative paths, and
the hashes/mtimes recorded by the plugin diff. -/
structure PlugCtx where
  collab : Collaborators
  projectRoot : AbsPath
  batchSize : Nat
  plugins : List Plugin
  changed : List AbsPath
  relPaths : List (AbsPath × String)
  hashes : List (AbsPath × String)
  mtimes : List (AbsPath × Nat)

/-- State of the changed-plugin-file loop: the `pluginFileIndex` counter
and the build accumulator. -/
structure PlugSt where
  idx : Nat
  acc : BuildAcc
deriving DecidableEq, Repr

/-- Batch-boundary cadence (`src/indexer.ts` lines 224-232): when
`pluginFileIndex` is a positive multiple of `batchSize`, dispose every
initialized plugin and re-initialize them in order (a failing re-init
propagates). -/
def cadenceStep (ctx : PlugCtx) (idx : Nat) : List BuildEvent × Option String :=
  if idx > 0 ∧ idx % ctx.batchSize = 0 then
    let disp := ctx.plugins.map (fun p => BuildEvent.pluginDispose p.name)
    let ri := reinitLoop ctx.plugins
    (disp ++ ri.1, ri.2)
  else ([], none)

/-- The inner loop over one plugin's bucket (`src/indexer.ts` lines
220-289): skip files that are not in the changed set; for changed
files run the cadence, extract, and merge the file's cache entry. -/
def processFilesForPlugin (ctx : PlugCtx) (plugin : Plugin) :
    List AbsPath → PlugSt → List BuildEvent × Except String PlugSt
  | [], st => ([], .ok st)
  | fp :: rest, st =>
    if !(ctx.changed.contains fp) then processFilesForPlugin ctx plugin rest st
    else
      let cad := cadenceStep ctx st.idx
      match cad.2 with
      | some e => (cad.1, .error e)
      | none =>
        let idx1 := st.idx + 1
        let relativePath := (ctx.relPaths.lookup fp).getD ""
        match processPluginFile ctx.collab plugin fp relativePath with
        | .error e => (cad.1, .error e)
        | .ok fileSymbols =>
          let contentHash := (ctx.hashes.lookup fp).getD (ctx.collab.fsv.hashOf fp)
          let mtimeMs := (ctx.mtimes.lookup fp).getD (ctx.collab.fsv.mtimeOf fp)
          let newEntry : FileEntry :=
            match st.acc.entries.lookup relativePath with
            | some existing => ⟨contentHash, existing.symbols ++ fileSymbols, some mtimeMs⟩
            | none => ⟨contentHash, fileSymbols, some mtimeMs⟩
          let st2 : PlugSt :=
            ⟨idx1, ⟨st.acc.symbols ++ fileSymbols, recordSet st.acc.entries relativePath newEntry⟩⟩
          let next := processFilesForPlugin ctx plugin rest st2
          (cad.1 ++ next.1, next.2)

/-- The outer loop over plugins and their buckets (`src/indexer.ts`
lines 216-290). -/
def processAllPluginFiles (ctx : PlugCtx) :
    List (Plugin × List AbsPath) → PlugSt → List BuildEvent × Except String PlugSt
  | [], st => ([], .ok st)
  | (pl, files) :: rest, st =>
    let r := processFilesForPlugin ctx pl files st
    match r.2 with
    | .error e => (r.1, .error e)
    | .ok st' =>
      let r2 := processAllPluginFiles ctx rest st'
      (r.1 ++ r2.1, r2.2)

/-- The concatenated plugin-claimed file list of one build
(`allPluginFiles = pluginFileLists.flat()`). -/
def allPluginFilesOf (collab : Collaborators) (opts : BuildOptions) : List AbsPath :=
  (findAllPluginFilesM opts.plugins collab.treeFiles).flatMap id

/-- The diff of the plugin-claimed files against the cache. -/
def pluginDiffOf (collab : Collaborators) (opts : BuildOptions)
    (cache : Option CacheManifest) : DiffResult :=
  computeDiff (allPluginFilesOf collab opts) opts.projectRoot cache collab.fsv

/-- The context of the changed-plugin-file loop of one build. -/
def pluginCtxOf (collab : Collaborators) (opts : BuildOptions)
    (cache : Option CacheManifest) : PlugCtx :=
  ⟨collab, opts.projectRoot, opts.batchSize, opts.plugins,
    (pluginDiffOf collab opts cache).changed,
    (pluginDiffOf collab opts cache).changed.map
      (fun p => (p, toRelativePosixPath p opts.projectRoot)),
    (pluginDiffOf collab opts cache).hashes,
    (pluginDiffOf collab opts cache).mtimes⟩

/-- The loop state after carrying unchanged plugin files forward
(`pluginFileIndex = 0`, accumulator extended by the cached symbols of
unchanged plugin files). -/
def pluginStartOf (collab : Collaborators) (opts : BuildOptions)
    (cache : Option CacheManifest) (acc : BuildAcc) : PlugSt :=
  ⟨0, match cache with
      | some c =>
        carryUnchanged c opts.projectRoot (pluginDiffOf collab opts cache).mtimes
          (pluginDiffOf collab opts cache).unchanged acc
      | none => acc⟩

/-- The plugin phase of `generateDocIndex` (`src/indexer.ts` lines
166-297): initialize plugins, discover and diff plugin-claimed files,
carry unchanged entries, process changed files, and — success or
failure — dispose every successfully initialized plugin in order (the
`finally` block). -/
def pluginPhase (collab : Collaborators) (opts : BuildOptions)
    (cache : Option CacheManifest) (acc : BuildAcc) :
    List BuildEvent × Except String BuildAcc :=
  if opts.plugins.isEmpty then ([], .ok acc)
  else
    let ir := initPluginsLoop opts.plugins
    let finalDisposes := ir.1.map (fun p => BuildEvent.pluginDispose p.name)
    match ir.2.2 with
    | some e => (ir.2.1 ++ finalDisposes, .error e)
    | none =>
      let pr := processAllPluginFiles (pluginCtxOf collab opts cache)
        (opts.plugins.zip (findAllPluginFilesM opts.plugins collab.treeFiles))
        (pluginStartOf collab opts cache acc)
      match pr.2 with
      | .error e => (ir.2.1 ++ pr.1 ++ finalDisposes, .error e)
      | .ok st => (ir.2.1 ++ pr.1 ++ finalDisposes, .ok st.acc)

/-- Comparator used to sort the final symbol list
(`allSymbols.sort((a, b) => a.id < b.id ? -1 : a.id > b.id ? 1 : 0)`). -/
def symLt (a b : SymbolDoc) : Bool := strLt a.id b.id

/-- The TS-extraction file list: tsconfig files minus excluded paths and
plugin-claimed extensions (`src/indexer.ts` lines 97-109). -/
def tsFilesOf (opts : BuildOptions) : List AbsPath :=
  opts.allFilePaths.filter (fun fp =>
    !(isExcluded fp) &&
      !((opts.plugins.flatMap (fun pl => pl.extensions.map lowerStr)).contains
        (lowerStr (extnameOf fp))))

/-- The sorted plugin name list (`plugins.map((p) => p.name).sort()`). -/
def pluginNamesOf (opts : BuildOptions) : List String :=
  sortStrings (opts.plugins.map (fun p => p.name))

/-- The cache load of one build (`null` when incremental mode is off). -/
def loadResOf (collab : Collaborators) (opts : BuildOptions) (cacheFile : CacheFile) :
    Option LoadCacheResult :=
  if opts.incremental then
    loadCache cacheFile (some collab.tsConfigHash) (pluginNamesOf opts) INDEX_VERSION
  else none

/-- The loaded cache manifest of one build, when any. -/
def cacheOf (collab : Collaborators) (opts : BuildOptions) (cacheFile : CacheFile) :
    Option CacheManifest :=
  (loadResOf collab opts cacheFile).map (fun r => r.manifest)

/-- Model of `generateDocIndex` (`src/indexer.ts` lines 58-329).
Returns the trace of observable events and either the thrown error or
the returned `DocIndex` together with the cache manifest written (when
incremental).  Reading and parsing the tsconfig succeeds by assumption
(its parsed file list is `opts.allFilePaths`); a malformed tsconfig
aborts before anything observable happens and is outside the claims. -/
def generateDocIndex (collab : Collaborators) (opts : BuildOptions)
    (cacheFile : CacheFile) (now : Nat) :
    List BuildEvent × Except String (DocIndex × Option CacheManifest) :=
  match tsPhase collab opts.projectRoot (cacheOf collab opts cacheFile) (tsFilesOf opts) with
  | .error e => ([], .error e)
  | .ok acc2 =>
    let pr := pluginPhase collab opts (cacheOf collab opts cacheFile) acc2
    match pr.2 with
    | .error e => (pr.1, .error e)
    | .ok acc3 =>
      let sortedSymbols := stableSort symLt acc3.symbols
      let docIndex : DocIndex := ⟨INDEX_VERSION, now, opts.projectRoot, sortedSymbols⟩
      let tsHash :=
        ((loadResOf collab opts cacheFile).map (fun r => r.tsConfigHash)).getD
          collab.tsConfigHash
      if opts.incremental then
        (pr.1 ++ [.writeIndex, .writeCache],
          .ok (docIndex, some ⟨CACHE_VERSION, INDEX_VERSION, tsHash,
            pluginNamesOf opts, acc3.entries⟩))
      else
        (pr.1 ++ [.writeIndex], .ok (docIndex, none))

/-- Names of the `dispose` calls in a trace, in order. -/
def disposeNames (tr : List BuildEvent) : List String :=
  tr.filterMap (fun e => match e with | .pluginDispose n => some n | _ => none)

/-- Names of the successful `init` calls in a trace, in order. -/
def initNames (tr : List BuildEvent) : List String :=
  tr.filterMap (fun e => match e with | .pluginInit n => some n | _ => none)

/-- A trivial plugin whose `init` succeeds (concrete test fixture). -/
def pluginOkA : Plugin := ⟨"A", [".vue"], .ok (), none, none⟩

/-- A plugin whose `init` throws (concrete test fixture). -/
def pluginFailK : Plugin := ⟨"K", [".vue"], .error "boom", none, none⟩

/-- A collaborator bundle over an empty project (concrete test fixture). -/
def collabTrivial : Collaborators :=
  ⟨⟨fun _ => 0, fun _ => ""⟩, fun _ => "", fun _ => .ok [], fun _ _ => .ok [], [], "c"⟩

/-- Removal of one key from a string-keyed record (used to state that a
stale cache entry contributes nothing to a build). -/
def recordErase (files : List (String × FileEntry)) (k : String) :
    List (String × FileEntry) :=
  files.filter (fun kv => !(kv.1 == k))

/-- A cache manifest with one file entry removed. -/
def eraseCacheEntry (c : CacheManifest) (k : String) : CacheManifest :=
  ⟨c.cacheVersion, c.indexVersion, c.tsConfigHash, c.pluginNames, recordErase c.files k⟩

/-- Lookup of a cache entry with a default (used to spell out the value
of association-list lookups that are known to succeed). -/
def cachedEntryD (files : List (String × FileEntry)) (k : String) : FileEntry :=
  (files.lookup k).getD ⟨"", [], none⟩

/-- Coherence of the build accumulator with the ordered list `L` of the
files incorporated so far: the entry keys are exactly the relative paths
of `L` in order, the accumulated symbols are the concatenation, over
`L`, of the symbols stored in each file's entry, and every entry stores
the live stat mtime of its file. -/
def AccCoherent (fsv : FsView) (root : AbsPath) (L : List AbsPath) (acc : BuildAcc) : Prop :=
  acc.entries.map Prod.fst = L.map (fun p => toRelativePosixPath p root) ∧
  acc.symbols = L.flatMap (fun p =>
    (cachedEntryD acc.entries (toRelativePosixPath p root)).symbols) ∧
  ∀ p ∈ L, ∃ en, acc.entries.lookup (toRelativePosixPath p root) = some en ∧
    en.mtimeMs = some (fsv.mtimeOf p)

/-- The files of `l` that the changed-plugin-file loop actually
processes: those in the changed set, in bucket order. -/
def processedOf (ctx : PlugCtx) (l : List AbsPath) : List AbsPath :=
  l.filter (fun fp => ctx.changed.contains fp)

/-- A plugin claiming `.vue` files whose rich extractor returns one fixed
symbol (concrete fixture for the idempotence counterexample). -/
def pluginVueA : Plugin :=
  ⟨"A", [".vue"], .ok (), some (fun _ _ => .ok [⟨"x#a", "a", "f.vue"⟩]), none⟩

/-- A second plugin claiming the same `.vue` extension (concrete
fixture). -/
def pluginVueB : Plugin :=
  ⟨"B", [".vue"], .ok (), some (fun _ _ => .ok [⟨"x#b", "b", "f.vue"⟩]), none⟩

/-- A project containing a single `.vue` file (concrete fixture). -/
def collabVue : Collaborators :=
  ⟨⟨fun _ => 1, fun _ => "h"⟩, fun _ => "", fun _ => .ok [], fun _ _ => .ok [],
    [["r", "f.vue"]], "cfg"⟩

/-- Incremental build options registering both `.vue` plugins (concrete
fixture). -/
def optsVue : BuildOptions := ⟨[], ["r"], [pluginVueA, pluginVueB], true, 50⟩

/-- The cache manifest written by the first build of the `.vue` fixture
project. -/
def mVue : CacheManifest :=
  ⟨"1", "1.0.0", "cfg", ["A", "B"],
    [("f.vue", ⟨"h", [⟨"x#a", "a", "f.vue"⟩, ⟨"x#b", "b", "f.vue"⟩], some 1⟩)]⟩

/-- The symbol list of the first `.vue` fixture build. -/
def vueSyms1 : List SymbolDoc := [⟨"x#a", "a", "f.vue"⟩, ⟨"x#b", "b", "f.vue"⟩]

/-- The symbol list of the second (cached) `.vue` fixture build: each
cached symbol is carried forward once per plugin that claims the file. -/
def vueSyms2 : List SymbolDoc :=
  [⟨"x#a", "a", "f.vue"⟩, ⟨"x#a", "a", "f.vue"⟩, ⟨"x#b", "b", "f.vue"⟩,
    ⟨"x#b", "b", "f.vue"⟩]

/-- A project with one TypeScript file yielding one symbol (concrete
fixture for the amended idempotence witness). -/
def collabW4 : Collaborators :=
  ⟨⟨fun _ => 1, fun _ => "h"⟩, fun _ => "", fun _ => .ok [⟨"a.ts#y", "y", "a.ts"⟩],
    fun _ _ => .ok [], [], "cfg"⟩

/-- Incremental plugin-free build options over the one-file project
(concrete fixture). -/
def optsW4 : BuildOptions := ⟨[["r", "a.ts"]], ["r"], [], true, 50⟩

/-- The index snapshot of the first build of the one-file fixture. -/
def idxW4 : DocIndex := ⟨"1.0.0", 5, ["r"], [⟨"a.ts#y", "y", "a.ts"⟩]⟩

/-- The cache manifest written by the first build of the one-file
fixture. -/
def mW4 : CacheManifest :=
  ⟨"1", "1.0.0", "cfg", [], [("a.ts", ⟨"h", [⟨"a.ts#y", "y", "a.ts"⟩], some 1⟩)]⟩

/-! ## Theorems -/

/-! ### Build Controller lemmas -/

theorem ctrlRun_append (s : CtrlState) (l₁ l₂ : List CtrlEvent) :
    ctrlRun s (l₁ ++ l₂) = ctrlRun (ctrlRun s l₁) l₂ :=
  List.foldl_append ..

theorem ctrlRun_schedule_idle (n : Nat) (b : Nat) :
    ctrlRun ⟨.idle, true, b⟩ (List.replicate n .schedule) = ⟨.idle, true, b⟩ := by
  induction n with
  | zero => rfl
  | succ k ih => simpa [List.replicate_succ, ctrlRun, ctrlStep] using ih

theorem ctrlRun_schedule_queued (n : Nat) (tp : Bool) (b : Nat) :
    ctrlRun ⟨.buildQueued, tp, b⟩ (List.replicate n .schedule) = ⟨.buildQueued, tp, b⟩ := by
  induction n with
  | zero => rfl
  | succ k ih => simpa [List.replicate_succ, ctrlRun, ctrlStep] using ih

/-- Claim C2: for N ≥ 1 schedule requests issued while idle, all within
the debounce window (so the timer fires only once, after the last), the
controller starts exactly one build and returns to idle; and for any
burst of M ≥ 1 schedule requests arriving while a build is in progress,
exactly one additional build is started when the running build
completes, after which the controller is idle again. -/
theorem C2_build_controller_single_flight (n m b : Nat) (hn : 1 ≤ n) (hm : 1 ≤ m) :
    ctrlRun ⟨.idle, false, 0⟩ (List.replicate n .schedule ++ [.timerFire, .complete])
      = ⟨.idle, false, 1⟩ ∧
    ctrlRun ⟨.building, false, b⟩ (List.replicate m .schedule ++ [.complete, .complete])
      = ⟨.idle, false, b + 1⟩ := by
  constructor
  · obtain ⟨k, rfl⟩ := Nat.exists_eq_add_of_le hn
    rw [List.replicate_add, List.append_assoc, ctrlRun_append, ctrlRun_append]
    have h1 : ctrlRun ⟨.idle, false, 0⟩ (List.replicate 1 .schedule) = ⟨.idle, true, 0⟩ := rfl
    rw [h1, ctrlRun_schedule_idle]
    rfl
  · obtain ⟨k, rfl⟩ := Nat.exists_eq_add_of_le hm
    rw [List.replicate_add, List.append_assoc, ctrlRun_append, ctrlRun_append]
    have h1 : ctrlRun ⟨.building, false, b⟩ (List.replicate 1 .schedule)
        = ⟨.buildQueued, false, b⟩ := rfl
    rw [h1, ctrlRun_schedule_queued]
    rfl

/-- Witness for C2 at n = 3, m = 2, b = 1. -/
theorem C2_witness :
    ctrlRun ⟨.idle, false, 0⟩ (List.replicate 3 .schedule ++ [.timerFire, .complete])
      = ⟨.idle, false, 1⟩ ∧
    ctrlRun ⟨.building, false, 1⟩ (List.replicate 2 .schedule ++ [.complete, .complete])
      = ⟨.idle, false, 2⟩ :=
  C2_build_controller_single_flight 3 2 1 (by decide) (by decide)

/-! ### Cache Store: loadCache -/

/-- Claim C6: `loadCache` yields `none` (and never an error) whenever
any invalidation check fails — missing or unparsable cache file, invalid
envelope, cache-version or index-version mismatch, plugin-list mismatch,
unreadable tsconfig, or tsconfig-fingerprint mismatch — and a returned
manifest is exactly the stored one with every check passed (no partial
migration). -/
theorem C6_loadCache_invalidation :
    (∀ ts pn iv, loadCache .missing ts pn iv = none
      ∧ loadCache .unparsable ts pn iv = none
      ∧ loadCache .badEnvelope ts pn iv = none) ∧
    (∀ m ts pn iv, m.cacheVersion ≠ CACHE_VERSION → loadCache (.envelope m) ts pn iv = none) ∧
    (∀ m ts pn iv, m.indexVersion ≠ iv → loadCache (.envelope m) ts pn iv = none) ∧
    (∀ m ts pn iv, sortStrings pn ≠ m.pluginNames → loadCache (.envelope m) ts pn iv = none) ∧
    (∀ m pn iv, loadCache (.envelope m) none pn iv = none) ∧
    (∀ m h pn iv, m.tsConfigHash ≠ h → loadCache (.envelope m) (some h) pn iv = none) ∧
    (∀ file ts pn iv r, loadCache file ts pn iv = some r →
      file = .envelope r.manifest ∧ r.manifest.cacheVersion = CACHE_VERSION ∧
      r.manifest.indexVersion = iv ∧ sortStrings pn = r.manifest.pluginNames ∧
      ts = some r.tsConfigHash ∧ r.manifest.tsConfigHash = r.tsConfigHash) := by
  refine ⟨fun ts pn iv => ⟨rfl, rfl, rfl⟩, ?_, ?_, ?_, ?_, ?_, ?_⟩
  · intro m ts pn iv h
    simp only [loadCache]
    rw [if_pos h]
  · intro m ts pn iv h
    simp only [loadCache]
    split_ifs with h1 h2 <;> first | rfl | exact absurd h h2
  · intro m ts pn iv h
    simp only [loadCache]
    split_ifs with h1 h2 h3 <;> first | rfl | exact absurd h h3
  · intro m pn iv
    simp only [loadCache]
    split_ifs <;> rfl
  · intro m h pn iv hh
    simp only [loadCache]
    split_ifs with h1 h2 h3 h4 <;> first | rfl | exact absurd hh h4
  · intro file ts pn iv r hr
    match file with
    | .missing | .unparsable | .badEnvelope => exact Option.noConfusion hr
    | .envelope m =>
      cases ts with
      | none =>
        simp only [loadCache] at hr
        split_ifs at hr <;> exact Option.noConfusion hr
      | some h =>
        simp only [loadCache] at hr
        split_ifs at hr with h1 h2 h3 h4 <;> try exact Option.noConfusion hr
        injection hr with hr2
        subst hr2
        exact ⟨rfl, not_ne_iff.mp h1, not_ne_iff.mp h2, (not_ne_iff.mp h3).symm ▸ rfl,
          rfl, not_ne_iff.mp h4⟩

/-- Witness for C6: a cache-version mismatch and a plugin-list mismatch
each yield `none`, and a fully matching load succeeds. -/
theorem C6_witness :
    loadCache (.envelope ⟨"2", "1.0.0", "h", [], []⟩) (some "h") [] "1.0.0" = none ∧
    loadCache (.envelope ⟨"1", "1.0.0", "h", ["a"], []⟩) (some "h") ["b"] "1.0.0" = none :=
  ⟨C6_loadCache_invalidation.2.1 ⟨"2", "1.0.0", "h", [], []⟩ (some "h") [] "1.0.0" (by decide),
   C6_loadCache_invalidation.2.2.2.1 ⟨"1", "1.0.0", "h", ["a"], []⟩ (some "h") ["b"] "1.0.0"
     (by decide)⟩

/-! ### Diff Engine lemmas -/

theorem lookup_mem {α β : Type _} [BEq α] [LawfulBEq α] {l : List (α × β)} {k : α} {v : β}
    (h : l.lookup k = some v) : (k, v) ∈ l := by
  obtain ⟨l₁, l₂, rfl, -⟩ := List.lookup_eq_some_iff.mp h
  exact List.mem_append.mpr (Or.inr (List.mem_cons_self _ _))

theorem checkFile_mtime (fsv : FsView) (p : AbsPath) (e : FileEntry) :
    (checkFile fsv p e).mtime = fsv.mtimeOf p := by
  unfold checkFile
  rcases hm : e.mtimeMs with _ | m
  · rfl
  · dsimp only
    split <;> rfl

theorem checkFile_fast (fsv : FsView) (p : AbsPath) (e : FileEntry)
    (h : e.mtimeMs = some (fsv.mtimeOf p)) :
    checkFile fsv p e = ⟨true, none, fsv.mtimeOf p⟩ := by
  unfold checkFile
  rw [h]
  simp

theorem checkFile_slow_mismatch (fsv : FsView) (p : AbsPath) (e : FileEntry)
    (hmt : ∀ m, e.mtimeMs = some m → fsv.mtimeOf p ≠ m)
    (hh : fsv.hashOf p ≠ e.contentHash) :
    (checkFile fsv p e).isMatch = false := by
  unfold checkFile
  rcases hm : e.mtimeMs with _ | m
  · simpa using hh
  · dsimp only
    rw [if_neg (hmt m hm)]
    simpa using hh

theorem checkFile_slow_match (fsv : FsView) (p : AbsPath) (e : FileEntry) (m : Nat)
    (hm : e.mtimeMs = some m) (hne : fsv.mtimeOf p ≠ m)
    (hh : fsv.hashOf p = e.contentHash) :
    checkFile fsv p e = ⟨true, some (fsv.hashOf p), fsv.mtimeOf p⟩ := by
  unfold checkFile
  rw [hm]
  dsimp only
  rw [if_neg hne]
  simp [hh]

theorem split_check_mem (c : CacheManifest) (root : AbsPath) :
    ∀ {l : List AbsPath} {p : AbsPath} {e : FileEntry}, p ∈ l →
      c.files.lookup (toRelativePosixPath p root) = some e →
      (p, e) ∈ (splitNewAndCheck c root l).2 := by
  intro l
  induction l with
  | nil => intro p e hp _; cases hp
  | cons q rest ih =>
    intro p e hp hl
    rcases List.mem_cons.mp hp with rfl | hp'
    · simp only [splitNewAndCheck, hl]
      exact List.mem_cons_self _ _
    · simp only [splitNewAndCheck]
      rcases hq : c.files.lookup (toRelativePosixPath q root) with _ | eq
      · exact ih hp' hl
      · exact List.mem_cons_of_mem _ (ih hp' hl)

theorem split_check_sound (c : CacheManifest) (root : AbsPath) :
    ∀ {l : List AbsPath} {q : AbsPath} {e' : FileEntry},
      (q, e') ∈ (splitNewAndCheck c root l).2 →
      q ∈ l ∧ c.files.lookup (toRelativePosixPath q root) = some e' := by
  intro l
  induction l with
  | nil => intro q e' h; cases h
  | cons a rest ih =>
    intro q e' h
    simp only [splitNewAndCheck] at h
    rcases ha : c.files.lookup (toRelativePosixPath a root) with _ | ea
    · rw [ha] at h
      obtain ⟨hq, hl⟩ := ih h
      exact ⟨List.mem_cons_of_mem _ hq, hl⟩
    · rw [ha] at h
      rcases List.mem_cons.mp h with heq | h'
      · injection heq with h1 h2
        subst h1
        subst h2
        exact ⟨List.mem_cons_self _ _, ha⟩
      · obtain ⟨hq, hl⟩ := ih h'
        exact ⟨List.mem_cons_of_mem _ hq, hl⟩

theorem split_new_sound (c : CacheManifest) (root : AbsPath) :
    ∀ {l : List AbsPath} {q : AbsPath},
      q ∈ (splitNewAndCheck c root l).1 →
      q ∈ l ∧ c.files.lookup (toRelativePosixPath q root) = none := by
  intro l
  induction l with
  | nil => intro q h; cases h
  | cons a rest ih =>
    intro q h
    simp only [splitNewAndCheck] at h
    rcases ha : c.files.lookup (toRelativePosixPath a root) with _ | ea
    · rw [ha] at h
      rcases List.mem_cons.mp h with rfl | h'
      · exact ⟨List.mem_cons_self _ _, ha⟩
      · obtain ⟨hq, hl⟩ := ih h'
        exact ⟨List.mem_cons_of_mem _ hq, hl⟩
    · rw [ha] at h
      obtain ⟨hq, hl⟩ := ih h
      exact ⟨List.mem_cons_of_mem _ hq, hl⟩

theorem processChecks_changed_iff (fsv : FsView) :
    ∀ {l : List (AbsPath × FileEntry)} {p : AbsPath},
      p ∈ (processChecks fsv l).changed ↔
        ∃ e, (p, e) ∈ l ∧ (checkFile fsv p e).isMatch = false := by
  intro l
  induction l with
  | nil => intro p; simp [processChecks]
  | cons qe rest ih =>
    intro p
    obtain ⟨q, e⟩ := qe
    rcases hm : (checkFile fsv q e).isMatch with _ | _
    · simp only [processChecks, hm, Bool.false_eq_true, if_false, List.cons_append,
        List.nil_append, List.mem_cons]
      constructor
      · intro h
        rcases h with rfl | h
        · exact ⟨e, Or.inl rfl, hm⟩
        · obtain ⟨e', he', hm'⟩ := ih.mp h
          exact ⟨e', Or.inr he', hm'⟩
      · rintro ⟨e', he', hm'⟩
        rcases he' with heq | h'
        · injection heq with h1 h2
          subst h1
          exact Or.inl rfl
        · exact Or.inr (ih.mpr ⟨e', h', hm'⟩)
    · simp only [processChecks, hm, if_true, List.nil_append]
      constructor
      · intro h
        obtain ⟨e', he', hm'⟩ := ih.mp h
        exact ⟨e', List.mem_cons_of_mem _ he', hm'⟩
      · rintro ⟨e', he', hm'⟩
        rcases List.mem_cons.mp he' with heq | h'
        · injection heq with h1 h2
          subst h1
          subst h2
          rw [hm] at hm'
          cases hm'
        · exact ih.mpr ⟨e', h', hm'⟩

theorem processChecks_unchanged_iff (fsv : FsView) :
    ∀ {l : List (AbsPath × FileEntry)} {p : AbsPath},
      p ∈ (processChecks fsv l).unchanged ↔
        ∃ e, (p, e) ∈ l ∧ (checkFile fsv p e).isMatch = true := by
  intro l
  induction l with
  | nil => intro p; simp [processChecks]
  | cons qe rest ih =>
    intro p
    obtain ⟨q, e⟩ := qe
    rcases hm : (checkFile fsv q e).isMatch with _ | _
    · simp only [processChecks, hm, Bool.false_eq_true, if_false, List.nil_append]
      constructor
      · intro h
        obtain ⟨e', he', hm'⟩ := ih.mp h
        exact ⟨e', List.mem_cons_of_mem _ he', hm'⟩
      · rintro ⟨e', he', hm'⟩
        rcases List.mem_cons.mp he' with heq | h'
        · injection heq with h1 h2
          subst h1
          subst h2
          rw [hm] at hm'
          cases hm'
        · exact ih.mpr ⟨e', h', hm'⟩
    · simp only [processChecks, hm, if_true, List.cons_append, List.nil_append, List.mem_cons]
      constructor
      · intro h
        rcases h with rfl | h
        · exact ⟨e, Or.inl rfl, hm⟩
        · obtain ⟨e', he', hm'⟩ := ih.mp h
          exact ⟨e', Or.inr he', hm'⟩
      · rintro ⟨e', he', hm'⟩
        rcases he' with heq | h'
        · injection heq with h1 h2
          subst h1
          exact Or.inl rfl
        · exact Or.inr (ih.mpr ⟨e', h', hm'⟩)

theorem processChecks_hashes_sound (fsv : FsView) :
    ∀ {l : List (AbsPath × FileEntry)} {p : AbsPath} {h : String},
      (p, h) ∈ (processChecks fsv l).hashes →
        ∃ e, (p, e) ∈ l ∧ (checkFile fsv p e).hashed = some h := by
  intro l
  induction l with
  | nil => intro p h hm; cases hm
  | cons qe rest ih =>
    intro p h hm
    obtain ⟨q, e⟩ := qe
    rcases hh : (checkFile fsv q e).hashed with _ | hv
    · simp only [processChecks, hh, List.nil_append] at hm
      obtain ⟨e', he', hh'⟩ := ih hm
      exact ⟨e', List.mem_cons_of_mem _ he', hh'⟩
    · simp only [processChecks, hh, List.cons_append, List.nil_append, List.mem_cons] at hm
      rcases hm with heq | hm
      · injection heq with h1 h2
        subst h1
        subst h2
        exact ⟨e, List.mem_cons_self _ _, hh⟩
      · obtain ⟨e', he', hh'⟩ := ih hm
        exact ⟨e', List.mem_cons_of_mem _ he', hh'⟩

theorem processChecks_mtimes_sound (fsv : FsView) :
    ∀ {l : List (AbsPath × FileEntry)} {p : AbsPath} {v : Nat},
      (p, v) ∈ (processChecks fsv l).mtimes → v = fsv.mtimeOf p := by
  intro l
  induction l with
  | nil => intro p v hm; cases hm
  | cons qe rest ih =>
    intro p v hm
    obtain ⟨q, e⟩ := qe
    simp only [processChecks] at hm
    rcases List.mem_cons.mp hm with heq | h'
    · injection heq with h1 h2
      subst h1
      subst h2
      exact checkFile_mtime fsv p e
    · exact ih h'

theorem processChecks_mtimes_lookup (fsv : FsView) :
    ∀ {l : List (AbsPath × FileEntry)} {p : AbsPath} {e : FileEntry}, (p, e) ∈ l →
      (processChecks fsv l).mtimes.lookup p = some (fsv.mtimeOf p) := by
  intro l
  induction l with
  | nil => intro p e hm; cases hm
  | cons qe rest ih =>
    intro p e hm
    obtain ⟨q, eq⟩ := qe
    rcases hb : p == q with _ | _
    · simp only [processChecks, List.lookup_cons, hb]
      rcases List.mem_cons.mp hm with heq | h'
      · injection heq with h1 h2
        subst h1
        simp at hb
      · exact ih h'
    · have hpq : p = q := by simpa using hb
      subst hpq
      simp only [processChecks, List.lookup_cons, hb]
      rw [checkFile_mtime]

theorem processChecks_hashes_lookup_none (fsv : FsView)
    {l : List (AbsPath × FileEntry)} {p : AbsPath}
    (h : ∀ e, (p, e) ∈ l → (checkFile fsv p e).hashed = none) :
    (processChecks fsv l).hashes.lookup p = none := by
  rw [List.lookup_eq_none_iff]
  intro pr hpr
  obtain ⟨q, hv⟩ := pr
  by_cases hq : p = q
  · subst hq
    obtain ⟨e, he, hh⟩ := processChecks_hashes_sound fsv hpr
    rw [h e he] at hh
    cases hh
  · simpa using hq

/-! ### Claims C1 and C3: change detection and the mtime fast path -/

/-- Claim C1 (counterexample): a file whose current content hash `h2`
differs from the cached fingerprint `h1` but whose live mtime equals the
cached mtime is classified `unchanged`, not `changed` — the mtime fast
path never looks at the content. -/
theorem C1_counterexample :
    ("h2" ≠ "h1") ∧
    (computeDiff [["p", "a.ts"]] ["p"]
        (some ⟨"1", "1.0.0", "t", [], [("a.ts", ⟨"h1", [], some 5⟩)]⟩)
        ⟨fun _ => 5, fun _ => "h2"⟩).unchanged = [["p", "a.ts"]] ∧
    (computeDiff [["p", "a.ts"]] ["p"]
        (some ⟨"1", "1.0.0", "t", [], [("a.ts", ⟨"h1", [], some 5⟩)]⟩)
        ⟨fun _ => 5, fun _ => "h2"⟩).changed = [] := by
  refine ⟨by decide, by decide, by decide⟩

/-- Claim C1 (amended): for every file present in both the current file
set and the cache manifest, when the mtime fast path does not apply (the
cached entry stores no mtime, or the stored mtime differs from the live
one), a current content hash differing from the cached fingerprint makes
`computeDiff` classify the file as `changed` and not `unchanged`. -/
theorem C1_amended_changed_on_hash_mismatch
    (currentFiles : List AbsPath) (root : AbsPath) (c : CacheManifest) (fsv : FsView)
    (p : AbsPath) (e : FileEntry)
    (hp : p ∈ currentFiles)
    (hl : c.files.lookup (toRelativePosixPath p root) = some e)
    (hmt : ∀ m, e.mtimeMs = some m → fsv.mtimeOf p ≠ m)
    (hh : fsv.hashOf p ≠ e.contentHash) :
    p ∈ (computeDiff currentFiles root (some c) fsv).changed ∧
    p ∉ (computeDiff currentFiles root (some c) fsv).unchanged := by
  have hmatch : (checkFile fsv p e).isMatch = false := checkFile_slow_mismatch fsv p e hmt hh
  constructor
  · show p ∈ (splitNewAndCheck c root currentFiles).1 ++ _
    exact List.mem_append.mpr (Or.inr ((processChecks_changed_iff fsv).mpr
      ⟨e, split_check_mem c root hp hl, hmatch⟩))
  · intro hu
    obtain ⟨e', he', hm'⟩ := (processChecks_unchanged_iff fsv).mp hu
    have hl' := (split_check_sound c root he').2
    rw [hl] at hl'
    injection hl' with h1
    subst h1
    rw [hmatch] at hm'
    cases hm'

/-- Witness for the amended C1: a concrete file with no cached mtime and
a differing hash is classified changed. -/
theorem C1_amended_witness :
    (["p", "a.ts"] : AbsPath) ∈ (computeDiff [["p", "a.ts"]] ["p"]
        (some ⟨"1", "1.0.0", "t", [], [("a.ts", ⟨"h1", [], none⟩)]⟩)
        ⟨fun _ => 5, fun _ => "h2"⟩).changed ∧
    (["p", "a.ts"] : AbsPath) ∉ (computeDiff [["p", "a.ts"]] ["p"]
        (some ⟨"1", "1.0.0", "t", [], [("a.ts", ⟨"h1", [], none⟩)]⟩)
        ⟨fun _ => 5, fun _ => "h2"⟩).unchanged :=
  C1_amended_changed_on_hash_mismatch [["p", "a.ts"]] ["p"]
    ⟨"1", "1.0.0", "t", [], [("a.ts", ⟨"h1", [], none⟩)]⟩
    ⟨fun _ => 5, fun _ => "h2"⟩ ["p", "a.ts"] ⟨"h1", [], none⟩
    (List.mem_singleton.mpr rfl) (by decide) (by intro m hm; cases hm) (by decide)

/-- Claim C3: a file present in the current set and the cache whose
cached entry stores an mtime exactly equal to the live one is classified
`unchanged` (and not `changed`), no content hash for it is computed or
recorded, and the live mtime is recorded in the diff's `mtimes` map. -/
theorem C3_fast_path_unchanged
    (currentFiles : List AbsPath) (root : AbsPath) (c : CacheManifest) (fsv : FsView)
    (p : AbsPath) (e : FileEntry)
    (hp : p ∈ currentFiles)
    (hl : c.files.lookup (toRelativePosixPath p root) = some e)
    (hm : e.mtimeMs = some (fsv.mtimeOf p)) :
    p ∈ (computeDiff currentFiles root (some c) fsv).unchanged ∧
    p ∉ (computeDiff currentFiles root (some c) fsv).changed ∧
    (computeDiff currentFiles root (some c) fsv).hashes.lookup p = none ∧
    (computeDiff currentFiles root (some c) fsv).mtimes.lookup p
      = some (fsv.mtimeOf p) := by
  have hfast := checkFile_fast fsv p e hm
  refine ⟨?_, ?_, ?_, ?_⟩
  · exact (processChecks_unchanged_iff fsv).mpr
      ⟨e, split_check_mem c root hp hl, by rw [hfast]⟩
  · intro hc
    rcases List.mem_append.mp hc with hnew | hchg
    · have := (split_new_sound c root hnew).2
      rw [hl] at this
      cases this
    · obtain ⟨e', he', hm'⟩ := (processChecks_changed_iff fsv).mp hchg
      have hl' := (split_check_sound c root he').2
      rw [hl] at hl'
      injection hl' with h1
      subst h1
      rw [hfast] at hm'
      simp at hm'
  · refine processChecks_hashes_lookup_none fsv ?_
    intro e' he'
    have hl' := (split_check_sound c root he').2
    rw [hl] at hl'
    injection hl' with h1
    subst h1
    rw [hfast]
  · exact processChecks_mtimes_lookup fsv (split_check_mem c root hp hl)

/-- Witness for C3 at a concrete input. -/
theorem C3_witness :
    (["p", "a.ts"] : AbsPath) ∈ (computeDiff [["p", "a.ts"]] ["p"]
        (some ⟨"1", "1.0.0", "t", [], [("a.ts", ⟨"h1", [], some 5⟩)]⟩)
        ⟨fun _ => 5, fun _ => "h1"⟩).unchanged ∧
    (computeDiff [["p", "a.ts"]] ["p"]
        (some ⟨"1", "1.0.0", "t", [], [("a.ts", ⟨"h1", [], some 5⟩)]⟩)
        ⟨fun _ => 5, fun _ => "h1"⟩).hashes.lookup ["p", "a.ts"] = none :=
  have h := C3_fast_path_unchanged [["p", "a.ts"]] ["p"]
    ⟨"1", "1.0.0", "t", [], [("a.ts", ⟨"h1", [], some 5⟩)]⟩
    ⟨fun _ => 5, fun _ => "h1"⟩ ["p", "a.ts"] ⟨"h1", [], some 5⟩
    (List.mem_singleton.mpr rfl) (by decide) (by decide)
  ⟨h.1, h.2.2.1⟩

/-! ### Record update and carry-forward lemmas -/

theorem lookup_cons_ne {β : Type _} {k k' : String} (v' : β) (t : List (String × β))
    (h : k ≠ k') : ((k', v') :: t).lookup k = t.lookup k := by
  rw [List.lookup_cons]
  have hb : (k == k') = false := beq_eq_false_iff_ne.mpr h
  rw [hb]

theorem updateKey_lookup_self (k : String) (v : FileEntry) :
    ∀ l : List (String × FileEntry), (l.lookup k).isSome →
      (l.map (fun kv => if kv.1 == k then (k, v) else kv)).lookup k = some v := by
  intro l
  induction l with
  | nil => intro h; simp at h
  | cons kv t ih =>
    obtain ⟨a, b⟩ := kv
    intro h
    by_cases ha : a = k
    · subst ha
      simp
    · rw [lookup_cons_ne b t (fun hq => ha hq.symm)] at h
      simp only [List.map_cons]
      rw [if_neg (by simpa using ha)]
      rw [lookup_cons_ne _ _ (fun hq => ha hq.symm)]
      exact ih h

theorem updateKey_lookup_other (k k' : String) (v : FileEntry) (h : k' ≠ k) :
    ∀ l : List (String × FileEntry),
      (l.map (fun kv => if kv.1 == k then (k, v) else kv)).lookup k' = l.lookup k' := by
  intro l
  induction l with
  | nil => simp
  | cons kv t ih =>
    obtain ⟨a, b⟩ := kv
    by_cases ha : a = k
    · subst ha
      simp only [List.map_cons]
      rw [if_pos (by simp)]
      rw [lookup_cons_ne _ _ h, lookup_cons_ne _ _ h]
      exact ih
    · simp only [List.map_cons]
      rw [if_neg (by simpa using ha)]
      by_cases ha' : a = k'
      · subst ha'
        simp
      · rw [lookup_cons_ne _ _ (fun hq => ha' hq.symm),
          lookup_cons_ne _ _ (fun hq => ha' hq.symm)]
        exact ih

theorem recordSet_lookup_self (l : List (String × FileEntry)) (k : String) (v : FileEntry) :
    (recordSet l k v).lookup k = some v := by
  unfold recordSet
  by_cases h : (l.lookup k).isSome
  · rw [if_pos h]
    exact updateKey_lookup_self k v l h
  · rw [if_neg h, List.lookup_append, Option.not_isSome_iff_eq_none.mp h]
    simp

theorem recordSet_lookup_other (l : List (String × FileEntry)) (k : String) (v : FileEntry)
    (k' : String) (h : k' ≠ k) : (recordSet l k v).lookup k' = l.lookup k' := by
  unfold recordSet
  by_cases hs : (l.lookup k).isSome
  · rw [if_pos hs]
    exact updateKey_lookup_other k k' v h l
  · rw [if_neg hs, List.lookup_append]
    rcases hl : l.lookup k' with _ | w
    · simp only [Option.none_or]
      rw [lookup_cons_ne _ _ h]
      rfl
    · rfl

theorem carry_lookup_after (cache : CacheManifest) (root : AbsPath)
    (mtimes : List (AbsPath × Nat)) (p : AbsPath) (e : FileEntry)
    (hl : cache.files.lookup (toRelativePosixPath p root) = some e) :
    ∀ (ul : List AbsPath) (acc : BuildAcc),
      (∀ q ∈ ul, toRelativePosixPath q root = toRelativePosixPath p root → q = p) →
      (p ∈ ul ∨ acc.entries.lookup (toRelativePosixPath p root)
          = some (carryRefresh mtimes p e)) →
      (carryUnchanged cache root mtimes ul acc).entries.lookup (toRelativePosixPath p root)
        = some (carryRefresh mtimes p e) := by
  intro ul
  induction ul with
  | nil =>
    intro acc _ hor
    rcases hor with h | h
    · cases h
    · exact h
  | cons q ul' ih =>
    intro acc huniq hor
    by_cases hq : q = p
    · subst hq
      simp only [carryUnchanged, hl]
      refine ih _ (fun r hr => huniq r (List.mem_cons_of_mem _ hr)) (Or.inr ?_)
      exact recordSet_lookup_self ..
    · have hrel : toRelativePosixPath q root ≠ toRelativePosixPath p root := by
        intro hc
        exact hq (huniq q (List.mem_cons_self _ _) hc)
      have hmem : p ∈ ul' ∨ acc.entries.lookup (toRelativePosixPath p root)
          = some (carryRefresh mtimes p e) := by
        rcases hor with h | h
        · rcases List.mem_cons.mp h with rfl | h'
          · exact absurd rfl hq
          · exact Or.inl h'
        · exact Or.inr h
      simp only [carryUnchanged]
      rcases hq' : cache.files.lookup (toRelativePosixPath q root) with _ | eq
      · exact ih _ (fun r hr => huniq r (List.mem_cons_of_mem _ hr)) hmem
      · refine ih _ (fun r hr => huniq r (List.mem_cons_of_mem _ hr)) ?_
        rcases hmem with h | h
        · exact Or.inl h
        · exact Or.inr (by rw [recordSet_lookup_other _ _ _ _ (fun hc => hrel hc.symm)]; exact h)

theorem carry_symbols_extend (cache : CacheManifest) (root : AbsPath)
    (mtimes : List (AbsPath × Nat)) :
    ∀ (ul : List AbsPath) (acc : BuildAcc),
      ∃ t, (carryUnchanged cache root mtimes ul acc).symbols = acc.symbols ++ t := by
  intro ul
  induction ul with
  | nil => intro acc; exact ⟨[], (List.append_nil _).symm⟩
  | cons q ul' ih =>
    intro acc
    simp only [carryUnchanged]
    rcases hq : cache.files.lookup (toRelativePosixPath q root) with _ | eq
    · exact ih acc
    · obtain ⟨t, ht⟩ := ih ⟨acc.symbols ++ eq.symbols,
        recordSet acc.entries (toRelativePosixPath q root) (carryRefresh mtimes q eq)⟩
      exact ⟨eq.symbols ++ t, by simp [ht, List.append_assoc]⟩

theorem carry_symbols_contains (cache : CacheManifest) (root : AbsPath)
    (mtimes : List (AbsPath × Nat)) (p : AbsPath) (e : FileEntry)
    (hl : cache.files.lookup (toRelativePosixPath p root) = some e) :
    ∀ (ul : List AbsPath) (acc : BuildAcc), p ∈ ul →
      ∃ l₁ l₂, (carryUnchanged cache root mtimes ul acc).symbols = l₁ ++ e.symbols ++ l₂ := by
  intro ul
  induction ul with
  | nil => intro acc h; cases h
  | cons q ul' ih =>
    intro acc hp
    by_cases hq : q = p
    · subst hq
      simp only [carryUnchanged, hl]
      obtain ⟨t, ht⟩ := carry_symbols_extend cache root mtimes ul'
        ⟨acc.symbols ++ e.symbols, recordSet acc.entries (toRelativePosixPath q root)
          (carryRefresh mtimes q e)⟩
      exact ⟨acc.symbols, t, by simp [ht, List.append_assoc]⟩
    · have hp' : p ∈ ul' := by
        rcases List.mem_cons.mp hp with rfl | h'
        · exact absurd rfl hq
        · exact h'
      simp only [carryUnchanged]
      rcases hq' : cache.files.lookup (toRelativePosixPath q root) with _ | eq
      · exact ih acc hp'
      · exact ih _ hp'

theorem extract_entries_preserve (collab : Collaborators) (root : AbsPath)
    (hashes : List (AbsPath × String)) (mtimes : List (AbsPath × Nat)) (kk : String) :
    ∀ (chg : List AbsPath) (acc acc' : BuildAcc),
      (∀ q ∈ chg, toRelativePosixPath q root ≠ kk) →
      extractChanged collab root hashes mtimes chg acc = .ok acc' →
      acc'.entries.lookup kk = acc.entries.lookup kk := by
  intro chg
  induction chg with
  | nil =>
    intro acc acc' _ h
    injection h with h
    subst h
    rfl
  | cons q chg' ih =>
    intro acc acc' hne h
    simp only [extractChanged] at h
    rcases hx : collab.extractFileSymbols q with e | s
    · rw [hx] at h
      cases h
    · rw [hx] at h
      have := ih _ _ (fun r hr => hne r (List.mem_cons_of_mem _ hr)) h
      rw [this]
      exact recordSet_lookup_other _ _ _ _ (fun hc =>
        hne q (List.mem_cons_self _ _) hc.symm)

theorem extract_symbols_extend (collab : Collaborators) (root : AbsPath)
    (hashes : List (AbsPath × String)) (mtimes : List (AbsPath × Nat)) :
    ∀ (chg : List AbsPath) (acc acc' : BuildAcc),
      extractChanged collab root hashes mtimes chg acc = .ok acc' →
      ∃ t, acc'.symbols = acc.symbols ++ t := by
  intro chg
  induction chg with
  | nil =>
    intro acc acc' h
    injection h with h
    subst h
    exact ⟨[], (List.append_nil _).symm⟩
  | cons q chg' ih =>
    intro acc acc' h
    simp only [extractChanged] at h
    rcases hx : collab.extractFileSymbols q with e | s
    · rw [hx] at h
      cases h
    · rw [hx] at h
      obtain ⟨t, ht⟩ := ih _ _ h
      exact ⟨s ++ t, by simp [ht, List.append_assoc]⟩

/-! ### Claim C9: hash fallback with mtime refresh -/

/-- Claim C9: a cached file whose stored mtime differs from the live one
but whose content hash equals the cached fingerprint is classified
`unchanged`; in the TS phase its cached symbols are carried forward
verbatim (they appear as a block in the accumulated symbols, with no
re-extraction of the file since it is not in `changed`), and the new
cache entry keeps the fingerprint and symbols while storing the
refreshed live mtime. -/
theorem C9_hash_fallback_refresh (collab : Collaborators) (root : AbsPath)
    (c : CacheManifest) (tsFiles : List AbsPath) (p : AbsPath) (e : FileEntry) (m : Nat)
    (hp : p ∈ tsFiles)
    (hl : c.files.lookup (toRelativePosixPath p root) = some e)
    (hm : e.mtimeMs = some m)
    (hmm : collab.fsv.mtimeOf p ≠ m)
    (hh : collab.fsv.hashOf p = e.contentHash)
    (huniq : ∀ q ∈ tsFiles, toRelativePosixPath q root = toRelativePosixPath p root → q = p) :
    p ∈ (computeDiff tsFiles root (some c) collab.fsv).unchanged ∧
    p ∉ (computeDiff tsFiles root (some c) collab.fsv).changed ∧
    ∀ acc', tsPhase collab root (some c) tsFiles = .ok acc' →
      acc'.entries.lookup (toRelativePosixPath p root)
        = some ⟨e.contentHash, e.symbols, some (collab.fsv.mtimeOf p)⟩ ∧
      ∃ l₁ l₂, acc'.symbols = l₁ ++ e.symbols ++ l₂ := by
  have hcf := checkFile_slow_match collab.fsv p e m hm hmm hh
  have hunch : p ∈ (computeDiff tsFiles root (some c) collab.fsv).unchanged :=
    (processChecks_unchanged_iff collab.fsv).mpr
      ⟨e, split_check_mem c root hp hl, by rw [hcf]⟩
  have hnchg : p ∉ (computeDiff tsFiles root (some c) collab.fsv).changed := by
    intro hc
    rcases List.mem_append.mp hc with hnew | hchg
    · have := (split_new_sound c root hnew).2
      rw [hl] at this
      cases this
    · obtain ⟨e', he', hm'⟩ := (processChecks_changed_iff collab.fsv).mp hchg
      have hl' := (split_check_sound c root he').2
      rw [hl] at hl'
      injection hl' with h1
      subst h1
      rw [hcf] at hm'
      simp at hm'
  refine ⟨hunch, hnchg, ?_⟩
  intro acc' hts
  have hmt : (computeDiff tsFiles root (some c) collab.fsv).mtimes.lookup p
      = some (collab.fsv.mtimeOf p) :=
    processChecks_mtimes_lookup collab.fsv (split_check_mem c root hp hl)
  have hrefresh : carryRefresh (computeDiff tsFiles root (some c) collab.fsv).mtimes p e
      = ⟨e.contentHash, e.symbols, some (collab.fsv.mtimeOf p)⟩ := by
    unfold carryRefresh
    rw [hmt]
    dsimp only
    rw [if_pos (by rw [hm]; intro hc; injection hc with hc; exact hmm hc.symm)]
  have huniq' : ∀ q ∈ (computeDiff tsFiles root (some c) collab.fsv).unchanged,
      toRelativePosixPath q root = toRelativePosixPath p root → q = p := by
    intro q hq hrel
    obtain ⟨e', he', -⟩ := (processChecks_unchanged_iff collab.fsv).mp hq
    exact huniq q (split_check_sound c root he').1 hrel
  have hchgrel : ∀ q ∈ (computeDiff tsFiles root (some c) collab.fsv).changed,
      toRelativePosixPath q root ≠ toRelativePosixPath p root := by
    intro q hq hrel
    rcases List.mem_append.mp hq with hnew | hchg
    · have hq' : q ∈ tsFiles := (split_new_sound c root hnew).1
      have := (split_new_sound c root hnew).2
      rw [huniq q hq' hrel] at this
      rw [hl] at this
      cases this
    · obtain ⟨e', he', hm'⟩ := (processChecks_changed_iff collab.fsv).mp hchg
      have hq' : q ∈ tsFiles := (split_check_sound c root he').1
      have hqp := huniq q hq' hrel
      subst hqp
      have hl' := (split_check_sound c root he').2
      rw [hl] at hl'
      injection hl' with h1
      subst h1
      rw [hcf] at hm'
      simp at hm'
  unfold tsPhase at hts
  constructor
  · have hcarry := carry_lookup_after c root
      (computeDiff tsFiles root (some c) collab.fsv).mtimes p e hl
      (computeDiff tsFiles root (some c) collab.fsv).unchanged ⟨[], []⟩ huniq'
      (Or.inl hunch)
    rw [hrefresh] at hcarry
    rw [extract_entries_preserve collab root _ _ _ _ _ _ hchgrel hts]
    exact hcarry
  · obtain ⟨l₁, l₂, hblock⟩ := carry_symbols_contains c root
      (computeDiff tsFiles root (some c) collab.fsv).mtimes p e hl
      (computeDiff tsFiles root (some c) collab.fsv).unchanged ⟨[], []⟩ hunch
    obtain ⟨t, ht⟩ := extract_symbols_extend collab root _ _ _ _ _ hts
    exact ⟨l₁, l₂ ++ t, by simp [ht, hblock, List.append_assoc]⟩

/-- Witness for C9: a file with stored mtime 4, live mtime 5 and
matching hash is classified unchanged and its new cache entry keeps the
fingerprint and symbols with the refreshed mtime. -/
theorem C9_witness :
    (["r", "a.ts"] : AbsPath) ∈ (computeDiff [["r", "a.ts"]] ["r"]
      (some ⟨"1", "1.0.0", "t", [],
        [("a.ts", ⟨"h", [⟨"a.ts#x", "x", "a.ts"⟩], some 4⟩)]⟩)
      (⟨fun _ => 5, fun _ => "h"⟩ : FsView)).unchanged ∧
    ((⟨[⟨"a.ts#x", "x", "a.ts"⟩],
        [("a.ts", ⟨"h", [⟨"a.ts#x", "x", "a.ts"⟩], some 5⟩)]⟩ : BuildAcc)).entries.lookup
        (toRelativePosixPath ["r", "a.ts"] ["r"])
      = some ⟨"h", [⟨"a.ts#x", "x", "a.ts"⟩], some 5⟩ := by
  have h := C9_hash_fallback_refresh
    ⟨⟨fun _ => 5, fun _ => "h"⟩, fun _ => "", fun _ => .ok [], fun _ _ => .ok [], [], "cfg"⟩
    ["r"]
    ⟨"1", "1.0.0", "t", [], [("a.ts", ⟨"h", [⟨"a.ts#x", "x", "a.ts"⟩], some 4⟩)]⟩
    [["r", "a.ts"]] ["r", "a.ts"] ⟨"h", [⟨"a.ts#x", "x", "a.ts"⟩], some 4⟩ 4
    (List.mem_singleton.mpr rfl) (by decide) rfl (by decide) rfl (by decide)
  have h2 := (h.2.2 ⟨[⟨"a.ts#x", "x", "a.ts"⟩],
    [("a.ts", ⟨"h", [⟨"a.ts#x", "x", "a.ts"⟩], some 5⟩)]⟩ (by rfl)).1
  exact ⟨h.1, h2⟩

/-! ### Plugin-phase trace lemmas -/

theorem disposeNames_append (a b : List BuildEvent) :
    disposeNames (a ++ b) = disposeNames a ++ disposeNames b :=
  List.filterMap_append ..

theorem initNames_append (a b : List BuildEvent) :
    initNames (a ++ b) = initNames a ++ initNames b :=
  List.filterMap_append ..

theorem disposeNames_initEvs (l : List Plugin) :
    disposeNames (l.map (fun p => BuildEvent.pluginInit p.name)) = [] := by
  induction l with
  | nil => rfl
  | cons p t ih => simpa [disposeNames, List.filterMap_cons] using ih

theorem disposeNames_dispEvs (l : List Plugin) :
    disposeNames (l.map (fun p => BuildEvent.pluginDispose p.name))
      = l.map (fun p => p.name) := by
  induction l with
  | nil => rfl
  | cons p t ih => simpa [disposeNames, List.filterMap_cons] using ih

theorem initNames_dispEvs (l : List Plugin) :
    initNames (l.map (fun p => BuildEvent.pluginDispose p.name)) = [] := by
  induction l with
  | nil => rfl
  | cons p t ih => simpa [initNames, List.filterMap_cons] using ih

theorem initNames_initEvs (l : List Plugin) :
    initNames (l.map (fun p => BuildEvent.pluginInit p.name)) = l.map (fun p => p.name) := by
  induction l with
  | nil => rfl
  | cons p t ih => simpa [initNames, List.filterMap_cons] using ih

theorem initPluginsLoop_struct (l : List Plugin) :
    (initPluginsLoop l).2.1
      = (initPluginsLoop l).1.map (fun p => BuildEvent.pluginInit p.name) ∧
    ∀ p ∈ (initPluginsLoop l).1, p ∈ l := by
  induction l with
  | nil => exact ⟨rfl, fun p h => nomatch h⟩
  | cons q t ih =>
    rcases hq : q.init with e | u
    · simp only [initPluginsLoop, hq]
      exact ⟨rfl, fun p h => nomatch h⟩
    · simp only [initPluginsLoop, hq]
      refine ⟨by rw [List.map_cons, ih.1], ?_⟩
      intro p hp
      rcases List.mem_cons.mp hp with rfl | hp'
      · exact List.mem_cons_self _ _
      · exact List.mem_cons_of_mem _ (ih.2 p hp')

theorem initPluginsLoop_ok (l : List Plugin) (h : (initPluginsLoop l).2.2 = none) :
    (initPluginsLoop l).1 = l ∧ ∀ p ∈ l, p.init = .ok () := by
  induction l with
  | nil => exact ⟨rfl, fun p hp => nomatch hp⟩
  | cons q t ih =>
    rcases hq : q.init with e | u
    · simp only [initPluginsLoop, hq] at h
      cases h
    · simp only [initPluginsLoop, hq] at h ⊢
      obtain ⟨h1, h2⟩ := ih h
      refine ⟨by rw [h1], ?_⟩
      intro p hp
      rcases List.mem_cons.mp hp with rfl | hp'
      · cases u
        exact hq
      · exact h2 p hp'

theorem initPluginsLoop_fail (front back : List Plugin) (pk : Plugin) (e : String)
    (hfront : ∀ p ∈ front, p.init = .ok ()) (hk : pk.init = .error e) :
    initPluginsLoop (front ++ pk :: back)
      = (front, front.map (fun p => BuildEvent.pluginInit p.name), some e) := by
  induction front with
  | nil => simp [initPluginsLoop, hk]
  | cons q t ih =>
    have hq : q.init = .ok () := hfront q (List.mem_cons_self _ _)
    simp only [List.cons_append, initPluginsLoop, hq, List.append_eq]
    rw [ih (fun p hp => hfront p (List.mem_cons_of_mem _ hp))]
    simp

theorem reinitLoop_events (l : List Plugin) :
    ∀ ev ∈ (reinitLoop l).1, ∃ p ∈ l, ev = BuildEvent.pluginInit p.name := by
  induction l with
  | nil => intro ev h; cases h
  | cons q t ih =>
    intro ev hev
    simp only [reinitLoop] at hev
    rcases hq : q.init with e | u
    · rw [hq] at hev
      cases hev
    · rw [hq] at hev
      rcases List.mem_cons.mp hev with rfl | hev'
      · exact ⟨q, List.mem_cons_self _ _, rfl⟩
      · obtain ⟨p, hp, hp2⟩ := ih ev hev'
        exact ⟨p, List.mem_cons_of_mem _ hp, hp2⟩

theorem cadenceStep_events (ctx : PlugCtx) (idx : Nat) :
    ∀ ev ∈ (cadenceStep ctx idx).1,
      (∃ p ∈ ctx.plugins, ev = BuildEvent.pluginDispose p.name) ∨
      (∃ p ∈ ctx.plugins, ev = BuildEvent.pluginInit p.name) := by
  intro ev hev
  unfold cadenceStep at hev
  split at hev
  · rcases List.mem_append.mp hev with h | h
    · obtain ⟨p, hp, rfl⟩ := List.mem_map.mp h
      exact Or.inl ⟨p, hp, rfl⟩
    · obtain ⟨p, hp, h2⟩ := reinitLoop_events ctx.plugins ev h
      exact Or.inr ⟨p, hp, h2⟩
  · cases hev

theorem processFilesForPlugin_events (ctx : PlugCtx) (pl : Plugin) :
    ∀ (files : List AbsPath) (st : PlugSt),
      ∀ ev ∈ (processFilesForPlugin ctx pl files st).1,
        (∃ p ∈ ctx.plugins, ev = BuildEvent.pluginDispose p.name) ∨
        (∃ p ∈ ctx.plugins, ev = BuildEvent.pluginInit p.name) := by
  intro files
  induction files with
  | nil => intro st ev h; cases h
  | cons fp rest ih =>
    intro st ev hev
    simp only [processFilesForPlugin] at hev
    split at hev
    · exact ih st ev hev
    · rcases hc : (cadenceStep ctx st.idx).2 with _ | err
      · rw [hc] at hev
        rcases hx : processPluginFile ctx.collab pl fp ((ctx.relPaths.lookup fp).getD "")
          with e | s
        · rw [hx] at hev
          exact cadenceStep_events ctx st.idx ev hev
        · rw [hx] at hev
          rcases List.mem_append.mp hev with h | h
          · exact cadenceStep_events ctx st.idx ev h
          · exact ih _ ev h
      · rw [hc] at hev
        exact cadenceStep_events ctx st.idx ev hev

theorem processAllPluginFiles_events (ctx : PlugCtx) :
    ∀ (work : List (Plugin × List AbsPath)) (st : PlugSt),
      ∀ ev ∈ (processAllPluginFiles ctx work st).1,
        (∃ p ∈ ctx.plugins, ev = BuildEvent.pluginDispose p.name) ∨
        (∃ p ∈ ctx.plugins, ev = BuildEvent.pluginInit p.name) := by
  intro work
  induction work with
  | nil => intro st ev h; cases h
  | cons plf rest ih =>
    intro st ev hev
    obtain ⟨pl, files⟩ := plf
    simp only [processAllPluginFiles] at hev
    rcases hr : (processFilesForPlugin ctx pl files st).2 with e | st'
    · rw [hr] at hev
      exact processFilesForPlugin_events ctx pl files st ev hev
    · rw [hr] at hev
      rcases List.mem_append.mp hev with h | h
      · exact processFilesForPlugin_events ctx pl files st ev h
      · exact ih st' ev h

theorem reinitLoop_no_disposes (l : List Plugin) : disposeNames (reinitLoop l).1 = [] := by
  induction l with
  | nil => rfl
  | cons q t ih =>
    rcases hq : q.init with e | u
    · simp [reinitLoop, hq, disposeNames]
    · simp only [reinitLoop, hq]
      simpa [disposeNames, List.filterMap_cons] using ih

theorem cadenceStep_disposes (ctx : PlugCtx) (idx : Nat) :
    ∃ s, disposeNames (cadenceStep ctx idx).1
      = (List.replicate s (ctx.plugins.map (fun p => p.name))).flatten := by
  unfold cadenceStep
  split
  · refine ⟨1, ?_⟩
    rw [disposeNames_append, disposeNames_dispEvs, reinitLoop_no_disposes]
    simp
  · exact ⟨0, rfl⟩

theorem processFilesForPlugin_disposes (ctx : PlugCtx) (pl : Plugin) :
    ∀ (files : List AbsPath) (st : PlugSt),
      ∃ r, disposeNames (processFilesForPlugin ctx pl files st).1
        = (List.replicate r (ctx.plugins.map (fun p => p.name))).flatten := by
  intro files
  induction files with
  | nil => intro st; exact ⟨0, rfl⟩
  | cons fp rest ih =>
    intro st
    simp only [processFilesForPlugin]
    split
    · exact ih st
    · obtain ⟨s, hs⟩ := cadenceStep_disposes ctx st.idx
      rcases hc : (cadenceStep ctx st.idx).2 with _ | err
      · rcases hx : processPluginFile ctx.collab pl fp ((ctx.relPaths.lookup fp).getD "")
          with e | syms
        · exact ⟨s, hs⟩
        · obtain ⟨r, hr⟩ := ih
            ⟨st.idx + 1, ⟨st.acc.symbols ++ syms,
              recordSet st.acc.entries ((ctx.relPaths.lookup fp).getD "")
                (match st.acc.entries.lookup ((ctx.relPaths.lookup fp).getD "") with
                  | some existing =>
                    ⟨(ctx.hashes.lookup fp).getD (ctx.collab.fsv.hashOf fp),
                      existing.symbols ++ syms,
                      some ((ctx.mtimes.lookup fp).getD (ctx.collab.fsv.mtimeOf fp))⟩
                  | none =>
                    ⟨(ctx.hashes.lookup fp).getD (ctx.collab.fsv.hashOf fp), syms,
                      some ((ctx.mtimes.lookup fp).getD (ctx.collab.fsv.mtimeOf fp))⟩)⟩⟩
          refine ⟨s + r, ?_⟩
          rw [disposeNames_append, hs, hr, List.replicate_add, List.flatten_append]
      · exact ⟨s, hs⟩

theorem processAllPluginFiles_disposes (ctx : PlugCtx) :
    ∀ (work : List (Plugin × List AbsPath)) (st : PlugSt),
      ∃ r, disposeNames (processAllPluginFiles ctx work st).1
        = (List.replicate r (ctx.plugins.map (fun p => p.name))).flatten := by
  intro work
  induction work with
  | nil => intro st; exact ⟨0, rfl⟩
  | cons plf rest ih =>
    intro st
    obtain ⟨pl, files⟩ := plf
    simp only [processAllPluginFiles]
    obtain ⟨s, hs⟩ := processFilesForPlugin_disposes ctx pl files st
    rcases hr : (processFilesForPlugin ctx pl files st).2 with e | st'
    · exact ⟨s, hs⟩
    · obtain ⟨r, hrr⟩ := ih st'
      refine ⟨s + r, ?_⟩
      rw [disposeNames_append, hs, hrr, List.replicate_add, List.flatten_append]

/-! ### Claim C8: disposal correctness -/

/-- Claim C8: if plugin k is the first whose initialization throws, the
plugin phase propagates that error and the disposed plugins are exactly
the successfully initialized plugins 1..k-1, in initialization order —
with distinct plugin names, plugin k and the later ones are never
disposed.  On a build whose plugin phase succeeds, the dispose calls are
whole passes over every initialized plugin in initialization order (one
pass per batch re-initialization plus the final disposal), at least one
pass when any plugin is registered. -/
theorem C8_disposal_correctness :
    (∀ (collab : Collaborators) (opts : BuildOptions) (cache : Option CacheManifest)
        (acc : BuildAcc) (front back : List Plugin) (pk : Plugin) (e : String),
      opts.plugins = front ++ pk :: back →
      (∀ p ∈ front, p.init = .ok ()) →
      pk.init = .error e →
      (pluginPhase collab opts cache acc).2 = .error e ∧
      disposeNames (pluginPhase collab opts cache acc).1 = front.map (fun p => p.name) ∧
      initNames (pluginPhase collab opts cache acc).1 = front.map (fun p => p.name) ∧
      ((opts.plugins.map (fun p => p.name)).Nodup →
        ∀ q ∈ pk :: back, q.name ∉ disposeNames (pluginPhase collab opts cache acc).1)) ∧
    (∀ (collab : Collaborators) (opts : BuildOptions) (cache : Option CacheManifest)
        (acc accOut : BuildAcc),
      (pluginPhase collab opts cache acc).2 = .ok accOut →
      ∃ r, disposeNames (pluginPhase collab opts cache acc).1
          = (List.replicate r (opts.plugins.map (fun p => p.name))).flatten ∧
        (opts.plugins ≠ [] → 1 ≤ r)) := by
  constructor
  · intro collab opts cache acc front back pk e hpl hfront hk
    have hne : opts.plugins.isEmpty = false := by
      rw [hpl]
      cases front <;> rfl
    have hinit : initPluginsLoop opts.plugins
        = (front, front.map (fun p => BuildEvent.pluginInit p.name), some e) := by
      rw [hpl]
      exact initPluginsLoop_fail front back pk e hfront hk
    have hphase : pluginPhase collab opts cache acc
        = (front.map (fun p => BuildEvent.pluginInit p.name)
            ++ front.map (fun p => BuildEvent.pluginDispose p.name), .error e) := by
      unfold pluginPhase
      rw [hne]
      simp only [Bool.false_eq_true, if_false, hinit]
    rw [hphase]
    refine ⟨rfl, ?_, ?_, ?_⟩
    · rw [disposeNames_append, disposeNames_initEvs, disposeNames_dispEvs, List.nil_append]
    · rw [initNames_append, initNames_initEvs, initNames_dispEvs, List.append_nil]
    · intro hnodup q hq hmem
      rw [disposeNames_append, disposeNames_initEvs, disposeNames_dispEvs,
        List.nil_append] at hmem
      rw [hpl, List.map_append] at hnodup
      have hdisj := (List.nodup_append.mp hnodup).2.2
      exact hdisj hmem (List.mem_map.mpr ⟨q, hq, rfl⟩)
  · intro collab opts cache acc accOut hok
    rcases hne : opts.plugins.isEmpty with _ | _
    · have hErr : (initPluginsLoop opts.plugins).2.2 = none := by
        rcases h2 : (initPluginsLoop opts.plugins).2.2 with _ | err
        · rfl
        · exfalso
          revert hok
          unfold pluginPhase
          rw [hne]
          simp only [Bool.false_eq_true, if_false, h2]
          intro hok
          cases hok
      revert hok
      unfold pluginPhase
      rw [hne]
      simp only [Bool.false_eq_true, if_false, hErr]
      intro hok
      have hinited := (initPluginsLoop_ok opts.plugins hErr).1
      obtain ⟨s, hs⟩ := processAllPluginFiles_disposes (pluginCtxOf collab opts cache)
        (opts.plugins.zip (findAllPluginFilesM opts.plugins collab.treeFiles))
        (pluginStartOf collab opts cache acc)
      rcases hpr : (processAllPluginFiles (pluginCtxOf collab opts cache)
          (opts.plugins.zip (findAllPluginFilesM opts.plugins collab.treeFiles))
          (pluginStartOf collab opts cache acc)).2 with e | st'
      · rw [hpr] at hok
        cases hok
      · rw [hpr] at hok
        refine ⟨s + 1, ?_, fun _ => Nat.le_add_left 1 s⟩
        rw [disposeNames_append, disposeNames_append]
        rw [(initPluginsLoop_struct opts.plugins).1, disposeNames_initEvs, hinited,
          disposeNames_dispEvs, hs]
        have : (pluginCtxOf collab opts cache).plugins = opts.plugins := rfl
        rw [this, List.replicate_add, List.flatten_append]
        simp
    · refine ⟨0, ?_, ?_⟩
      · unfold pluginPhase
        rw [hne]
        rfl
      · intro hp
        exact absurd (List.isEmpty_iff.mp hne) hp

theorem pluginPhase_trace_empty (collab : Collaborators) (opts : BuildOptions)
    (cache : Option CacheManifest) (acc : BuildAcc)
    (hne : opts.plugins.isEmpty = true) :
    (pluginPhase collab opts cache acc).1 = [] := by
  unfold pluginPhase
  rw [hne]
  rfl

theorem pluginPhase_trace_initfail (collab : Collaborators) (opts : BuildOptions)
    (cache : Option CacheManifest) (acc : BuildAcc) (e : String)
    (hne : opts.plugins.isEmpty = false)
    (herr : (initPluginsLoop opts.plugins).2.2 = some e) :
    (pluginPhase collab opts cache acc).1
      = (initPluginsLoop opts.plugins).2.1
        ++ (initPluginsLoop opts.plugins).1.map (fun p => BuildEvent.pluginDispose p.name) := by
  unfold pluginPhase
  rw [hne]
  simp only [Bool.false_eq_true, if_false, herr]

theorem pluginPhase_trace_proc (collab : Collaborators) (opts : BuildOptions)
    (cache : Option CacheManifest) (acc : BuildAcc)
    (hne : opts.plugins.isEmpty = false)
    (herr : (initPluginsLoop opts.plugins).2.2 = none) :
    (pluginPhase collab opts cache acc).1
      = (initPluginsLoop opts.plugins).2.1
        ++ (processAllPluginFiles (pluginCtxOf collab opts cache)
            (opts.plugins.zip (findAllPluginFilesM opts.plugins collab.treeFiles))
            (pluginStartOf collab opts cache acc)).1
        ++ (initPluginsLoop opts.plugins).1.map (fun p => BuildEvent.pluginDispose p.name) := by
  unfold pluginPhase
  rw [hne]
  simp only [Bool.false_eq_true, if_false, herr]
  rcases hpr : (processAllPluginFiles (pluginCtxOf collab opts cache)
      (opts.plugins.zip (findAllPluginFilesM opts.plugins collab.treeFiles))
      (pluginStartOf collab opts cache acc)).2 with e | st' <;> rfl

theorem pluginPhase_no_writes (collab : Collaborators) (opts : BuildOptions)
    (cache : Option CacheManifest) (acc : BuildAcc) :
    BuildEvent.writeIndex ∉ (pluginPhase collab opts cache acc).1 ∧
    BuildEvent.writeCache ∉ (pluginPhase collab opts cache acc).1 := by
  have key : ∀ ev ∈ (pluginPhase collab opts cache acc).1,
      (∃ nm, ev = BuildEvent.pluginDispose nm) ∨ (∃ nm, ev = BuildEvent.pluginInit nm) := by
    intro ev hev
    rcases hne : opts.plugins.isEmpty with _ | _
    · rcases herr : (initPluginsLoop opts.plugins).2.2 with _ | e
      · rw [pluginPhase_trace_proc collab opts cache acc hne herr] at hev
        rcases List.mem_append.mp hev with h1 | h2
        · rcases List.mem_append.mp h1 with ha | hb
          · rw [(initPluginsLoop_struct opts.plugins).1] at ha
            obtain ⟨p, -, rfl⟩ := List.mem_map.mp ha
            exact Or.inr ⟨p.name, rfl⟩
          · rcases processAllPluginFiles_events _ _ _ ev hb with ⟨p, -, rfl⟩ | ⟨p, -, rfl⟩
            · exact Or.inl ⟨p.name, rfl⟩
            · exact Or.inr ⟨p.name, rfl⟩
        · obtain ⟨p, -, rfl⟩ := List.mem_map.mp h2
          exact Or.inl ⟨p.name, rfl⟩
      · rw [pluginPhase_trace_initfail collab opts cache acc e hne herr] at hev
        rcases List.mem_append.mp hev with ha | hb
        · rw [(initPluginsLoop_struct opts.plugins).1] at ha
          obtain ⟨p, -, rfl⟩ := List.mem_map.mp ha
          exact Or.inr ⟨p.name, rfl⟩
        · obtain ⟨p, -, rfl⟩ := List.mem_map.mp hb
          exact Or.inl ⟨p.name, rfl⟩
    · rw [pluginPhase_trace_empty collab opts cache acc hne] at hev
      cases hev
  constructor
  · intro hmem
    rcases key _ hmem with ⟨nm, h⟩ | ⟨nm, h⟩ <;> cases h
  · intro hmem
    rcases key _ hmem with ⟨nm, h⟩ | ⟨nm, h⟩ <;> cases h

theorem pluginPhase_pairing (collab : Collaborators) (opts : BuildOptions)
    (cache : Option CacheManifest) (acc : BuildAcc) :
    ∀ nm, BuildEvent.pluginInit nm ∈ (pluginPhase collab opts cache acc).1 →
      BuildEvent.pluginDispose nm ∈ (pluginPhase collab opts cache acc).1 := by
  intro nm hev
  rcases hne : opts.plugins.isEmpty with _ | _
  · rcases herr : (initPluginsLoop opts.plugins).2.2 with _ | e
    · rw [pluginPhase_trace_proc collab opts cache acc hne herr] at hev ⊢
      have hinited := (initPluginsLoop_ok opts.plugins herr).1
      refine List.mem_append.mpr (Or.inr ?_)
      rcases List.mem_append.mp hev with h1 | h2
      · rcases List.mem_append.mp h1 with ha | hb
        · rw [(initPluginsLoop_struct opts.plugins).1] at ha
          obtain ⟨p, hp, heq⟩ := List.mem_map.mp ha
          injection heq with heq2
          subst heq2
          exact List.mem_map.mpr ⟨p, hp, rfl⟩
        · rcases processAllPluginFiles_events _ _ _ _ hb with ⟨p, hp, heq⟩ | ⟨p, hp, heq⟩
          · cases heq
          · injection heq with heq2
            subst heq2
            rw [hinited]
            exact List.mem_map.mpr ⟨p, hp, rfl⟩
      · obtain ⟨p, hp, heq⟩ := List.mem_map.mp h2
        cases heq
    · rw [pluginPhase_trace_initfail collab opts cache acc e hne herr] at hev ⊢
      refine List.mem_append.mpr (Or.inr ?_)
      rcases List.mem_append.mp hev with ha | hb
      · rw [(initPluginsLoop_struct opts.plugins).1] at ha
        obtain ⟨p, hp, heq⟩ := List.mem_map.mp ha
        injection heq with heq2
        subst heq2
        exact List.mem_map.mpr ⟨p, hp, rfl⟩
      · obtain ⟨p, hp, heq⟩ := List.mem_map.mp hb
        cases heq
  · rw [pluginPhase_trace_empty collab opts cache acc hne] at hev
    cases hev

/-! ### Claim C5: errors abort without publishing -/

/-- Claim C5: whenever `generateDocIndex` ends in a thrown error (an
extraction or plugin-initialization failure — the only error sources in
the build), neither the index snapshot nor the cache manifest write is
performed (the prior on-disk artifacts stay untouched), and every plugin
that was successfully initialized has been disposed before the error
propagates. -/
theorem C5_error_no_partial_publish (collab : Collaborators) (opts : BuildOptions)
    (cacheFile : CacheFile) (now : Nat) (tr : List BuildEvent) (e : String)
    (h : generateDocIndex collab opts cacheFile now = (tr, .error e)) :
    BuildEvent.writeIndex ∉ tr ∧ BuildEvent.writeCache ∉ tr ∧
    ∀ nm, BuildEvent.pluginInit nm ∈ tr → BuildEvent.pluginDispose nm ∈ tr := by
  unfold generateDocIndex at h
  rcases hts : tsPhase collab opts.projectRoot (cacheOf collab opts cacheFile) (tsFilesOf opts)
    with e' | acc2
  · rw [hts] at h
    injection h with h1 h2
    subst h1
    exact ⟨(fun hc => by cases hc), (fun hc => by cases hc), (fun nm hc => by cases hc)⟩
  · rw [hts] at h
    dsimp only at h
    rcases hpr : (pluginPhase collab opts (cacheOf collab opts cacheFile) acc2).2
      with e' | acc3
    · rw [hpr] at h
      injection h with h1 h2
      subst h1
      exact ⟨(pluginPhase_no_writes collab opts (cacheOf collab opts cacheFile) acc2).1,
        (pluginPhase_no_writes collab opts (cacheOf collab opts cacheFile) acc2).2,
        pluginPhase_pairing collab opts (cacheOf collab opts cacheFile) acc2⟩
    · rw [hpr] at h
      dsimp only at h
      rcases hinc : opts.incremental with _ | _ <;> rw [hinc] at h <;>
        simp only [Bool.false_eq_true, if_false, if_true] at h <;>
        (injection h with h1 h2; exact Except.noConfusion h2)

/-- Witness for C5: a build whose only TS file fails extraction reports
the error with an empty event trace — no writes, nothing initialized. -/
theorem C5_witness :
    BuildEvent.writeIndex ∉ (generateDocIndex
      ⟨⟨fun _ => 0, fun _ => ""⟩, fun _ => "", fun _ => .error "parse error",
        fun _ _ => .ok [], [], "c"⟩
      ⟨[["r", "a.ts"]], ["r"], [], true, 50⟩ .missing 7).1 ∧
    BuildEvent.writeCache ∉ (generateDocIndex
      ⟨⟨fun _ => 0, fun _ => ""⟩, fun _ => "", fun _ => .error "parse error",
        fun _ _ => .ok [], [], "c"⟩
      ⟨[["r", "a.ts"]], ["r"], [], true, 50⟩ .missing 7).1 :=
  have h := C5_error_no_partial_publish
    ⟨⟨fun _ => 0, fun _ => ""⟩, fun _ => "", fun _ => .error "parse error",
      fun _ _ => .ok [], [], "c"⟩
    ⟨[["r", "a.ts"]], ["r"], [], true, 50⟩ .missing 7 [] "parse error" rfl
  ⟨h.1, h.2.1⟩

/-- Witness for C8: with plugins [A (init ok), K (init throws "boom")],
the phase fails with "boom" and disposes exactly A; with the single
plugin [A] the phase succeeds and the dispose passes cover A at least
once. -/
theorem C8_witness :
    ((pluginPhase collabTrivial ⟨[], ["r"], [pluginOkA, pluginFailK], true, 50⟩
        none ⟨[], []⟩).2 = .error "boom" ∧
      disposeNames (pluginPhase collabTrivial ⟨[], ["r"], [pluginOkA, pluginFailK], true, 50⟩
        none ⟨[], []⟩).1 = ["A"]) ∧
    ∃ r, disposeNames (pluginPhase collabTrivial ⟨[], ["r"], [pluginOkA], true, 50⟩
        none ⟨[], []⟩).1 = (List.replicate r ["A"]).flatten ∧
      (([pluginOkA] : List Plugin) ≠ [] → 1 ≤ r) := by
  have h1 := C8_disposal_correctness.1 collabTrivial
    ⟨[], ["r"], [pluginOkA, pluginFailK], true, 50⟩ none ⟨[], []⟩
    [pluginOkA] [] pluginFailK "boom" rfl
    (fun p hp => by rcases List.mem_singleton.mp hp with rfl; rfl) rfl
  have h2 := C8_disposal_correctness.2 collabTrivial
    ⟨[], ["r"], [pluginOkA], true, 50⟩ none ⟨[], []⟩ ⟨[], []⟩ rfl
  exact ⟨⟨h1.1, h1.2.1⟩, h2⟩

/-! ### Stale-entry erasure lemmas (Claim C7) -/

theorem recordErase_lookup_ne (files : List (String × FileEntry)) (k k' : String)
    (h : k' ≠ k) : (recordErase files k).lookup k' = files.lookup k' := by
  induction files with
  | nil => rfl
  | cons kv t ih =>
    obtain ⟨a, b⟩ := kv
    by_cases ha : a = k
    · subst ha
      simp only [recordErase, List.filter_cons]
      rw [if_neg (by simp)]
      rw [lookup_cons_ne _ _ h]
      exact ih
    · simp only [recordErase, List.filter_cons]
      rw [if_pos (by simpa using ha)]
      by_cases ha' : a = k'
      · subst ha'
        simp
      · rw [lookup_cons_ne _ _ (fun hq => ha' hq.symm),
          lookup_cons_ne _ _ (fun hq => ha' hq.symm)]
        exact ih

theorem loadCache_fields_congr (m m' : CacheManifest) (ts : Option String)
    (pn : List String) (iv : String)
    (hcv : m'.cacheVersion = m.cacheVersion) (hiv : m'.indexVersion = m.indexVersion)
    (hpn : m'.pluginNames = m.pluginNames) (hth : m'.tsConfigHash = m.tsConfigHash) :
    loadCache (.envelope m') ts pn iv
      = (loadCache (.envelope m) ts pn iv).map (fun r => ⟨m', r.tsConfigHash⟩) := by
  unfold loadCache
  dsimp only
  rw [hcv, hiv, hpn, hth]
  split_ifs
  · rfl
  · rfl
  · rfl
  · cases ts with
    | none => rfl
    | some h =>
      dsimp only
      split_ifs <;> rfl

theorem splitNewAndCheck_congr (c c' : CacheManifest) (root : AbsPath) :
    ∀ (l : List AbsPath),
      (∀ p ∈ l, c'.files.lookup (toRelativePosixPath p root)
        = c.files.lookup (toRelativePosixPath p root)) →
      splitNewAndCheck c' root l = splitNewAndCheck c root l := by
  intro l
  induction l with
  | nil => intro _; rfl
  | cons q t ih =>
    intro hlk
    simp only [splitNewAndCheck]
    rw [hlk q (List.mem_cons_self _ _), ih (fun p hp => hlk p (List.mem_cons_of_mem _ hp))]

theorem computeDiff_congr (l : List AbsPath) (root : AbsPath) (c c' : CacheManifest)
    (fsv : FsView)
    (hlk : ∀ p ∈ l, c'.files.lookup (toRelativePosixPath p root)
      = c.files.lookup (toRelativePosixPath p root)) :
    (computeDiff l root (some c') fsv).changed = (computeDiff l root (some c) fsv).changed ∧
    (computeDiff l root (some c') fsv).unchanged
      = (computeDiff l root (some c) fsv).unchanged ∧
    (computeDiff l root (some c') fsv).hashes = (computeDiff l root (some c) fsv).hashes ∧
    (computeDiff l root (some c') fsv).mtimes = (computeDiff l root (some c) fsv).mtimes := by
  unfold computeDiff
  dsimp only
  rw [splitNewAndCheck_congr c c' root l hlk]
  exact ⟨rfl, rfl, rfl, rfl⟩

theorem carry_congr (c c' : CacheManifest) (root : AbsPath)
    (mtimes : List (AbsPath × Nat)) :
    ∀ (ul : List AbsPath) (acc : BuildAcc),
      (∀ p ∈ ul, c'.files.lookup (toRelativePosixPath p root)
        = c.files.lookup (toRelativePosixPath p root)) →
      carryUnchanged c' root mtimes ul acc = carryUnchanged c root mtimes ul acc := by
  intro ul
  induction ul with
  | nil => intro acc _; rfl
  | cons q t ih =>
    intro acc hlk
    simp only [carryUnchanged]
    rw [hlk q (List.mem_cons_self _ _)]
    rcases hq : c.files.lookup (toRelativePosixPath q root) with _ | eq
    · exact ih acc (fun p hp => hlk p (List.mem_cons_of_mem _ hp))
    · exact ih _ (fun p hp => hlk p (List.mem_cons_of_mem _ hp))

theorem computeDiff_changed_sub (l : List AbsPath) (root : AbsPath)
    (cache : Option CacheManifest) (fsv : FsView) :
    ∀ q ∈ (computeDiff l root cache fsv).changed, q ∈ l := by
  intro q hq
  cases cache with
  | none => exact hq
  | some c =>
    rcases List.mem_append.mp hq with hnew | hchg
    · exact (split_new_sound c root hnew).1
    · obtain ⟨e', he', -⟩ := (processChecks_changed_iff fsv).mp hchg
      exact (split_check_sound c root he').1

theorem computeDiff_unchanged_sub (l : List AbsPath) (root : AbsPath)
    (cache : Option CacheManifest) (fsv : FsView) :
    ∀ q ∈ (computeDiff l root cache fsv).unchanged, q ∈ l := by
  intro q hq
  cases cache with
  | none => cases hq
  | some c =>
    obtain ⟨e', he', -⟩ := (processChecks_unchanged_iff fsv).mp hq
    exact (split_check_sound c root he').1

theorem loadCache_some_manifest (m : CacheManifest) (ts : Option String)
    (pn : List String) (iv : String) (r : LoadCacheResult)
    (h : loadCache (.envelope m) ts pn iv = some r) : r.manifest = m := by
  unfold loadCache at h
  dsimp only at h
  rcases ts with _ | th
  · split_ifs at h <;> exact Option.noConfusion h
  · split_ifs at h <;> try exact Option.noConfusion h
    dsimp only at h
    split_ifs at h <;> try exact Option.noConfusion h
    injection h with h2
    rw [← h2]

theorem tsPhase_congr (collab : Collaborators) (root : AbsPath) (c c' : CacheManifest)
    (tsFiles : List AbsPath)
    (hlk : ∀ p ∈ tsFiles, c'.files.lookup (toRelativePosixPath p root)
      = c.files.lookup (toRelativePosixPath p root)) :
    tsPhase collab root (some c') tsFiles = tsPhase collab root (some c) tsFiles := by
  obtain ⟨hch, hunch, hhash, hmt⟩ := computeDiff_congr tsFiles root c c' collab.fsv hlk
  unfold tsPhase
  dsimp only
  rw [hch, hunch, hhash, hmt]
  rw [carry_congr c c' root _ _ _ (fun p hp =>
    hlk p (computeDiff_unchanged_sub tsFiles root (some c) collab.fsv p hp))]

theorem pluginPieces_congr (collab : Collaborators) (opts : BuildOptions)
    (c c' : CacheManifest)
    (hlk : ∀ p ∈ allPluginFilesOf collab opts,
      c'.files.lookup (toRelativePosixPath p opts.projectRoot)
        = c.files.lookup (toRelativePosixPath p opts.projectRoot)) :
    pluginCtxOf collab opts (some c') = pluginCtxOf collab opts (some c) ∧
    ∀ acc, pluginStartOf collab opts (some c') acc = pluginStartOf collab opts (some c) acc := by
  obtain ⟨hch, hunch, hhash, hmt⟩ := computeDiff_congr (allPluginFilesOf collab opts)
    opts.projectRoot c c' collab.fsv hlk
  have hch' : (pluginDiffOf collab opts (some c')).changed
      = (pluginDiffOf collab opts (some c)).changed := hch
  have hunch' : (pluginDiffOf collab opts (some c')).unchanged
      = (pluginDiffOf collab opts (some c)).unchanged := hunch
  have hhash' : (pluginDiffOf collab opts (some c')).hashes
      = (pluginDiffOf collab opts (some c)).hashes := hhash
  have hmt' : (pluginDiffOf collab opts (some c')).mtimes
      = (pluginDiffOf collab opts (some c)).mtimes := hmt
  constructor
  · unfold pluginCtxOf
    rw [hch', hhash', hmt']
  · intro acc
    unfold pluginStartOf
    dsimp only
    rw [hunch', hmt']
    rw [carry_congr c c' opts.projectRoot (pluginDiffOf collab opts (some c)).mtimes
      (pluginDiffOf collab opts (some c)).unchanged acc (fun p hp =>
        hlk p (computeDiff_unchanged_sub (allPluginFilesOf collab opts) opts.projectRoot
          (some c) collab.fsv p hp))]

theorem pluginPhase_congr (collab : Collaborators) (opts : BuildOptions)
    (c c' : CacheManifest)
    (hlk : ∀ p ∈ allPluginFilesOf collab opts,
      c'.files.lookup (toRelativePosixPath p opts.projectRoot)
        = c.files.lookup (toRelativePosixPath p opts.projectRoot)) :
    ∀ acc, pluginPhase collab opts (some c') acc = pluginPhase collab opts (some c) acc := by
  intro acc
  obtain ⟨hctx, hstart⟩ := pluginPieces_congr collab opts c c' hlk
  unfold pluginPhase
  rw [hctx, hstart acc]

theorem loadResOf_erase (collab : Collaborators) (opts : BuildOptions)
    (c : CacheManifest) (relPath : String) :
    loadResOf collab opts (.envelope (eraseCacheEntry c relPath))
      = (loadResOf collab opts (.envelope c)).map
          (fun r => ⟨eraseCacheEntry c relPath, r.tsConfigHash⟩) := by
  unfold loadResOf
  rcases hinc : opts.incremental with _ | _
  · rfl
  · simp only [if_true]
    exact loadCache_fields_congr c (eraseCacheEntry c relPath) (some collab.tsConfigHash)
      (pluginNamesOf opts) INDEX_VERSION rfl rfl rfl rfl

/-! ### Entry-key provenance lemmas (Claims C7 and C10) -/

theorem lookup_map_self (f : AbsPath → String) :
    ∀ (l : List AbsPath) (q : AbsPath), q ∈ l →
      (l.map (fun p => (p, f p))).lookup q = some (f q) := by
  intro l
  induction l with
  | nil => intro q h; cases h
  | cons a t ih =>
    intro q hq
    rcases hb : q == a with _ | _
    · simp only [List.map_cons, List.lookup_cons, hb]
      rcases List.mem_cons.mp hq with rfl | hq'
      · simp at hb
      · exact ih q hq'
    · have : q = a := by simpa using hb
      subst this
      simp only [List.map_cons, List.lookup_cons, hb]

theorem carry_keys (cache : CacheManifest) (root : AbsPath)
    (mtimes : List (AbsPath × Nat)) :
    ∀ (ul : List AbsPath) (acc : BuildAcc) (k : String),
      (carryUnchanged cache root mtimes ul acc).entries.lookup k ≠ none →
      acc.entries.lookup k ≠ none ∨ ∃ p ∈ ul, toRelativePosixPath p root = k := by
  intro ul
  induction ul with
  | nil => intro acc k h; exact Or.inl h
  | cons q t ih =>
    intro acc k h
    simp only [carryUnchanged] at h
    rcases hq : cache.files.lookup (toRelativePosixPath q root) with _ | eq
    · rw [hq] at h
      rcases ih acc k h with h1 | ⟨p, hp, hp2⟩
      · exact Or.inl h1
      · exact Or.inr ⟨p, List.mem_cons_of_mem _ hp, hp2⟩
    · rw [hq] at h
      rcases ih _ k h with h1 | ⟨p, hp, hp2⟩
      · by_cases hkq : k = toRelativePosixPath q root
        · exact Or.inr ⟨q, List.mem_cons_self _ _, hkq.symm⟩
        · rw [recordSet_lookup_other _ _ _ _ hkq] at h1
          exact Or.inl h1
      · exact Or.inr ⟨p, List.mem_cons_of_mem _ hp, hp2⟩

theorem extract_keys (collab : Collaborators) (root : AbsPath)
    (hashes : List (AbsPath × String)) (mtimes : List (AbsPath × Nat)) :
    ∀ (chg : List AbsPath) (acc acc' : BuildAcc) (k : String),
      extractChanged collab root hashes mtimes chg acc = .ok acc' →
      acc'.entries.lookup k ≠ none →
      acc.entries.lookup k ≠ none ∨ ∃ p ∈ chg, toRelativePosixPath p root = k := by
  intro chg
  induction chg with
  | nil =>
    intro acc acc' k hok h
    injection hok with hok
    subst hok
    exact Or.inl h
  | cons q t ih =>
    intro acc acc' k hok h
    simp only [extractChanged] at hok
    rcases hx : collab.extractFileSymbols q with e | s
    · rw [hx] at hok
      cases hok
    · rw [hx] at hok
      rcases ih _ _ k hok h with h1 | ⟨p, hp, hp2⟩
      · by_cases hkq : k = toRelativePosixPath q root
        · exact Or.inr ⟨q, List.mem_cons_self _ _, hkq.symm⟩
        · rw [recordSet_lookup_other _ _ _ _ hkq] at h1
          exact Or.inl h1
      · exact Or.inr ⟨p, List.mem_cons_of_mem _ hp, hp2⟩

theorem tsPhase_keys (collab : Collaborators) (root : AbsPath)
    (cache : Option CacheManifest) (tsFiles : List AbsPath) (acc2 : BuildAcc) (k : String)
    (hok : tsPhase collab root cache tsFiles = .ok acc2)
    (h : acc2.entries.lookup k ≠ none) :
    ∃ p ∈ tsFiles, toRelativePosixPath p root = k := by
  unfold tsPhase at hok
  rcases cache with _ | c
  · dsimp only at hok
    rcases extract_keys collab root _ _ _ _ _ k hok h with h1 | ⟨p, hp, hp2⟩
    · simp at h1
    · exact ⟨p, computeDiff_changed_sub tsFiles root none collab.fsv p hp, hp2⟩
  · dsimp only at hok
    rcases extract_keys collab root _ _ _ _ _ k hok h with h1 | ⟨p, hp, hp2⟩
    · rcases carry_keys c root _ _ _ k h1 with h2 | ⟨p, hp, hp2⟩
      · simp at h2
      · exact ⟨p, computeDiff_unchanged_sub tsFiles root (some c) collab.fsv p hp, hp2⟩
    · exact ⟨p, computeDiff_changed_sub tsFiles root (some c) collab.fsv p hp, hp2⟩

theorem processFilesForPlugin_keys (ctx : PlugCtx) (pl : Plugin) :
    ∀ (files : List AbsPath) (st st' : PlugSt) (k : String),
      (processFilesForPlugin ctx pl files st).2 = .ok st' →
      st'.acc.entries.lookup k ≠ none →
      st.acc.entries.lookup k ≠ none ∨
        ∃ fp ∈ ctx.changed, k = (ctx.relPaths.lookup fp).getD "" := by
  intro files
  induction files with
  | nil =>
    intro st st' k hok h
    injection hok with hok
    subst hok
    exact Or.inl h
  | cons fp rest ih =>
    intro st st' k hok h
    simp only [processFilesForPlugin] at hok
    rcases hch : ctx.changed.contains fp with _ | _
    · rw [hch] at hok
      simp only [Bool.not_false, if_true] at hok
      exact ih st st' k hok h
    · rw [hch] at hok
      simp only [Bool.not_true, Bool.false_eq_true, if_false] at hok
      rcases hcad : (cadenceStep ctx st.idx).2 with _ | e
      · rw [hcad] at hok
        dsimp only at hok
        rcases hx : processPluginFile ctx.collab pl fp ((ctx.relPaths.lookup fp).getD "")
          with e | syms
        · rw [hx] at hok
          dsimp only at hok
          cases hok
        · rw [hx] at hok
          dsimp only at hok
          have hok2 : (processFilesForPlugin ctx pl rest
              ⟨st.idx + 1, ⟨st.acc.symbols ++ syms,
                recordSet st.acc.entries ((ctx.relPaths.lookup fp).getD "")
                  (match st.acc.entries.lookup ((ctx.relPaths.lookup fp).getD "") with
                    | some existing =>
                      ⟨(ctx.hashes.lookup fp).getD (ctx.collab.fsv.hashOf fp),
                        existing.symbols ++ syms,
                        some ((ctx.mtimes.lookup fp).getD (ctx.collab.fsv.mtimeOf fp))⟩
                    | none =>
                      ⟨(ctx.hashes.lookup fp).getD (ctx.collab.fsv.hashOf fp), syms,
                        some ((ctx.mtimes.lookup fp).getD (ctx.collab.fsv.mtimeOf fp))⟩)⟩⟩).2
              = .ok st' := hok
          rcases ih _ st' k hok2 h with h1 | ⟨q, hq, hq2⟩
          · by_cases hkq : k = (ctx.relPaths.lookup fp).getD ""
            · exact Or.inr ⟨fp, List.mem_of_elem_eq_true hch, hkq⟩
            · dsimp only at h1
              rw [recordSet_lookup_other _ _ _ _ hkq] at h1
              exact Or.inl h1
          · exact Or.inr ⟨q, hq, hq2⟩
      · rw [hcad] at hok
        dsimp only at hok
        cases hok

theorem processAllPluginFiles_keys (ctx : PlugCtx) :
    ∀ (work : List (Plugin × List AbsPath)) (st st' : PlugSt) (k : String),
      (processAllPluginFiles ctx work st).2 = .ok st' →
      st'.acc.entries.lookup k ≠ none →
      st.acc.entries.lookup k ≠ none ∨
        ∃ fp ∈ ctx.changed, k = (ctx.relPaths.lookup fp).getD "" := by
  intro work
  induction work with
  | nil =>
    intro st st' k hok h
    injection hok with hok
    subst hok
    exact Or.inl h
  | cons plf rest ih =>
    intro st st' k hok h
    obtain ⟨pl, files⟩ := plf
    simp only [processAllPluginFiles] at hok
    rcases hr : (processFilesForPlugin ctx pl files st).2 with e | st1
    · rw [hr] at hok
      cases hok
    · rw [hr] at hok
      dsimp only at hok
      rcases ih st1 st' k hok h with h1 | hr2
      · exact processFilesForPlugin_keys ctx pl files st st1 k hr h1
      · exact Or.inr hr2

theorem pluginPhase_keys (collab : Collaborators) (opts : BuildOptions)
    (cache : Option CacheManifest) (acc acc3 : BuildAcc) (k : String)
    (hok : (pluginPhase collab opts cache acc).2 = .ok acc3)
    (h : acc3.entries.lookup k ≠ none) :
    acc.entries.lookup k ≠ none ∨
      ∃ p ∈ allPluginFilesOf collab opts, toRelativePosixPath p opts.projectRoot = k := by
  unfold pluginPhase at hok
  rcases hne : opts.plugins.isEmpty with _ | _
  · rw [hne] at hok
    simp only [Bool.false_eq_true, if_false] at hok
    rcases herr : (initPluginsLoop opts.plugins).2.2 with _ | e
    · rw [herr] at hok
      dsimp only at hok
      rcases hpr : (processAllPluginFiles (pluginCtxOf collab opts cache)
          (opts.plugins.zip (findAllPluginFilesM opts.plugins collab.treeFiles))
          (pluginStartOf collab opts cache acc)).2 with e | st'
      · rw [hpr] at hok
        cases hok
      · rw [hpr] at hok
        injection hok with hok
        subst hok
        rcases processAllPluginFiles_keys (pluginCtxOf collab opts cache) _ _ st' k hpr h
          with h1 | ⟨fp, hfp, hfp2⟩
        · rcases cache with _ | c
          · exact Or.inl h1
          · rcases carry_keys c opts.projectRoot _ _ _ k h1 with h2 | ⟨p, hp, hp2⟩
            · exact Or.inl h2
            · exact Or.inr ⟨p, computeDiff_unchanged_sub (allPluginFilesOf collab opts)
                opts.projectRoot (some c) collab.fsv p hp, hp2⟩
        · have hfp' : fp ∈ (pluginDiffOf collab opts cache).changed := hfp
          have hrel : ((pluginCtxOf collab opts cache).relPaths.lookup fp).getD ""
              = toRelativePosixPath fp opts.projectRoot := by
            show (((pluginDiffOf collab opts cache).changed.map
              (fun p => (p, toRelativePosixPath p opts.projectRoot))).lookup fp).getD "" = _
            rw [lookup_map_self (fun p => toRelativePosixPath p opts.projectRoot) _ fp hfp']
            rfl
          rw [hrel] at hfp2
          exact Or.inr ⟨fp, computeDiff_changed_sub (allPluginFilesOf collab opts)
            opts.projectRoot cache collab.fsv fp hfp', hfp2.symm⟩
    · rw [herr] at hok
      dsimp only at hok
      cases hok
  · rw [hne] at hok
    simp only [if_true] at hok
    injection hok with hok
    subst hok
    exact Or.inl h

/-! ### Claim C7: deletion propagation -/

/-- Claim C7: a relative path absent from the current file set of a
build (its TS files and plugin-claimed files) never appears in the cache
manifest that the build writes, and a cache entry under such a path is
inert — the build run against the cache with that entry erased produces
the identical event trace and result, so no symbol of the stale entry
reaches the snapshot. -/
theorem C7_deletion_propagation (collab : Collaborators) (opts : BuildOptions)
    (c : CacheManifest) (now : Nat) (relPath : String)
    (hrel : ∀ p ∈ tsFilesOf opts ++ allPluginFilesOf collab opts,
      toRelativePosixPath p opts.projectRoot ≠ relPath) :
    (∀ tr idx m, generateDocIndex collab opts (.envelope c) now = (tr, .ok (idx, some m)) →
      m.files.lookup relPath = none) ∧
    generateDocIndex collab opts (.envelope (eraseCacheEntry c relPath)) now
      = generateDocIndex collab opts (.envelope c) now := by
  constructor
  · intro tr idx m hres
    unfold generateDocIndex at hres
    rcases hts : tsPhase collab opts.projectRoot (cacheOf collab opts (.envelope c))
        (tsFilesOf opts) with e | acc2
    · rw [hts] at hres
      injection hres with h1 h2
      cases h2
    · rw [hts] at hres
      dsimp only at hres
      rcases hpr : (pluginPhase collab opts (cacheOf collab opts (.envelope c)) acc2).2
        with e | acc3
      · rw [hpr] at hres
        injection hres with h1 h2
        cases h2
      · rw [hpr] at hres
        dsimp only at hres
        rcases hinc : opts.incremental with _ | _ <;> rw [hinc] at hres
        · simp only [Bool.false_eq_true, if_false] at hres
          injection hres with h1 h2
          injection h2 with h2
          injection h2 with h3 h4
          cases h4
        · simp only [if_true] at hres
          injection hres with h1 h2
          injection h2 with h2
          injection h2 with h3 h4
          injection h4 with h4
          rw [← h4]
          dsimp only
          by_contra hne
          rcases pluginPhase_keys collab opts (cacheOf collab opts (.envelope c)) acc2 acc3
              relPath hpr hne with hk | ⟨p, hp, hp2⟩
          · obtain ⟨p, hp, hp2⟩ := tsPhase_keys collab opts.projectRoot
              (cacheOf collab opts (.envelope c)) (tsFilesOf opts) acc2 relPath hts hk
            exact hrel p (List.mem_append.mpr (Or.inl hp)) hp2
          · exact hrel p (List.mem_append.mpr (Or.inr hp)) hp2
  · have hlkAll : ∀ p ∈ tsFilesOf opts ++ allPluginFilesOf collab opts,
        (eraseCacheEntry c relPath).files.lookup (toRelativePosixPath p opts.projectRoot)
          = c.files.lookup (toRelativePosixPath p opts.projectRoot) :=
      fun p hp => recordErase_lookup_ne c.files relPath _ (hrel p hp)
    have hload := loadResOf_erase collab opts c relPath
    rcases hl : loadResOf collab opts (.envelope c) with _ | r
    · have h1 : cacheOf collab opts (.envelope (eraseCacheEntry c relPath)) = none := by
        unfold cacheOf
        rw [hload, hl]
        rfl
      have h2 : cacheOf collab opts (.envelope c) = none := by
        unfold cacheOf
        rw [hl]
        rfl
      have h3 : loadResOf collab opts (.envelope (eraseCacheEntry c relPath)) = none := by
        rw [hload, hl]
        rfl
      unfold generateDocIndex
      simp only [h1, h2, h3, hl]
    · have h1 : cacheOf collab opts (.envelope (eraseCacheEntry c relPath))
          = some (eraseCacheEntry c relPath) := by
        unfold cacheOf
        rw [hload, hl]
        rfl
      have hrm : r.manifest = c := by
        unfold loadResOf at hl
        rcases hinc : opts.incremental with _ | _
        · rw [hinc] at hl
          simp only [Bool.false_eq_true, if_false] at hl
          cases hl
        · rw [hinc] at hl
          simp only [if_true] at hl
          exact loadCache_some_manifest c (some collab.tsConfigHash) (pluginNamesOf opts)
            INDEX_VERSION r hl
      have h2 : cacheOf collab opts (.envelope c) = some c := by
        unfold cacheOf
        rw [hl]
        show some r.manifest = some c
        rw [hrm]
      have hts := tsPhase_congr collab opts.projectRoot c (eraseCacheEntry c relPath)
        (tsFilesOf opts) (fun p hp => hlkAll p (List.mem_append.mpr (Or.inl hp)))
      have hpp := pluginPhase_congr collab opts c (eraseCacheEntry c relPath)
        (fun p hp => hlkAll p (List.mem_append.mpr (Or.inr hp)))
      have hmap : (loadResOf collab opts (.envelope (eraseCacheEntry c relPath))).map
            (fun r => r.tsConfigHash)
          = (loadResOf collab opts (.envelope c)).map (fun r => r.tsConfigHash) := by
        rw [hload, hl]
        rfl
      unfold generateDocIndex
      simp only [h1, h2, hts, hpp, hmap]

/-- Witness for C7: with a cache entry for `gone.ts` and current file
set `[r/a.ts]`, the written manifest has no `gone.ts` entry, and the
build with the `gone.ts` entry erased is identical. -/
theorem C7_witness :
    ([("a.ts", (⟨"h", [⟨"a.ts#y", "y", "a.ts"⟩], some 1⟩ : FileEntry))] :
        List (String × FileEntry)).lookup "gone.ts" = none ∧
    generateDocIndex
        ⟨⟨fun _ => 1, fun _ => "h"⟩, fun _ => "", fun _ => .ok [⟨"a.ts#y", "y", "a.ts"⟩],
          fun _ _ => .ok [], [], "cfg"⟩
        ⟨[["r", "a.ts"]], ["r"], [], true, 50⟩
        (.envelope (eraseCacheEntry
          ⟨"1", "1.0.0", "cfg", [],
            [("gone.ts", ⟨"h", [⟨"gone.ts#x", "x", "gone.ts"⟩], some 3⟩)]⟩ "gone.ts")) 9
      = generateDocIndex
        ⟨⟨fun _ => 1, fun _ => "h"⟩, fun _ => "", fun _ => .ok [⟨"a.ts#y", "y", "a.ts"⟩],
          fun _ _ => .ok [], [], "cfg"⟩
        ⟨[["r", "a.ts"]], ["r"], [], true, 50⟩
        (.envelope ⟨"1", "1.0.0", "cfg", [],
          [("gone.ts", ⟨"h", [⟨"gone.ts#x", "x", "gone.ts"⟩], some 3⟩)]⟩) 9 := by
  have h := C7_deletion_propagation
    ⟨⟨fun _ => 1, fun _ => "h"⟩, fun _ => "", fun _ => .ok [⟨"a.ts#y", "y", "a.ts"⟩],
      fun _ _ => .ok [], [], "cfg"⟩
    ⟨[["r", "a.ts"]], ["r"], [], true, 50⟩
    ⟨"1", "1.0.0", "cfg", [], [("gone.ts", ⟨"h", [⟨"gone.ts#x", "x", "gone.ts"⟩], some 3⟩)]⟩
    9 "gone.ts" (by decide)
  refine ⟨?_, h.2⟩
  exact h.1 [.writeIndex, .writeCache]
    ⟨"1.0.0", 9, ["r"], [⟨"a.ts#y", "y", "a.ts"⟩]⟩
    ⟨"1", "1.0.0", "cfg", [], [("a.ts", ⟨"h", [⟨"a.ts#y", "y", "a.ts"⟩], some 1⟩)]⟩
    (by rfl)

/-! ### Claim C10: POSIX-relative paths everywhere -/

theorem commonLen_self_append (root rest : List String) :
    commonLen root (root ++ rest) = root.length := by
  induction root with
  | nil => rfl
  | cons a as ih => simp [commonLen, ih]

theorem generateDocIndex_manifest_keys (collab : Collaborators) (opts : BuildOptions)
    (cacheFile : CacheFile) (now : Nat) (tr : List BuildEvent) (idx : DocIndex)
    (m : CacheManifest)
    (hres : generateDocIndex collab opts cacheFile now = (tr, .ok (idx, some m)))
    (k : String) (hk : m.files.lookup k ≠ none) :
    ∃ p ∈ tsFilesOf opts ++ allPluginFilesOf collab opts,
      toRelativePosixPath p opts.projectRoot = k := by
  unfold generateDocIndex at hres
  rcases hts : tsPhase collab opts.projectRoot (cacheOf collab opts cacheFile)
      (tsFilesOf opts) with e | acc2
  · rw [hts] at hres
    injection hres with h1 h2
    cases h2
  · rw [hts] at hres
    dsimp only at hres
    rcases hpr : (pluginPhase collab opts (cacheOf collab opts cacheFile) acc2).2
      with e | acc3
    · rw [hpr] at hres
      injection hres with h1 h2
      cases h2
    · rw [hpr] at hres
      dsimp only at hres
      rcases hinc : opts.incremental with _ | _ <;> rw [hinc] at hres
      · simp only [Bool.false_eq_true, if_false] at hres
        injection hres with h1 h2
        injection h2 with h2
        injection h2 with h3 h4
        cases h4
      · simp only [if_true] at hres
        injection hres with h1 h2
        injection h2 with h2
        injection h2 with h3 h4
        injection h4 with h4
        rw [← h4] at hk
        dsimp only at hk
        rcases pluginPhase_keys collab opts (cacheOf collab opts cacheFile) acc2 acc3
            k hpr hk with hkk | ⟨p, hp, hp2⟩
        · obtain ⟨p, hp, hp2⟩ := tsPhase_keys collab opts.projectRoot
            (cacheOf collab opts cacheFile) (tsFilesOf opts) acc2 k hts hkk
          exact ⟨p, List.mem_append.mpr (Or.inl hp), hp2⟩
        · exact ⟨p, List.mem_append.mpr (Or.inr hp), hp2⟩

/-- Claim C10: `toRelativePosixPath` of an absolute path under the
project root is the under-root segments joined by forward slashes (the
platform separator never survives); every key of a cache manifest
written by `generateDocIndex` is `toRelativePosixPath` of one of the
build's current files; and whenever the plugin-symbol rewrite fires (the
plugin supplied no `filePath` or an absolute one), the assigned
`filePath` is the project-relative path and the `id` is regenerated from
it. -/
theorem C10_posix_relative_paths :
    (∀ root rest : List String,
      toRelativePosixPath (root ++ rest) root = String.intercalate "/" rest) ∧
    (∀ (collab : Collaborators) (opts : BuildOptions) (cacheFile : CacheFile) (now : Nat)
        (tr : List BuildEvent) (idx : DocIndex) (m : CacheManifest),
      generateDocIndex collab opts cacheFile now = (tr, .ok (idx, some m)) →
      ∀ k, m.files.lookup k ≠ none →
        ∃ p ∈ tsFilesOf opts ++ allPluginFilesOf collab opts,
          toRelativePosixPath p opts.projectRoot = k) ∧
    (∀ (relativePath : String) (sym : SymbolDoc),
      sym.filePath = "" ∨ isAbsolutePosix sym.filePath = true →
      (rewritePluginSymbol relativePath sym).filePath = relativePath ∧
      (rewritePluginSymbol relativePath sym).id
        = relativePath ++ "#" ++ sym.name) := by
  refine ⟨?_, ?_, ?_⟩
  · intro root rest
    unfold toRelativePosixPath pathRelativeSegs
    rw [commonLen_self_append]
    dsimp only
    rw [Nat.sub_self, List.replicate_zero, List.nil_append, List.drop_left]
  · intro collab opts cacheFile now tr idx m hres k hk
    exact generateDocIndex_manifest_keys collab opts cacheFile now tr idx m hres k hk
  · intro relativePath sym hchanged
    have hb : (sym.filePath == "" || isAbsolutePosix sym.filePath) = true := by
      rcases hchanged with h | h
      · rw [h]
        simp
      · rw [h]
        simp
    unfold rewritePluginSymbol
    rw [hb]
    simp

/-- Witness for C10 at concrete inputs: a path under the root maps to
its forward-slash relative form; the `gone.ts`-free manifest key set of
a concrete build is reachable from its current files; a plugin symbol
with an absolute filePath is rewritten to the relative path and
rekeyed. -/
theorem C10_witness :
    toRelativePosixPath (["r"] ++ ["src", "a.ts"]) ["r"]
      = String.intercalate "/" ["src", "a.ts"] ∧
    (∃ p ∈ tsFilesOf (⟨[["r", "a.ts"]], ["r"], [], true, 50⟩ : BuildOptions)
        ++ allPluginFilesOf
          ⟨⟨fun _ => 1, fun _ => "h"⟩, fun _ => "", fun _ => .ok [⟨"a.ts#y", "y", "a.ts"⟩],
            fun _ _ => .ok [], [], "cfg"⟩
          (⟨[["r", "a.ts"]], ["r"], [], true, 50⟩ : BuildOptions),
      toRelativePosixPath p ["r"] = "a.ts") ∧
    (rewritePluginSymbol "src/f.vue" ⟨"", "x", "/abs/f.vue"⟩).filePath = "src/f.vue" ∧
    (rewritePluginSymbol "src/f.vue" ⟨"", "x", "/abs/f.vue"⟩).id = "src/f.vue#x" := by
  obtain ⟨h1, h2, h3⟩ := C10_posix_relative_paths
  refine ⟨h1 ["r"] ["src", "a.ts"], ?_, ?_, ?_⟩
  · exact h2
      ⟨⟨fun _ => 1, fun _ => "h"⟩, fun _ => "", fun _ => .ok [⟨"a.ts#y", "y", "a.ts"⟩],
        fun _ _ => .ok [], [], "cfg"⟩
      ⟨[["r", "a.ts"]], ["r"], [], true, 50⟩ .missing 9
      [.writeIndex, .writeCache]
      ⟨"1.0.0", 9, ["r"], [⟨"a.ts#y", "y", "a.ts"⟩]⟩
      ⟨"1", "1.0.0", "cfg", [], [("a.ts", ⟨"h", [⟨"a.ts#y", "y", "a.ts"⟩], some 1⟩)]⟩
      (by rfl) "a.ts" (by decide)
  · exact (h3 "src/f.vue" ⟨"", "x", "/abs/f.vue"⟩ (Or.inr (by decide))).1
  · exact (h3 "src/f.vue" ⟨"", "x", "/abs/f.vue"⟩ (Or.inr (by decide))).2

/-! ### Claim C4: idempotence of successive builds -/

/-- Claim C4 (counterexample): over a project with a single `.vue` file
claimed by two registered plugins, the first incremental build returns
two symbols and writes a manifest; the second build over that manifest
with no filesystem change carries the file's cached symbols forward once
per claiming plugin, so its snapshot holds each symbol twice and is not
byte-identical to the first snapshot with only `generatedAt` updated. -/
theorem C4_counterexample :
    (generateDocIndex collabVue optsVue .missing 10).2
        = .ok (⟨"1.0.0", 10, ["r"], vueSyms1⟩, some mVue) ∧
    (generateDocIndex collabVue optsVue (.envelope mVue) 20).2
        = .ok (⟨"1.0.0", 20, ["r"], vueSyms2⟩, some mVue) ∧
    (⟨"1.0.0", 20, ["r"], vueSyms2⟩ : DocIndex) ≠ ⟨"1.0.0", 20, ["r"], vueSyms1⟩ :=
  ⟨rfl, rfl, by decide⟩

/-- Unfolding of `charsLt` on two non-empty lists. -/
theorem charsLt_cons_iff (c d : Char) (cs ds : List Char) :
    charsLt (c :: cs) (d :: ds) = true ↔
      (c.toNat < d.toNat ∨ (c.toNat = d.toNat ∧ charsLt cs ds = true)) := by
  simp only [charsLt]
  split_ifs with h1 h2
  · exact iff_of_true rfl (Or.inl h1)
  · refine iff_of_false (by simp) ?_
    rintro (h | ⟨he, -⟩)
    · exact h1 h
    · omega
  · constructor
    · intro h
      exact Or.inr ⟨by omega, h⟩
    · rintro (h | ⟨-, h⟩)
      · exact absurd h h1
      · exact h

/-- `charsLt` is asymmetric. -/
theorem charsLt_asymm : ∀ a b : List Char, charsLt a b = true → charsLt b a = false := by
  intro a
  induction a with
  | nil =>
    intro b h
    cases b with
    | nil => cases h
    | cons d ds => rfl
  | cons c cs ih =>
    intro b h
    cases b with
    | nil => cases h
    | cons d ds =>
      rcases hcon : charsLt (d :: ds) (c :: cs) with _ | _
      · rfl
      · exfalso
        rcases (charsLt_cons_iff c d cs ds).mp h with h1 | ⟨he1, ht1⟩ <;>
          rcases (charsLt_cons_iff d c ds cs).mp hcon with h2 | ⟨he2, ht2⟩
        · omega
        · omega
        · omega
        · have := ih ds ht1
          rw [ht2] at this
          cases this

/-- `charsLt` is transitive. -/
theorem charsLt_trans : ∀ a b c : List Char,
    charsLt a b = true → charsLt b c = true → charsLt a c = true := by
  intro a
  induction a with
  | nil =>
    intro b c h1 h2
    cases b with
    | nil => cases h1
    | cons x xs =>
      cases c with
      | nil => cases h2
      | cons z zs => rfl
  | cons y ys ih =>
    intro b c h1 h2
    cases b with
    | nil => cases h1
    | cons x xs =>
      cases c with
      | nil => cases h2
      | cons z zs =>
        rcases (charsLt_cons_iff y x ys xs).mp h1 with ha | ⟨hea, hta⟩ <;>
          rcases (charsLt_cons_iff x z xs zs).mp h2 with hb | ⟨heb, htb⟩
        · exact (charsLt_cons_iff y z ys zs).mpr (Or.inl (by omega))
        · exact (charsLt_cons_iff y z ys zs).mpr (Or.inl (by omega))
        · exact (charsLt_cons_iff y z ys zs).mpr (Or.inl (by omega))
        · exact (charsLt_cons_iff y z ys zs).mpr
            (Or.inr ⟨by omega, ih xs zs hta htb⟩)

/-- Two lists that `charsLt` orders neither way are equal. -/
theorem charsLt_connex : ∀ a b : List Char,
    charsLt a b = false → charsLt b a = false → a = b := by
  intro a
  induction a with
  | nil =>
    intro b h1 _
    cases b with
    | nil => rfl
    | cons d ds => cases h1
  | cons c cs ih =>
    intro b h1 h2
    cases b with
    | nil => cases h2
    | cons d ds =>
      have n1 : ¬ (c.toNat < d.toNat ∨ (c.toNat = d.toNat ∧ charsLt cs ds = true)) := by
        intro hx
        rw [(charsLt_cons_iff c d cs ds).mpr hx] at h1
        cases h1
      have n2 : ¬ (d.toNat < c.toNat ∨ (d.toNat = c.toNat ∧ charsLt ds cs = true)) := by
        intro hx
        rw [(charsLt_cons_iff d c ds cs).mpr hx] at h2
        cases h2
      have hlt1 : ¬ c.toNat < d.toNat := fun hx => n1 (Or.inl hx)
      have hlt2 : ¬ d.toNat < c.toNat := fun hx => n2 (Or.inl hx)
      have he : c.toNat = d.toNat := by omega
      have hc : c = d := Char.ext (UInt32.ext (by simpa using he))
      have hcs : charsLt cs ds = false := by
        rcases hx : charsLt cs ds with _ | _
        · rfl
        · exact absurd (Or.inr ⟨he, hx⟩) n1
      have hds : charsLt ds cs = false := by
        rcases hx : charsLt ds cs with _ | _
        · rfl
        · exact absurd (Or.inr ⟨he.symm, hx⟩) n2
      rw [hc, ih ds hcs hds]

/-- `strLt` is asymmetric. -/
theorem strLt_asymm (a b : String) (h : strLt a b = true) : strLt b a = false :=
  charsLt_asymm a.data b.data h

/-- `strLt` is transitive. -/
theorem strLt_trans (a b c : String) (h1 : strLt a b = true) (h2 : strLt b c = true) :
    strLt a c = true :=
  charsLt_trans a.data b.data c.data h1 h2

/-- Two strings that `strLt` orders neither way are equal. -/
theorem strLt_connex (a b : String) (h1 : strLt a b = false) (h2 : strLt b a = false) :
    a = b := by
  have h := charsLt_connex a.data b.data h1 h2
  cases a
  cases b
  exact congrArg String.mk h

/-- `insertStable` permutes the new element onto its input. -/
theorem insertStable_perm (lt : α → α → Bool) (a : α) :
    ∀ l : List α, (insertStable lt a l).Perm (a :: l) := by
  intro l
  induction l with
  | nil => exact List.Perm.refl _
  | cons b bs ih =>
    simp only [insertStable]
    split_ifs with hab
    · exact List.Perm.refl _
    · exact (ih.cons b).trans (List.Perm.swap a b bs)

/-- `stableSort` permutes its input. -/
theorem stableSort_perm (lt : α → α → Bool) (l : List α) : (stableSort lt l).Perm l := by
  suffices h : ∀ (l acc : List α),
      (List.foldl (fun acc a => insertStable lt a acc) acc l).Perm (acc ++ l) by
    simpa using h l []
  intro l
  induction l with
  | nil => intro acc; simp
  | cons a as ih =>
    intro acc
    simp only [List.foldl_cons]
    exact ((ih (insertStable lt a acc)).trans
      ((insertStable_perm lt a acc).append_right as)).trans List.perm_middle.symm

/-- Inserting into a list sorted by `fun x y => lt y x = false` keeps it
sorted, for an asymmetric transitive `lt`. -/
theorem insertStable_pairwise (lt : α → α → Bool)
    (hasymm : ∀ a b, lt a b = true → lt b a = false)
    (htrans : ∀ a b c, lt a b = true → lt b c = true → lt a c = true) (a : α) :
    ∀ l : List α, l.Pairwise (fun x y => lt y x = false) →
      (insertStable lt a l).Pairwise (fun x y => lt y x = false) := by
  intro l
  induction l with
  | nil => intro _; simp [insertStable]
  | cons b bs ih =>
    intro h
    rcases List.pairwise_cons.mp h with ⟨hb, hbs⟩
    simp only [insertStable]
    split_ifs with hab
    · refine List.pairwise_cons.mpr ⟨?_, h⟩
      intro y hy
      rcases List.mem_cons.mp hy with rfl | hy'
      · exact hasymm a y hab
      · rcases hya : lt y a with _ | _
        · rfl
        · exfalso
          have hyb := htrans y a b hya hab
          rw [hb y hy'] at hyb
          cases hyb
    · refine List.pairwise_cons.mpr ⟨?_, ih hbs⟩
      intro y hy
      have hy2 : y ∈ a :: bs := (insertStable_perm lt a bs).mem_iff.mp hy
      rcases List.mem_cons.mp hy2 with rfl | hy'
      · rcases h' : lt y b with _ | _
        · rfl
        · exact absurd h' hab
      · exact hb y hy'

/-- The result of `stableSort` is sorted, for an asymmetric transitive
`lt`. -/
theorem stableSort_pairwise (lt : α → α → Bool)
    (hasymm : ∀ a b, lt a b = true → lt b a = false)
    (htrans : ∀ a b c, lt a b = true → lt b c = true → lt a c = true) (l : List α) :
    (stableSort lt l).Pairwise (fun x y => lt y x = false) := by
  suffices h : ∀ (l acc : List α), acc.Pairwise (fun x y => lt y x = false) →
      (List.foldl (fun acc a => insertStable lt a acc) acc l).Pairwise
        (fun x y => lt y x = false) from h l [] List.Pairwise.nil
  intro l
  induction l with
  | nil => intro acc h; simpa using h
  | cons a as ih =>
    intro acc h
    exact ih _ (insertStable_pairwise lt hasymm htrans a acc h)

/-- Inserting an element not below any list element appends it. -/
theorem insertStable_of_ge (lt : α → α → Bool) (a : α) :
    ∀ l : List α, (∀ b ∈ l, lt a b = false) → insertStable lt a l = l ++ [a] := by
  intro l
  induction l with
  | nil => intro _; rfl
  | cons b bs ih =>
    intro h
    have hb : lt a b = false := h b (List.mem_cons_self _ _)
    simp only [insertStable]
    rw [if_neg (by simp [hb]), ih (fun x hx => h x (List.mem_cons_of_mem _ hx))]
    rfl

/-- Folding inserts of an already sorted tail onto a compatible sorted
accumulator appends it unchanged. -/
theorem foldl_insert_of_sorted (lt : α → α → Bool) :
    ∀ (l acc : List α), (∀ x ∈ l, ∀ y ∈ acc, lt x y = false) →
      l.Pairwise (fun x y => lt y x = false) →
      List.foldl (fun acc a => insertStable lt a acc) acc l = acc ++ l := by
  intro l
  induction l with
  | nil => intro acc _ _; simp
  | cons a as ih =>
    intro acc hcross hp
    rcases List.pairwise_cons.mp hp with ⟨ha, has⟩
    have h1 : insertStable lt a acc = acc ++ [a] :=
      insertStable_of_ge lt a acc (fun y hy => hcross a (List.mem_cons_self _ _) y hy)
    have h2 : List.foldl (fun acc a => insertStable lt a acc) (acc ++ [a]) as
        = (acc ++ [a]) ++ as := by
      refine ih (acc ++ [a]) ?_ has
      intro x hx y hy
      rcases List.mem_append.mp hy with hy1 | hy2
      · exact hcross x (List.mem_cons_of_mem _ hx) y hy1
      · have hya := List.mem_singleton.mp hy2
        subst hya
        exact ha x hx
    simp only [List.foldl_cons, h1, h2, List.append_assoc, List.singleton_append]

/-- `stableSort` is the identity on a sorted list. -/
theorem stableSort_of_pairwise (lt : α → α → Bool) (l : List α)
    (h : l.Pairwise (fun x y => lt y x = false)) : stableSort lt l = l := by
  have hfold := foldl_insert_of_sorted lt l [] (by intro x _ y hy; cases hy) h
  simpa [stableSort] using hfold

/-- `sortStrings` produces a sorted list. -/
theorem sortStrings_sorted (l : List String) :
    (sortStrings l).Pairwise (fun x y => strLt y x = false) :=
  stableSort_pairwise strLt strLt_asymm strLt_trans l

/-- Sorting an already sorted string list is the identity. -/
theorem sortStrings_idem (l : List String) :
    sortStrings (sortStrings l) = sortStrings l :=
  stableSort_of_pairwise strLt (sortStrings l) (sortStrings_sorted l)

/-- Two key-sorted lists that are permutations of each other and whose
keys are duplicate-free are equal. -/
theorem sorted_perm_eq {α : Type _} (key : α → String) (l₁ l₂ : List α)
    (hp : l₁.Perm l₂)
    (hs₁ : l₁.Pairwise (fun x y => strLt (key y) (key x) = false))
    (hs₂ : l₂.Pairwise (fun x y => strLt (key y) (key x) = false))
    (hnd : (l₁.map key).Nodup) : l₁ = l₂ := by
  have hnd₂ : (l₂.map key).Nodup := ((hp.map key).nodup_iff).mp hnd
  have hstrict : ∀ (l : List α), l.Pairwise (fun x y => strLt (key y) (key x) = false) →
      (l.map key).Nodup → l.Pairwise (fun x y => strLt (key x) (key y) = true) := by
    intro l hs hn
    have hne : l.Pairwise (fun x y => ¬ key x = key y) := List.pairwise_map.mp hn
    refine (hs.and hne).imp ?_
    intro x y hxy
    rcases hv : strLt (key x) (key y) with _ | _
    · exact absurd (strLt_connex _ _ hv hxy.1) hxy.2
    · rfl
  haveI : IsAntisymm α (fun x y => strLt (key x) (key y) = true) :=
    ⟨fun a b h1 h2 => by rw [strLt_asymm _ _ h1] at h2; cases h2⟩
  exact List.eq_of_perm_of_sorted hp (hstrict l₁ hs₁ hnd) (hstrict l₂ hs₂ hnd₂)

/-- The two outputs of the split pass partition the input (up to
reordering). -/
theorem split_parts_perm (c : CacheManifest) (root : AbsPath) :
    ∀ l : List AbsPath,
      ((splitNewAndCheck c root l).1
        ++ (splitNewAndCheck c root l).2.map Prod.fst).Perm l := by
  intro l
  induction l with
  | nil => simp [splitNewAndCheck]
  | cons p ps ih =>
    simp only [splitNewAndCheck]
    rcases hp : c.files.lookup (toRelativePosixPath p root) with _ | e
    · dsimp only
      exact ih.cons p
    · dsimp only
      simp only [List.map_cons]
      exact List.perm_middle.trans (ih.cons p)

/-- The changed/unchanged outputs of the check pass partition the
checked files (up to reordering). -/
theorem processChecks_parts_perm (fsv : FsView) :
    ∀ l : List (AbsPath × FileEntry),
      ((processChecks fsv l).changed ++ (processChecks fsv l).unchanged).Perm
        (l.map Prod.fst) := by
  intro l
  induction l with
  | nil => simp [processChecks]
  | cons pe rest ih =>
    obtain ⟨p, e⟩ := pe
    rcases hm : (checkFile fsv p e).isMatch with _ | _
    · simp only [processChecks, hm, Bool.false_eq_true, if_false, List.cons_append,
        List.nil_append, List.map_cons]
      exact ih.cons p
    · simp only [processChecks, hm, if_true, List.nil_append, List.map_cons]
      exact List.perm_middle.trans (ih.cons p)

/-- `computeDiff`'s changed and unchanged lists partition the current
file list (up to reordering). -/
theorem computeDiff_parts_perm (l : List AbsPath) (root : AbsPath)
    (cache : Option CacheManifest) (fsv : FsView) :
    ((computeDiff l root cache fsv).changed
      ++ (computeDiff l root cache fsv).unchanged).Perm l := by
  cases cache with
  | none => simp [computeDiff]
  | some c =>
    simp only [computeDiff]
    rw [List.append_assoc]
    exact (List.Perm.append_left (splitNewAndCheck c root l).1
      (processChecks_parts_perm fsv _)).trans (split_parts_perm c root l)

/-- Every mtime recorded by `computeDiff` is the live stat mtime. -/
theorem computeDiff_mtimes_sound (l : List AbsPath) (root : AbsPath)
    (cache : Option CacheManifest) (fsv : FsView) {p : AbsPath} {v : Nat}
    (h : (p, v) ∈ (computeDiff l root cache fsv).mtimes) : v = fsv.mtimeOf p := by
  cases cache with
  | none => cases h
  | some c => exact processChecks_mtimes_sound fsv h

/-- When every current file has a cache entry, the split pass sends all
of them to the check list, pairing each with its entry, in order. -/
theorem splitNewAndCheck_all_found (c : CacheManifest) (root : AbsPath) :
    ∀ l : List AbsPath,
      (∀ p ∈ l, (c.files.lookup (toRelativePosixPath p root)).isSome) →
      splitNewAndCheck c root l
        = ([], l.map (fun p => (p, cachedEntryD c.files (toRelativePosixPath p root)))) := by
  intro l
  induction l with
  | nil => intro _; rfl
  | cons p ps ih =>
    intro h
    have hp := h p (List.mem_cons_self _ _)
    rcases hlk : c.files.lookup (toRelativePosixPath p root) with _ | e
    · rw [hlk] at hp
      cases hp
    · have he : cachedEntryD c.files (toRelativePosixPath p root) = e := by
        simp [cachedEntryD, hlk]
      simp only [splitNewAndCheck, hlk, ih (fun q hq => h q (List.mem_cons_of_mem _ hq)),
        List.map_cons, he]

/-- When every checked entry stores the live mtime, the check pass
classifies everything unchanged on the fast path, hashing nothing. -/
theorem processChecks_all_fast (fsv : FsView) :
    ∀ l : List (AbsPath × FileEntry),
      (∀ pe ∈ l, pe.2.mtimeMs = some (fsv.mtimeOf pe.1)) →
      processChecks fsv l
        = ⟨[], l.map Prod.fst, [], l.map (fun pe => (pe.1, fsv.mtimeOf pe.1))⟩ := by
  intro l
  induction l with
  | nil => intro _; rfl
  | cons pe rest ih =>
    intro h
    obtain ⟨p, e⟩ := pe
    have hc : checkFile fsv p e = ⟨true, none, fsv.mtimeOf p⟩ :=
      checkFile_fast fsv p e (h (p, e) (List.mem_cons_self _ _))
    simp only [processChecks, hc, ih (fun q hq => h q (List.mem_cons_of_mem _ hq)),
      List.map_cons, if_true, List.nil_append, List.cons_append]

/-- When every current file's cache entry stores its live mtime,
`computeDiff` reports no changes: everything is unchanged in input
order, no hash is computed, and the live mtimes are recorded. -/
theorem computeDiff_all_fast (l : List AbsPath) (root : AbsPath) (c : CacheManifest)
    (fsv : FsView)
    (h : ∀ p ∈ l, ∃ en, c.files.lookup (toRelativePosixPath p root) = some en ∧
      en.mtimeMs = some (fsv.mtimeOf p)) :
    (computeDiff l root (some c) fsv).changed = [] ∧
    (computeDiff l root (some c) fsv).unchanged = l ∧
    (computeDiff l root (some c) fsv).hashes = [] ∧
    (computeDiff l root (some c) fsv).mtimes = l.map (fun p => (p, fsv.mtimeOf p)) := by
  have hsplit := splitNewAndCheck_all_found c root l (fun p hp => by
    obtain ⟨en, hen, -⟩ := h p hp
    rw [hen]
    rfl)
  have hproc := processChecks_all_fast fsv
    (l.map (fun p => (p, cachedEntryD c.files (toRelativePosixPath p root))))
    (fun pe hpe => by
      obtain ⟨p, hp, hpe2⟩ := List.mem_map.mp hpe
      obtain ⟨en, hen, hmt⟩ := h p hp
      rw [← hpe2]
      simpa [cachedEntryD, hen] using hmt)
  refine ⟨?_, ?_, ?_, ?_⟩ <;>
    simp [computeDiff, hsplit, hproc, List.map_map, Function.comp_def]

/-- A file classified unchanged against a cache has a cache entry. -/
theorem computeDiff_unchanged_found (l : List AbsPath) (root : AbsPath) (c : CacheManifest)
    (fsv : FsView) {p : AbsPath} (hp : p ∈ (computeDiff l root (some c) fsv).unchanged) :
    ∃ e, c.files.lookup (toRelativePosixPath p root) = some e := by
  obtain ⟨e, he, -⟩ := (processChecks_unchanged_iff fsv).mp hp
  exact ⟨e, (split_check_sound c root he).2⟩

/-- A key absent from an association list's key list looks up to
`none`. -/
theorem lookup_eq_none_of_keys {l : List (String × FileEntry)} {k : String}
    (h : k ∉ l.map Prod.fst) : l.lookup k = none := by
  rw [List.lookup_eq_none_iff]
  intro pr hpr
  have hmem : pr.1 ∈ l.map Prod.fst := List.mem_map.mpr ⟨pr, hpr, rfl⟩
  exact bne_iff_ne.mpr (fun he => h (he ▸ hmem))

/-- A lookup that succeeds on the left half succeeds on the append. -/
theorem lookup_append_some {l₁ l₂ : List (String × FileEntry)} {k : String} {v : FileEntry}
    (h : l₁.lookup k = some v) : (l₁ ++ l₂).lookup k = some v := by
  rw [List.lookup_append, h]
  rfl

/-- A lookup that fails on the left half falls through to the right. -/
theorem lookup_append_none {l₁ l₂ : List (String × FileEntry)} {k : String}
    (h : l₁.lookup k = none) : (l₁ ++ l₂).lookup k = l₂.lookup k := by
  rw [List.lookup_append, h]
  rfl

/-- Setting a fresh key appends the binding. -/
theorem recordSet_append_of_none (l : List (String × FileEntry)) (k : String) (v : FileEntry)
    (h : l.lookup k = none) : recordSet l k v = l ++ [(k, v)] := by
  unfold recordSet
  rw [h]
  rfl

/-- The mtime refresh never touches the stored symbols. -/
theorem carryRefresh_symbols (mtimes : List (AbsPath × Nat)) (p : AbsPath) (e : FileEntry) :
    (carryRefresh mtimes p e).symbols = e.symbols := by
  unfold carryRefresh
  rcases mtimes.lookup p with _ | v
  · rfl
  · dsimp only
    split_ifs <;> rfl

/-- After a refresh against a recorded mtime, the entry stores exactly
that mtime. -/
theorem carryRefresh_mtime (mtimes : List (AbsPath × Nat)) (p : AbsPath) (e : FileEntry)
    {v : Nat} (h : mtimes.lookup p = some v) : (carryRefresh mtimes p e).mtimeMs = some v := by
  unfold carryRefresh
  rw [h]
  dsimp only
  split_ifs with hne
  · rfl
  · exact not_ne_iff.mp hne

/-- Looking up a mapped key in a graph built over a duplicate-free key
list returns that key's value. -/
theorem lookup_map_key (f : AbsPath → String) (g : AbsPath → FileEntry) :
    ∀ (l : List AbsPath) (q : AbsPath), q ∈ l → (l.map f).Nodup →
      (l.map (fun p => (f p, g p))).lookup (f q) = some (g q) := by
  intro l
  induction l with
  | nil => intro q h _; cases h
  | cons a t ih =>
    intro q hq hnd
    rw [List.map_cons, List.nodup_cons] at hnd
    obtain ⟨ha, ht⟩ := hnd
    simp only [List.map_cons, List.lookup_cons]
    rcases List.mem_cons.mp hq with rfl | hq'
    · simp
    · have hne : f q ≠ f a := fun he => ha (he ▸ List.mem_map.mpr ⟨q, hq', rfl⟩)
      have hb : (f q == f a) = false := beq_eq_false_iff_ne.mpr hne
      simp only [hb]
      exact ih q hq' ht

/-- Extending a coherent accumulator with one fresh file entry whose
stored mtime is the live one keeps it coherent. -/
theorem AccCoherent.push (fsv : FsView) (root : AbsPath) {L : List AbsPath} {acc : BuildAcc}
    (h : AccCoherent fsv root L acc) (p : AbsPath) (en : FileEntry)
    (hmt : en.mtimeMs = some (fsv.mtimeOf p))
    (hfresh : toRelativePosixPath p root ∉ L.map (fun q => toRelativePosixPath q root)) :
    AccCoherent fsv root (L ++ [p])
      ⟨acc.symbols ++ en.symbols,
        acc.entries ++ [(toRelativePosixPath p root, en)]⟩ := by
  unfold AccCoherent at h ⊢
  obtain ⟨hk, hs, hm⟩ := h
  have hnone : acc.entries.lookup (toRelativePosixPath p root) = none :=
    lookup_eq_none_of_keys (by rw [hk]; exact hfresh)
  have hnew : (acc.entries ++ [(toRelativePosixPath p root, en)]).lookup
      (toRelativePosixPath p root) = some en := by
    rw [lookup_append_none hnone]
    simp [List.lookup_cons]
  have hold : ∀ q ∈ L, (acc.entries ++ [(toRelativePosixPath p root, en)]).lookup
      (toRelativePosixPath q root) = acc.entries.lookup (toRelativePosixPath q root) := by
    intro q hq
    obtain ⟨en', hen', -⟩ := hm q hq
    rw [lookup_append_some hen', hen']
  refine ⟨?_, ?_, ?_⟩
  · simp only [List.map_append, List.map_cons, List.map_nil, hk]
  · have h1 : L.flatMap (fun q =>
        (cachedEntryD (acc.entries ++ [(toRelativePosixPath p root, en)])
          (toRelativePosixPath q root)).symbols) = acc.symbols := by
      refine (List.flatMap_congr ?_).trans hs.symm
      intro q hq
      simp [cachedEntryD, hold q hq]
    have h2 : List.flatMap [p] (fun q =>
        (cachedEntryD (acc.entries ++ [(toRelativePosixPath p root, en)])
          (toRelativePosixPath q root)).symbols) = en.symbols := by
      simp [cachedEntryD, hnew]
    dsimp only
    rw [List.flatMap_append, h1, h2]
  · intro q hq
    rcases List.mem_append.mp hq with hqL | hqp
    · obtain ⟨en', hen', hen2⟩ := hm q hqL
      exact ⟨en', by dsimp only; rw [hold q hqL]; exact hen', hen2⟩
    · have hqp2 := List.mem_singleton.mp hqp
      subst hqp2
      exact ⟨en, hnew, hmt⟩

/-- In a duplicate-free key list, the head key of the tail block is
absent from the front block. -/
theorem nodup_head_fresh (f : AbsPath → String) (A B : List AbsPath) (p : AbsPath)
    (h : ((A ++ p :: B).map f).Nodup) : f p ∉ A.map f := by
  rw [List.map_append, List.map_cons, List.nodup_append] at h
  intro hmem
  exact h.2.2 hmem (List.mem_cons_self _ _)

/-- Carrying unchanged files forward preserves coherence, recording each
file after the files already incorporated. -/
theorem carryUnchanged_coherent (cache : CacheManifest) (root : AbsPath)
    (mtimes : List (AbsPath × Nat)) (fsv : FsView) :
    ∀ (ul L : List AbsPath) (acc : BuildAcc),
      AccCoherent fsv root L acc →
      (∀ p ∈ ul, (cache.files.lookup (toRelativePosixPath p root)).isSome) →
      (∀ p ∈ ul, mtimes.lookup p = some (fsv.mtimeOf p)) →
      ((L ++ ul).map (fun p => toRelativePosixPath p root)).Nodup →
      AccCoherent fsv root (L ++ ul) (carryUnchanged cache root mtimes ul acc) := by
  intro ul
  induction ul with
  | nil =>
    intro L acc hco _ _ _
    simpa using hco
  | cons p ps ih =>
    intro L acc hco hlk hmt hnd
    have hp := hlk p (List.mem_cons_self _ _)
    rcases he : cache.files.lookup (toRelativePosixPath p root) with _ | e
    · rw [he] at hp
      cases hp
    · have hfresh : toRelativePosixPath p root
          ∉ L.map (fun q => toRelativePosixPath q root) :=
        nodup_head_fresh _ L ps p hnd
      have hnone : acc.entries.lookup (toRelativePosixPath p root) = none := by
        apply lookup_eq_none_of_keys
        rw [hco.1]
        exact hfresh
      have hset := recordSet_append_of_none acc.entries (toRelativePosixPath p root)
        (carryRefresh mtimes p e) hnone
      have hpush := AccCoherent.push fsv root hco p (carryRefresh mtimes p e)
        (carryRefresh_mtime mtimes p e (hmt p (List.mem_cons_self _ _))) hfresh
      rw [carryRefresh_symbols] at hpush
      simp only [carryUnchanged, he, hset]
      have hres := ih (L ++ [p]) _ hpush
        (fun q hq => hlk q (List.mem_cons_of_mem _ hq))
        (fun q hq => hmt q (List.mem_cons_of_mem _ hq))
        (by rw [List.append_assoc, List.singleton_append]; exact hnd)
      rw [List.append_assoc, List.singleton_append] at hres
      exact hres

/-- Successful re-extraction of changed files preserves coherence,
recording each file after the files already incorporated. -/
theorem extractChanged_coherent (collab : Collaborators) (root : AbsPath)
    (hashes : List (AbsPath × String)) (mtimes : List (AbsPath × Nat))
    (hmt : ∀ (p : AbsPath) (v : Nat), (p, v) ∈ mtimes → v = collab.fsv.mtimeOf p) :
    ∀ (chg L : List AbsPath) (acc acc' : BuildAcc),
      extractChanged collab root hashes mtimes chg acc = .ok acc' →
      AccCoherent collab.fsv root L acc →
      ((L ++ chg).map (fun p => toRelativePosixPath p root)).Nodup →
      AccCoherent collab.fsv root (L ++ chg) acc' := by
  intro chg
  induction chg with
  | nil =>
    intro L acc acc' hok hco _
    injection hok with hok
    subst hok
    simpa using hco
  | cons p ps ih =>
    intro L acc acc' hok hco hnd
    simp only [extractChanged] at hok
    rcases hx : collab.extractFileSymbols p with e | symbols
    · rw [hx] at hok
      cases hok
    · rw [hx] at hok
      dsimp only at hok
      have hfresh := nodup_head_fresh (fun q => toRelativePosixPath q root) L ps p hnd
      have hnone : acc.entries.lookup (toRelativePosixPath p root) = none := by
        apply lookup_eq_none_of_keys
        rw [hco.1]
        exact hfresh
      have hmteq : (mtimes.lookup p).getD (collab.fsv.mtimeOf p)
          = collab.fsv.mtimeOf p := by
        rcases hl : mtimes.lookup p with _ | v
        · rfl
        · simpa using hmt p v (lookup_mem hl)
      have hpush := AccCoherent.push collab.fsv root hco p
        ⟨(hashes.lookup p).getD (collab.fsv.hashOf p), symbols,
          some ((mtimes.lookup p).getD (collab.fsv.mtimeOf p))⟩
        (by simp [hmteq]) hfresh
      dsimp only at hpush
      rw [recordSet_append_of_none _ _ _ hnone] at hok
      have hres := ih (L ++ [p]) _ acc' hok hpush
        (by rw [List.append_assoc, List.singleton_append]; exact hnd)
      rw [List.append_assoc, List.singleton_append] at hres
      exact hres

/-- Processing one plugin's bucket preserves coherence, incorporating
exactly the changed files of the bucket in order. -/
theorem processFilesForPlugin_coherent (ctx : PlugCtx) (pl : Plugin)
    (hmt : ∀ (p : AbsPath) (v : Nat), (p, v) ∈ ctx.mtimes → v = ctx.collab.fsv.mtimeOf p)
    (hrel : ∀ fp ∈ ctx.changed, ctx.relPaths.lookup fp
      = some (toRelativePosixPath fp ctx.projectRoot)) :
    ∀ (files L : List AbsPath) (st st' : PlugSt),
      (processFilesForPlugin ctx pl files st).2 = .ok st' →
      AccCoherent ctx.collab.fsv ctx.projectRoot L st.acc →
      ((L ++ processedOf ctx files).map
        (fun p => toRelativePosixPath p ctx.projectRoot)).Nodup →
      AccCoherent ctx.collab.fsv ctx.projectRoot (L ++ processedOf ctx files) st'.acc := by
  intro files
  induction files with
  | nil =>
    intro L st st' hok hco _
    injection hok with hok
    subst hok
    simpa [processedOf] using hco
  | cons fp rest ih =>
    intro L st st' hok hco hnd
    simp only [processFilesForPlugin] at hok
    rcases hch : ctx.changed.contains fp with _ | _
    · rw [hch] at hok
      simp only [Bool.not_false, if_true] at hok
      have hpo : processedOf ctx (fp :: rest) = processedOf ctx rest := by
        unfold processedOf
        rw [List.filter_cons]
        simp only [hch, Bool.false_eq_true, if_false]
      rw [hpo] at hnd ⊢
      exact ih L st st' hok hco hnd
    · rw [hch] at hok
      simp only [Bool.not_true, Bool.false_eq_true, if_false] at hok
      have hpo : processedOf ctx (fp :: rest) = fp :: processedOf ctx rest := by
        unfold processedOf
        rw [List.filter_cons]
        simp only [hch, if_true]
      rw [hpo] at hnd ⊢
      rcases hcad : (cadenceStep ctx st.idx).2 with _ | e
      · rw [hcad] at hok
        dsimp only at hok
        have hrfp := hrel fp (List.mem_of_elem_eq_true hch)
        rcases hx : processPluginFile ctx.collab pl fp ((ctx.relPaths.lookup fp).getD "")
          with e | syms
        · rw [hx] at hok
          dsimp only at hok
          cases hok
        · rw [hx] at hok
          dsimp only at hok
          have hrelv : (ctx.relPaths.lookup fp).getD ""
              = toRelativePosixPath fp ctx.projectRoot := by
            rw [hrfp]
            rfl
          have hfresh : toRelativePosixPath fp ctx.projectRoot
              ∉ L.map (fun q => toRelativePosixPath q ctx.projectRoot) :=
            nodup_head_fresh _ L (processedOf ctx rest) fp hnd
          have hnone : st.acc.entries.lookup
              (toRelativePosixPath fp ctx.projectRoot) = none := by
            apply lookup_eq_none_of_keys
            rw [hco.1]
            exact hfresh
          rw [hrelv, hnone] at hok
          dsimp only at hok
          rw [recordSet_append_of_none _ _ _ hnone] at hok
          have hmteq : (ctx.mtimes.lookup fp).getD (ctx.collab.fsv.mtimeOf fp)
              = ctx.collab.fsv.mtimeOf fp := by
            rcases hl : ctx.mtimes.lookup fp with _ | v
            · rfl
            · simpa using hmt fp v (lookup_mem hl)
          have hpush := AccCoherent.push ctx.collab.fsv ctx.projectRoot hco fp
            ⟨(ctx.hashes.lookup fp).getD (ctx.collab.fsv.hashOf fp), syms,
              some ((ctx.mtimes.lookup fp).getD (ctx.collab.fsv.mtimeOf fp))⟩
            (by simp [hmteq]) hfresh
          dsimp only at hpush
          have hres := ih (L ++ [fp]) _ st' hok hpush
            (by rw [List.append_assoc, List.singleton_append]; exact hnd)
          rw [List.append_assoc, List.singleton_append] at hres
          exact hres
      · rw [hcad] at hok
        dsimp only at hok
        cases hok

/-- The whole changed-plugin-file loop preserves coherence,
incorporating the changed files of every bucket in order. -/
theorem processAllPluginFiles_coherent (ctx : PlugCtx)
    (hmt : ∀ (p : AbsPath) (v : Nat), (p, v) ∈ ctx.mtimes → v = ctx.collab.fsv.mtimeOf p)
    (hrel : ∀ fp ∈ ctx.changed, ctx.relPaths.lookup fp
      = some (toRelativePosixPath fp ctx.projectRoot)) :
    ∀ (work : List (Plugin × List AbsPath)) (L : List AbsPath) (st st' : PlugSt),
      (processAllPluginFiles ctx work st).2 = .ok st' →
      AccCoherent ctx.collab.fsv ctx.projectRoot L st.acc →
      ((L ++ work.flatMap (fun w => processedOf ctx w.2)).map
        (fun p => toRelativePosixPath p ctx.projectRoot)).Nodup →
      AccCoherent ctx.collab.fsv ctx.projectRoot
        (L ++ work.flatMap (fun w => processedOf ctx w.2)) st'.acc := by
  intro work
  induction work with
  | nil =>
    intro L st st' hok hco _
    injection hok with hok
    subst hok
    simpa using hco
  | cons plf rest ih =>
    intro L st st' hok hco hnd
    obtain ⟨pl, files⟩ := plf
    simp only [processAllPluginFiles] at hok
    simp only [List.flatMap_cons] at hnd ⊢
    rcases hr : (processFilesForPlugin ctx pl files st).2 with e | st1
    · rw [hr] at hok
      cases hok
    · rw [hr] at hok
      dsimp only at hok
      rw [← List.append_assoc] at hnd ⊢
      have hnd1 : ((L ++ processedOf ctx files).map
          (fun p => toRelativePosixPath p ctx.projectRoot)).Nodup := by
        rw [List.map_append, List.nodup_append] at hnd
        exact hnd.1
      have hco1 := processFilesForPlugin_coherent ctx pl hmt hrel files L st st1 hr hco hnd1
      exact ih (L ++ processedOf ctx files) st1 st' hok hco1 hnd

/-- With an empty changed set, one plugin's bucket loop does nothing. -/
theorem processFilesForPlugin_skip (ctx : PlugCtx) (pl : Plugin)
    (hch : ctx.changed = []) :
    ∀ (files : List AbsPath) (st : PlugSt),
      processFilesForPlugin ctx pl files st = ([], .ok st) := by
  intro files
  induction files with
  | nil => intro st; rfl
  | cons fp rest ih =>
    intro st
    have hc : ctx.changed.contains fp = false := by
      rw [hch]
      rfl
    simp only [processFilesForPlugin, hc, Bool.not_false, if_true]
    exact ih st

/-- With an empty changed set, the whole plugin-file loop does
nothing. -/
theorem processAllPluginFiles_skip (ctx : PlugCtx) (hch : ctx.changed = []) :
    ∀ (work : List (Plugin × List AbsPath)) (st : PlugSt),
      processAllPluginFiles ctx work st = ([], .ok st) := by
  intro work
  induction work with
  | nil => intro st; rfl
  | cons plf rest ih =>
    intro st
    obtain ⟨pl, files⟩ := plf
    simp only [processAllPluginFiles, processFilesForPlugin_skip ctx pl hch files st]
    simpa using ih st

/-- Filtering a duplicate-free list down to a duplicate-free subset
yields a permutation of that subset. -/
theorem filter_mem_perm (s l : List AbsPath) (hl : l.Nodup) (hs : s.Nodup)
    (hsub : ∀ x ∈ s, x ∈ l) :
    (l.filter (fun x => s.contains x)).Perm s := by
  apply List.perm_of_nodup_nodup_toFinset_eq (hl.filter _) hs
  ext x
  simp only [List.mem_toFinset, List.mem_filter]
  constructor
  · rintro ⟨-, hx⟩
    exact List.mem_of_elem_eq_true hx
  · intro hx
    exact ⟨hsub x hx, List.elem_eq_true_of_mem hx⟩

/-- Filtering each plugin bucket and concatenating equals filtering the
concatenated bucket list. -/
theorem flatMap_zip_filter (plugins : List Plugin) (tf : List AbsPath)
    (pred : AbsPath → Bool) :
    (plugins.zip (findAllPluginFilesM plugins tf)).flatMap (fun w => w.2.filter pred)
      = ((findAllPluginFilesM plugins tf).flatMap id).filter pred := by
  unfold findAllPluginFilesM
  induction plugins with
  | nil => rfl
  | cons pl rest ih =>
    simp only [List.map_cons, List.zip_cons_cons, List.flatMap_cons, id]
    rw [List.filter_append, ih]

/-- The files the plugin loop processes over the zipped work list are the
changed files of the concatenated plugin file list, in order. -/
theorem work_processed (collab : Collaborators) (opts : BuildOptions) (ctx : PlugCtx) :
    (opts.plugins.zip (findAllPluginFilesM opts.plugins collab.treeFiles)).flatMap
        (fun w => processedOf ctx w.2)
      = processedOf ctx (allPluginFilesOf collab opts) := by
  unfold processedOf allPluginFilesOf
  exact flatMap_zip_filter opts.plugins collab.treeFiles _

/-- Closed form of the symbols accumulated by the carry-forward pass when
every carried file has a cache entry. -/
theorem carry_symbols_all (cache : CacheManifest) (root : AbsPath)
    (mtimes : List (AbsPath × Nat)) :
    ∀ (ul : List AbsPath) (acc : BuildAcc),
      (∀ p ∈ ul, (cache.files.lookup (toRelativePosixPath p root)).isSome) →
      (carryUnchanged cache root mtimes ul acc).symbols
        = acc.symbols ++ ul.flatMap (fun p =>
            (cachedEntryD cache.files (toRelativePosixPath p root)).symbols) := by
  intro ul
  induction ul with
  | nil => intro acc _; simp [carryUnchanged]
  | cons p ps ih =>
    intro acc h
    have hp := h p (List.mem_cons_self _ _)
    rcases he : cache.files.lookup (toRelativePosixPath p root) with _ | e
    · rw [he] at hp
      cases hp
    · have hce : cachedEntryD cache.files (toRelativePosixPath p root) = e := by
        simp [cachedEntryD, he]
      simp only [carryUnchanged, he]
      rw [ih _ (fun q hq => h q (List.mem_cons_of_mem _ hq))]
      simp only [List.flatMap_cons, hce]
      rw [List.append_assoc]

/-- A successful cache load echoes the recomputed tsconfig hash. -/
theorem loadCache_hash (f : CacheFile) (h : String) (pn : List String) (iv : String)
    (r : LoadCacheResult) (hl : loadCache f (some h) pn iv = some r) :
    r.tsConfigHash = h := by
  cases f with
  | envelope m =>
    simp only [loadCache] at hl
    split_ifs at hl <;> try exact Option.noConfusion hl
    injection hl with hl
    rw [← hl]
  | missing => cases hl
  | unparsable => cases hl
  | badEnvelope => cases hl

/-- The tsconfig hash a build stores in the written manifest is always
the recomputed one. -/
theorem loadResOf_hash (collab : Collaborators) (opts : BuildOptions)
    (cacheFile : CacheFile) :
    (((loadResOf collab opts cacheFile).map (fun r => r.tsConfigHash)).getD
      collab.tsConfigHash) = collab.tsConfigHash := by
  unfold loadResOf
  split_ifs with hinc
  · rcases hl : loadCache cacheFile (some collab.tsConfigHash) (pluginNamesOf opts)
      INDEX_VERSION with _ | r
    · rfl
    · simpa using loadCache_hash cacheFile collab.tsConfigHash (pluginNamesOf opts)
        INDEX_VERSION r hl
  · rfl

/-- A manifest whose envelope fields match the current build
configuration loads successfully. -/
theorem loadCache_roundtrip (m : CacheManifest) (pn : List String) (ts : String)
    (h1 : m.cacheVersion = CACHE_VERSION) (h2 : m.indexVersion = INDEX_VERSION)
    (h3 : sortStrings pn = m.pluginNames) (h4 : m.tsConfigHash = ts) :
    loadCache (.envelope m) (some ts) pn INDEX_VERSION = some ⟨m, ts⟩ := by
  simp only [loadCache]
  rw [if_neg (by simp [h1]), if_neg (by simp [h2]), if_neg (by simp [h3]),
    if_neg (by simp [h4])]

/-- Inversion of a successful plugin phase: either there are no plugins
and the accumulator passes through, or initialization succeeded and the
file loop produced the final accumulator. -/
theorem pluginPhase_ok_inv (collab : Collaborators) (opts : BuildOptions)
    (cache : Option CacheManifest) (acc2 acc3 : BuildAcc)
    (h : (pluginPhase collab opts cache acc2).2 = .ok acc3) :
    (opts.plugins.isEmpty = true ∧ acc3 = acc2) ∨
    ((initPluginsLoop opts.plugins).2.2 = none ∧ ∃ st',
      (processAllPluginFiles (pluginCtxOf collab opts cache)
        (opts.plugins.zip (findAllPluginFilesM opts.plugins collab.treeFiles))
        (pluginStartOf collab opts cache acc2)).2 = .ok st' ∧ acc3 = st'.acc) := by
  simp only [pluginPhase] at h
  rcases he : opts.plugins.isEmpty with _ | _
  · rw [he] at h
    simp only [Bool.false_eq_true, if_false] at h
    rcases hi : (initPluginsLoop opts.plugins).2.2 with _ | e
    · rw [hi] at h
      dsimp only at h
      rcases hpr : (processAllPluginFiles (pluginCtxOf collab opts cache)
          (opts.plugins.zip (findAllPluginFilesM opts.plugins collab.treeFiles))
          (pluginStartOf collab opts cache acc2)).2 with e | st'
      · rw [hpr] at h
        dsimp only at h
        cases h
      · rw [hpr] at h
        dsimp only at h
        injection h with h
        exact Or.inr ⟨rfl, st', rfl, h.symm⟩
    · rw [hi] at h
      dsimp only at h
      cases h
  · rw [he] at h
    simp only [if_true] at h
    injection h with h
    exact Or.inl ⟨rfl, h.symm⟩

/-- When plugin initialization succeeds (or there are no plugins) and
the plugin diff reports no changes, the plugin phase returns the
carried-forward accumulator. -/
theorem pluginPhase_all_unchanged (collab : Collaborators) (opts : BuildOptions)
    (m : CacheManifest) (acc : BuildAcc)
    (hinit : opts.plugins.isEmpty = true ∨ (initPluginsLoop opts.plugins).2.2 = none)
    (hch : (pluginDiffOf collab opts (some m)).changed = []) :
    (pluginPhase collab opts (some m) acc).2
      = .ok (pluginStartOf collab opts (some m) acc).acc := by
  simp only [pluginPhase]
  rcases he : opts.plugins.isEmpty with _ | _
  · simp only [Bool.false_eq_true, if_false]
    rcases hi : (initPluginsLoop opts.plugins).2.2 with _ | e
    · dsimp only
      rw [processAllPluginFiles_skip (pluginCtxOf collab opts (some m)) hch
        (opts.plugins.zip (findAllPluginFilesM opts.plugins collab.treeFiles))
        (pluginStartOf collab opts (some m) acc)]
    · rcases hinit with h1 | h2
      · rw [he] at h1
        cases h1
      · rw [hi] at h2
        cases h2
  · simp only [if_true]
    have hempty : opts.plugins = [] := List.isEmpty_iff.mp he
    have hunch : (pluginDiffOf collab opts (some m)).unchanged = [] := by
      have hfl : allPluginFilesOf collab opts = [] := by
        unfold allPluginFilesOf findAllPluginFilesM
        rw [hempty]
        rfl
      unfold pluginDiffOf
      rw [hfl]
      rfl
    unfold pluginStartOf
    rw [hunch]
    rfl

/-- A successful TS phase produces an accumulator coherent with the
unchanged-then-changed ordering of the TS diff. -/
theorem tsPhase_coherent (collab : Collaborators) (root : AbsPath)
    (cache : Option CacheManifest) (tsFiles : List AbsPath) (acc2 : BuildAcc)
    (hok : tsPhase collab root cache tsFiles = .ok acc2)
    (hnd : (((computeDiff tsFiles root cache collab.fsv).unchanged
        ++ (computeDiff tsFiles root cache collab.fsv).changed).map
          (fun p => toRelativePosixPath p root)).Nodup) :
    AccCoherent collab.fsv root
      ((computeDiff tsFiles root cache collab.fsv).unchanged
        ++ (computeDiff tsFiles root cache collab.fsv).changed) acc2 := by
  have hbase : AccCoherent collab.fsv root [] ⟨[], []⟩ := by
    refine ⟨rfl, rfl, ?_⟩
    intro p hp
    cases hp
  cases cache with
  | none =>
    simp only [tsPhase] at hok
    have hmts : ∀ (p : AbsPath) (v : Nat),
        (p, v) ∈ (computeDiff tsFiles root none collab.fsv).mtimes
          → v = collab.fsv.mtimeOf p :=
      fun p v hv => computeDiff_mtimes_sound _ _ _ _ hv
    have hco := extractChanged_coherent collab root _ _ hmts
      (computeDiff tsFiles root none collab.fsv).changed [] ⟨[], []⟩ acc2 hok hbase
      (by simpa using hnd)
    simpa using hco
  | some c =>
    simp only [tsPhase] at hok
    have hmts : ∀ (p : AbsPath) (v : Nat),
        (p, v) ∈ (computeDiff tsFiles root (some c) collab.fsv).mtimes
          → v = collab.fsv.mtimeOf p :=
      fun p v hv => computeDiff_mtimes_sound _ _ _ _ hv
    have hlk : ∀ p ∈ (computeDiff tsFiles root (some c) collab.fsv).unchanged,
        (c.files.lookup (toRelativePosixPath p root)).isSome := by
      intro p hp
      obtain ⟨e, he⟩ := computeDiff_unchanged_found tsFiles root c collab.fsv hp
      rw [he]
      rfl
    have hml : ∀ p ∈ (computeDiff tsFiles root (some c) collab.fsv).unchanged,
        (computeDiff tsFiles root (some c) collab.fsv).mtimes.lookup p
          = some (collab.fsv.mtimeOf p) := by
      intro p hp
      obtain ⟨e, he, -⟩ := (processChecks_unchanged_iff collab.fsv).mp hp
      exact processChecks_mtimes_lookup collab.fsv he
    have hnd1 : ((([] : List AbsPath)
        ++ (computeDiff tsFiles root (some c) collab.fsv).unchanged).map
          (fun p => toRelativePosixPath p root)).Nodup := by
      rw [List.nil_append]
      rw [List.map_append, List.nodup_append] at hnd
      exact hnd.1
    have hcarry := carryUnchanged_coherent c root
      (computeDiff tsFiles root (some c) collab.fsv).mtimes collab.fsv
      (computeDiff tsFiles root (some c) collab.fsv).unchanged [] ⟨[], []⟩
      hbase hlk hml hnd1
    rw [List.nil_append] at hcarry
    exact extractChanged_coherent collab root _ _ hmts
      (computeDiff tsFiles root (some c) collab.fsv).changed
      (computeDiff tsFiles root (some c) collab.fsv).unchanged _ acc2 hok hcarry hnd

/-- When every TS file's cache entry stores its live mtime, the TS phase
succeeds by pure carry-forward and returns the cached symbols in file
order. -/
theorem tsPhase_all_unchanged (collab : Collaborators) (root : AbsPath) (m : CacheManifest)
    (tsFiles : List AbsPath)
    (h : ∀ p ∈ tsFiles, ∃ en, m.files.lookup (toRelativePosixPath p root) = some en ∧
      en.mtimeMs = some (collab.fsv.mtimeOf p)) :
    ∃ acc1, tsPhase collab root (some m) tsFiles = .ok acc1 ∧
      acc1.symbols = tsFiles.flatMap (fun p =>
        (cachedEntryD m.files (toRelativePosixPath p root)).symbols) := by
  obtain ⟨hch, hunch, -, -⟩ := computeDiff_all_fast tsFiles root m collab.fsv h
  refine ⟨carryUnchanged m root (computeDiff tsFiles root (some m) collab.fsv).mtimes
      tsFiles ⟨[], []⟩, ?_, ?_⟩
  · simp only [tsPhase]
    rw [hch, hunch]
    rfl
  · rw [carry_symbols_all m root _ tsFiles ⟨[], []⟩ (fun p hp => by
      obtain ⟨en, hen, -⟩ := h p hp
      rw [hen]
      rfl)]
    rfl

/-- A successful build's final accumulator is coherent with some
ordering of the current file list: its entries are keyed by exactly the
relative paths of the current files, each entry stores its file's live
mtime, and the accumulated symbols are the concatenation of the entry
symbols in that order. -/
theorem generateDocIndex_ok_coherent (collab : Collaborators) (opts : BuildOptions)
    (cache : Option CacheManifest) (acc2 acc3 : BuildAcc)
    (hts : tsPhase collab opts.projectRoot cache (tsFilesOf opts) = .ok acc2)
    (hpp : (pluginPhase collab opts cache acc2).2 = .ok acc3)
    (hndrel : ((tsFilesOf opts ++ allPluginFilesOf collab opts).map
      (fun p => toRelativePosixPath p opts.projectRoot)).Nodup) :
    ∃ ORD : List AbsPath, ORD.Perm (tsFilesOf opts ++ allPluginFilesOf collab opts) ∧
      AccCoherent collab.fsv opts.projectRoot ORD acc3 := by
  have hpermTL : ((computeDiff (tsFilesOf opts) opts.projectRoot cache collab.fsv).unchanged
      ++ (computeDiff (tsFilesOf opts) opts.projectRoot cache collab.fsv).changed).Perm
        (tsFilesOf opts) :=
    List.perm_append_comm.trans
      (computeDiff_parts_perm (tsFilesOf opts) opts.projectRoot cache collab.fsv)
  rcases pluginPhase_ok_inv collab opts cache acc2 acc3 hpp with
    ⟨hemp, hacc⟩ | ⟨hinit, st', hproc, hacc⟩
  · -- no plugins: the accumulator is the TS accumulator
    have hplugins : opts.plugins = [] := List.isEmpty_iff.mp hemp
    have hflP : allPluginFilesOf collab opts = [] := by
      unfold allPluginFilesOf findAllPluginFilesM
      rw [hplugins]
      rfl
    refine ⟨(computeDiff (tsFilesOf opts) opts.projectRoot cache collab.fsv).unchanged
      ++ (computeDiff (tsFilesOf opts) opts.projectRoot cache collab.fsv).changed, ?_, ?_⟩
    · rw [hflP, List.append_nil]
      exact hpermTL
    · rw [hacc]
      apply tsPhase_coherent collab opts.projectRoot cache (tsFilesOf opts) acc2 hts
      have hnd1 : ((tsFilesOf opts).map
          (fun p => toRelativePosixPath p opts.projectRoot)).Nodup := by
        rw [hflP, List.append_nil] at hndrel
        exact hndrel
      exact ((hpermTL.map _).nodup_iff).mpr hnd1
  · -- plugins initialized; the file loop ran
    have hpermPd : ((pluginDiffOf collab opts cache).unchanged
        ++ (pluginDiffOf collab opts cache).changed).Perm (allPluginFilesOf collab opts) :=
      List.perm_append_comm.trans
        (computeDiff_parts_perm (allPluginFilesOf collab opts) opts.projectRoot cache
          collab.fsv)
    have hnd0 := hndrel
    rw [List.map_append, List.nodup_append] at hnd0
    have hnodP : (allPluginFilesOf collab opts).Nodup := hnd0.2.1.of_map
    have hndchg : (pluginDiffOf collab opts cache).changed.Nodup := by
      have h1 : ((pluginDiffOf collab opts cache).unchanged
          ++ (pluginDiffOf collab opts cache).changed).Nodup :=
        (hpermPd.nodup_iff).mpr hnodP
      exact (List.nodup_append.mp h1).2.1
    have hpermProc : (processedOf (pluginCtxOf collab opts cache)
        (allPluginFilesOf collab opts)).Perm (pluginDiffOf collab opts cache).changed := by
      unfold processedOf
      exact filter_mem_perm _ _ hnodP hndchg
        (computeDiff_changed_sub (allPluginFilesOf collab opts) opts.projectRoot cache
          collab.fsv)
    have hpermP2 : ((pluginDiffOf collab opts cache).unchanged
        ++ processedOf (pluginCtxOf collab opts cache) (allPluginFilesOf collab opts)).Perm
          (allPluginFilesOf collab opts) :=
      (List.Perm.append_left _ hpermProc).trans hpermPd
    have hpermO := hpermTL.append hpermP2
    refine ⟨_, hpermO, ?_⟩
    have hndO := ((hpermO.map
      (fun p => toRelativePosixPath p opts.projectRoot)).nodup_iff).mpr hndrel
    have hndTL : (((computeDiff (tsFilesOf opts) opts.projectRoot cache
        collab.fsv).unchanged
        ++ (computeDiff (tsFilesOf opts) opts.projectRoot cache collab.fsv).changed).map
          (fun p => toRelativePosixPath p opts.projectRoot)).Nodup := by
      have h := hndO
      rw [List.map_append, List.nodup_append] at h
      exact h.1
    have hco2 := tsPhase_coherent collab opts.projectRoot cache (tsFilesOf opts) acc2
      hts hndTL
    have hndO2 : ((((computeDiff (tsFilesOf opts) opts.projectRoot cache
        collab.fsv).unchanged
        ++ (computeDiff (tsFilesOf opts) opts.projectRoot cache collab.fsv).changed)
        ++ ((pluginDiffOf collab opts cache).unchanged
          ++ processedOf (pluginCtxOf collab opts cache)
            (allPluginFilesOf collab opts))).map
          (fun p => toRelativePosixPath p opts.projectRoot)).Nodup := hndO
    rw [← List.append_assoc] at hndO2
    have hndStart : ((((computeDiff (tsFilesOf opts) opts.projectRoot cache
        collab.fsv).unchanged
        ++ (computeDiff (tsFilesOf opts) opts.projectRoot cache collab.fsv).changed)
        ++ (pluginDiffOf collab opts cache).unchanged).map
          (fun p => toRelativePosixPath p opts.projectRoot)).Nodup := by
      have h := hndO2
      rw [List.map_append, List.nodup_append] at h
      exact h.1
    have hstart : AccCoherent collab.fsv opts.projectRoot
        (((computeDiff (tsFilesOf opts) opts.projectRoot cache collab.fsv).unchanged
          ++ (computeDiff (tsFilesOf opts) opts.projectRoot cache collab.fsv).changed)
          ++ (pluginDiffOf collab opts cache).unchanged)
        (pluginStartOf collab opts cache acc2).acc := by
      cases cache with
      | none =>
        have hu : (pluginDiffOf collab opts none).unchanged = [] := rfl
        rw [hu, List.append_nil]
        exact hco2
      | some c =>
        unfold pluginStartOf
        dsimp only
        apply carryUnchanged_coherent c opts.projectRoot
          (pluginDiffOf collab opts (some c)).mtimes collab.fsv
          (pluginDiffOf collab opts (some c)).unchanged _ acc2 hco2
        · intro p hp
          obtain ⟨e, he⟩ := computeDiff_unchanged_found (allPluginFilesOf collab opts)
            opts.projectRoot c collab.fsv hp
          rw [he]
          rfl
        · intro p hp
          obtain ⟨e, he, -⟩ := (processChecks_unchanged_iff collab.fsv).mp hp
          exact processChecks_mtimes_lookup collab.fsv he
        · exact hndStart
    have hctxmt : ∀ (p : AbsPath) (v : Nat),
        (p, v) ∈ (pluginCtxOf collab opts cache).mtimes
          → v = (pluginCtxOf collab opts cache).collab.fsv.mtimeOf p :=
      fun p v hv => computeDiff_mtimes_sound (allPluginFilesOf collab opts)
        opts.projectRoot cache collab.fsv hv
    have hctxrel : ∀ fp ∈ (pluginCtxOf collab opts cache).changed,
        (pluginCtxOf collab opts cache).relPaths.lookup fp
          = some (toRelativePosixPath fp (pluginCtxOf collab opts cache).projectRoot) :=
      fun fp hfp => lookup_map_self _ _ fp hfp
    have hfin := processAllPluginFiles_coherent (pluginCtxOf collab opts cache)
      hctxmt hctxrel
      (opts.plugins.zip (findAllPluginFilesM opts.plugins collab.treeFiles))
      (((computeDiff (tsFilesOf opts) opts.projectRoot cache collab.fsv).unchanged
        ++ (computeDiff (tsFilesOf opts) opts.projectRoot cache collab.fsv).changed)
        ++ (pluginDiffOf collab opts cache).unchanged)
      (pluginStartOf collab opts cache acc2) st' hproc hstart
      (by rw [work_processed collab opts (pluginCtxOf collab opts cache)]; exact hndO2)
    rw [work_processed collab opts (pluginCtxOf collab opts cache)] at hfin
    rw [hacc]
    rw [List.append_assoc] at hfin
    exact hfin

/-- Claim C4 (amended): provided the current files of the build map to
pairwise-distinct relative paths (in particular no file is claimed by
more than one plugin and the directory walk reports no duplicates) and
the first snapshot's symbol ids are pairwise distinct, rebuilding
incrementally against the manifest written by a successful incremental
build, with no intervening filesystem change, yields the same index
snapshot except for the generation timestamp. -/
theorem C4_amended_idempotent (collab : Collaborators) (opts : BuildOptions)
    (cacheFile : CacheFile) (t1 t2 : Nat) (tr1 : List BuildEvent)
    (idx1 : DocIndex) (m1 : CacheManifest)
    (hinc : opts.incremental = true)
    (hrun1 : generateDocIndex collab opts cacheFile t1 = (tr1, .ok (idx1, some m1)))
    (hndrel : ((tsFilesOf opts ++ allPluginFilesOf collab opts).map
      (fun p => toRelativePosixPath p opts.projectRoot)).Nodup)
    (hndids : (idx1.symbols.map (fun s => s.id)).Nodup) :
    ∃ (tr2 : List BuildEvent) (m2 : CacheManifest),
      generateDocIndex collab opts (.envelope m1) t2
        = (tr2, .ok ({ idx1 with generatedAt := t2 }, some m2)) := by
  simp only [generateDocIndex] at hrun1
  rcases hts : tsPhase collab opts.projectRoot (cacheOf collab opts cacheFile)
      (tsFilesOf opts) with e | acc2
  · rw [hts] at hrun1
    injection hrun1 with h1 h2
    exact Except.noConfusion h2
  · rw [hts] at hrun1
    dsimp only at hrun1
    rcases hpp : (pluginPhase collab opts (cacheOf collab opts cacheFile) acc2).2
        with e | acc3
    · rw [hpp] at hrun1
      dsimp only at hrun1
      injection hrun1 with h1 h2
      exact Except.noConfusion h2
    · rw [hpp] at hrun1
      dsimp only at hrun1
      rw [if_pos hinc] at hrun1
      injection hrun1 with htr hsnd
      injection hsnd with hsnd
      injection hsnd with hidx hms
      injection hms with hm
      have hm_files : m1.files = acc3.entries := by rw [← hm]
      have hm_cv : m1.cacheVersion = CACHE_VERSION := by rw [← hm]
      have hm_iv : m1.indexVersion = INDEX_VERSION := by rw [← hm]
      have hm_pn : m1.pluginNames = pluginNamesOf opts := by rw [← hm]
      have hm_ts : m1.tsConfigHash = collab.tsConfigHash := by
        rw [← hm]
        exact loadResOf_hash collab opts cacheFile
      obtain ⟨ORD, hpermO, hco⟩ := generateDocIndex_ok_coherent collab opts
        (cacheOf collab opts cacheFile) acc2 acc3 hts hpp hndrel
      have hentry : ∀ p ∈ tsFilesOf opts ++ allPluginFilesOf collab opts,
          ∃ en, m1.files.lookup (toRelativePosixPath p opts.projectRoot) = some en ∧
            en.mtimeMs = some (collab.fsv.mtimeOf p) := by
        intro p hp
        obtain ⟨en, hen, hmt2⟩ := hco.2.2 p (hpermO.mem_iff.mpr hp)
        exact ⟨en, by rw [hm_files]; exact hen, hmt2⟩
      have hload : loadResOf collab opts (.envelope m1)
          = some ⟨m1, collab.tsConfigHash⟩ := by
        unfold loadResOf
        rw [if_pos hinc]
        exact loadCache_roundtrip m1 (pluginNamesOf opts) collab.tsConfigHash hm_cv hm_iv
          (by rw [hm_pn]; exact sortStrings_idem (opts.plugins.map (fun p => p.name)))
          hm_ts
      have hcache2 : cacheOf collab opts (.envelope m1) = some m1 := by
        unfold cacheOf
        rw [hload]
        rfl
      obtain ⟨acc2x, hts2, hsym2⟩ := tsPhase_all_unchanged collab opts.projectRoot m1
        (tsFilesOf opts) (fun p hp => hentry p (List.mem_append.mpr (Or.inl hp)))
      obtain ⟨hchP, hunchP, -, -⟩ := computeDiff_all_fast (allPluginFilesOf collab opts)
        opts.projectRoot m1 collab.fsv
        (fun p hp => hentry p (List.mem_append.mpr (Or.inr hp)))
      have hchPd : (pluginDiffOf collab opts (some m1)).changed = [] := hchP
      have hunchPd : (pluginDiffOf collab opts (some m1)).unchanged
          = allPluginFilesOf collab opts := hunchP
      have hinit2 : opts.plugins.isEmpty = true
          ∨ (initPluginsLoop opts.plugins).2.2 = none := by
        rcases pluginPhase_ok_inv collab opts (cacheOf collab opts cacheFile) acc2 acc3 hpp
          with ⟨h1, -⟩ | ⟨h2, -⟩
        · exact Or.inl h1
        · exact Or.inr h2
      have hpp2 := pluginPhase_all_unchanged collab opts m1 acc2x hinit2 hchPd
      have hstart_syms : (pluginStartOf collab opts (some m1) acc2x).acc.symbols
          = acc2x.symbols ++ (allPluginFilesOf collab opts).flatMap
              (fun p => (cachedEntryD m1.files
                (toRelativePosixPath p opts.projectRoot)).symbols) := by
        unfold pluginStartOf
        dsimp only
        rw [hunchPd]
        exact carry_symbols_all m1 opts.projectRoot
          (pluginDiffOf collab opts (some m1)).mtimes (allPluginFilesOf collab opts) acc2x
          (fun p hp => by
            obtain ⟨en, hen, -⟩ := hentry p (List.mem_append.mpr (Or.inr hp))
            rw [hen]
            rfl)
      have hidxs : idx1.symbols = stableSort symLt acc3.symbols := by rw [← hidx]
      have hsyms_perm : ((pluginStartOf collab opts (some m1) acc2x).acc.symbols).Perm
          acc3.symbols := by
        rw [hstart_syms, hsym2, ← List.flatMap_append, hco.2.1, ← hm_files]
        exact hpermO.symm.flatMap_right _
      have hsorted_eq : stableSort symLt
            (pluginStartOf collab opts (some m1) acc2x).acc.symbols
          = stableSort symLt acc3.symbols := by
        apply sorted_perm_eq (fun s => s.id)
        · exact (stableSort_perm symLt _).trans
            (hsyms_perm.trans (stableSort_perm symLt _).symm)
        · exact stableSort_pairwise symLt (fun a b h => strLt_asymm _ _ h)
            (fun a b c h1 h2 => strLt_trans _ _ _ h1 h2) _
        · exact stableSort_pairwise symLt (fun a b h => strLt_asymm _ _ h)
            (fun a b c h1 h2 => strLt_trans _ _ _ h1 h2) _
        · have hp2 : (stableSort symLt
              (pluginStartOf collab opts (some m1) acc2x).acc.symbols).Perm
                idx1.symbols := by
            rw [hidxs]
            exact (stableSort_perm symLt _).trans
              (hsyms_perm.trans (stableSort_perm symLt _).symm)
          exact ((hp2.map (fun s => s.id)).nodup_iff).mpr hndids
      have hidx_new : (⟨INDEX_VERSION, t2, opts.projectRoot, stableSort symLt
            (pluginStartOf collab opts (some m1) acc2x).acc.symbols⟩ : DocIndex)
          = { idx1 with generatedAt := t2 } := by
        rw [← hidx]
        dsimp only
        rw [hsorted_eq]
      have heq : generateDocIndex collab opts (.envelope m1) t2
          = ((pluginPhase collab opts (some m1) acc2x).1
              ++ [BuildEvent.writeIndex, BuildEvent.writeCache],
            .ok ({ idx1 with generatedAt := t2 },
              some ⟨CACHE_VERSION, INDEX_VERSION,
                ((loadResOf collab opts (.envelope m1)).map
                  (fun r => r.tsConfigHash)).getD collab.tsConfigHash,
                pluginNamesOf opts,
                (pluginStartOf collab opts (some m1) acc2x).acc.entries⟩)) := by
        simp only [generateDocIndex, hcache2, hts2]
        rw [hpp2]
        dsimp only
        rw [if_pos hinc, hidx_new]
      exact ⟨_, _, heq⟩

/-- Witness for the amended Claim C4: over the one-file fixture project,
the first incremental build at time 5 yields `idxW4` and writes `mW4`;
rebuilding against that manifest at time 9 reproduces the same snapshot
with only the timestamp updated. -/
theorem C4_amended_witness :
    ∃ (tr2 : List BuildEvent) (m2 : CacheManifest),
      generateDocIndex collabW4 optsW4 (.envelope mW4) 9
        = (tr2, .ok ({ idxW4 with generatedAt := 9 }, some m2)) :=
  C4_amended_idempotent collabW4 optsW4 .missing 5 9
    [BuildEvent.writeIndex, BuildEvent.writeCache] idxW4 mW4
    rfl rfl (by decide) (by decide)

end Armillary
